import Mathlib

/-!
# Triangle counting over a compressed-row sparse matrix

A shallow embedding of `src/head/helpers.c` (the "final version" module) and of
the dense converters of `src/pthreads.c`.

Conventions of the embedding.

* A C array is a `List`; reading slot `i` is `getD i 0` and writing slot `i` is
  `List.set`.  Reads and writes outside the allocated length are undefined in C;
  the theorems below carry the hypotheses under which every access is in range,
  and the builder has a second model, in `Option`, that checks the accesses to
  `rowIndex`.
* `uint` values are `Nat`, `int` values are `Int`.  The result of an arithmetic
  operation on `int` is reduced to 32-bit two's complement (`toInt32`): signed
  overflow is undefined in C and wraps around in the compiled code.  Counters and
  offsets are assumed to stay below the machine word, except in `countTriangles`,
  where the accumulation `uint += int` is reduced modulo `2 ^ 32` explicitly.
* A `for` loop over `lo <= i < hi` is a left fold over `List.range' lo (hi - lo)`;
  a search loop that leaves with `break` at the first hit is `List.find?`.
* `realloc` keeps the old contents; the slots it adds are filled with `0`.
-/

namespace PdsPart1

/-- The `csr` record of `headers/csr.h`: `{size, values, colIndex, rowIndex}`. -/
structure csr where
  size : Nat
  values : List Int
  colIndex : List Nat
  rowIndex : List Nat
deriving DecidableEq

/-- The value of an `int` expression whose exact result is `x`: `x` reduced to the
range `-2 ^ 31 <= . < 2 ^ 31` modulo `2 ^ 32`. -/
def toInt32 (x : Int) : Int := (x + 2147483648) % 4294967296 - 2147483648

/-- The buffer `buf` resized to `n` slots: old contents kept, new slots `fill`. -/
def realloc {α : Type} (buf : List α) (n : Nat) (fill : α) : List α :=
  buf.take n ++ List.replicate (n - buf.length) fill

/-! ## `readmtx_dynamic` (helpers.c 18-94) -/

/-- Lines 52-55 (and 59-62): store `v` behind the last entry of row `r` of
`valuesByRow`, bump the count kept in slot 0, and grow the row by one slot. -/
def appendToRow (valuesByRow : List (List Nat)) (r v : Nat) : List (List Nat) :=
  let buf := valuesByRow.getD r []
  let newEntry := buf.getD 0 0 + 1
  let buf := buf.set newEntry v
  let buf := buf.set 0 (buf.getD 0 0 + 1)
  let buf := realloc buf (buf.getD 0 0 + 2) 0
  valuesByRow.set r buf

/-- One turn of the edge loop (lines 45-65) on the pair `(row, col)` read from the
file; the state is `(valuesByRow, nonzeros)`.  The labels of the file are 1-based
and are decremented; a label `0` would address slot `-1` in C and lies outside the
domain of the theorems (`InRange`). -/
def edgeStep (st : List (List Nat) × Nat) (e : Nat × Nat) : List (List Nat) × Nat :=
  let row := e.1 - 1
  let col := e.2 - 1
  let valuesByRow := appendToRow st.1 row col
  let nonzeros := st.2 + 1
  if row ≠ col then (appendToRow valuesByRow col row, nonzeros + 1)
  else (valuesByRow, nonzeros)

/-- One turn of the inner flattening loop (lines 80-85); the state is
`(rowIndex, colIndex)`. -/
def flattenCell (valuesByRow : List (List Nat)) (row : Nat)
    (st : List Nat × List Nat) (column : Nat) : List Nat × List Nat :=
  let currentNonzeros := st.1.getD (row + 1) 0
  let colIndex := st.2.set currentNonzeros ((valuesByRow.getD row []).getD column 0)
  (st.1.set (row + 1) (st.1.getD (row + 1) 0 + 1), colIndex)

/-- One turn of the outer flattening loop (lines 77-90). -/
def flattenRow (valuesByRow : List (List Nat)) (N : Nat)
    (st : List Nat × List Nat) (row : Nat) : List Nat × List Nat :=
  let rowNonzeros := (valuesByRow.getD row []).getD 0 0
  let st := (List.range' 1 rowNonzeros).foldl (flattenCell valuesByRow row) st
  if row < N - 1 then (st.1.set (row + 2) (st.1.getD (row + 1) 0), st.2) else st

/-- Lines 39-93 of `readmtx_dynamic`: the per-row buffers, the edge loop over the
`nz` pairs of the file (`edges`), and the flattening into the three CSR arrays.
Line 74 requests `N` slots for `rowIndex` and the loop reads and writes the slots
`0..N`.  This is the run in which slot `N` lies inside the block the allocator
returned, an array of `N + 1` slots; `buildFromEdgesChecked` is the run with the
accesses to `rowIndex` checked against the number of slots obtained. -/
def buildFromEdges (N : Nat) (edges : List (Nat × Nat)) : csr :=
  let valuesByRow := List.replicate N [0, 0]
  let st := edges.foldl edgeStep (valuesByRow, 0)
  let valuesByRow := st.1
  let nonzeros := st.2
  let values : List Int := List.replicate nonzeros 1
  let fl := (List.range N).foldl (flattenRow valuesByRow N)
    (List.replicate (N + 1) 0, List.replicate nonzeros 0)
  { size := N, values := values, colIndex := fl.2, rowIndex := fl.1 }

/-- The routine `readmtx_dynamic`: `banner` and `result` are the return codes of
the two header reads, `M` and `N` the declared row and column counts, `edges` the
`nz` pairs of the body.  The two early returns give `{0, NULL, NULL, NULL}`. -/
def readmtx_dynamic (banner result : Int) (M N : Nat) (edges : List (Nat × Nat)) : csr :=
  if N ≠ M then { size := 0, values := [], colIndex := [], rowIndex := [] }
  else if banner ≠ 0 ∨ result ≠ 0 then { size := 0, values := [], colIndex := [], rowIndex := [] }
  else buildFromEdges N edges

/-! ## `dot` (helpers.c 145-168) -/

/-- The sparse dot product.  `lastMatch` is set to `colStart - 1` once and never
assigned again, so every inner scan starts at `lastMatch + 1 = colStart`
(in `uint` arithmetic also when `colStart = 0`) and stops at its first hit.  The
product and the accumulation `value += ...` of line 160 are `int` operations. -/
def dot (table : csr) (row column : Nat) : Int :=
  let rowStart := table.rowIndex.getD row 0
  let rowEnd := table.rowIndex.getD (row + 1) 0
  let colStart := table.rowIndex.getD column 0
  let colEnd := table.rowIndex.getD (column + 1) 0
  (List.range' rowStart (rowEnd - rowStart)).foldl (fun value i =>
    match (List.range' colStart (colEnd - colStart)).find?
        (fun j => table.colIndex.getD i 0 == table.colIndex.getD j 0) with
    | some j => toInt32 (value + toInt32 (table.values.getD i 0 * table.values.getD j 0))
    | none => value) 0

/-! ## `csrSquare` (helpers.c 228-310) -/

/-- The locals of `csrSquare` that change during the loops. -/
structure SquareState where
  resizes : Nat
  newValues : List Int
  newColIndex : List Nat
  newNonzeros : Nat
  newRowIndex : List Nat
deriving DecidableEq

/-- One turn of the inner loop of `csrSquare` (lines 255-292); `column` is the
loop variable, a position in `table.colIndex`. -/
def csrSquareCell (table : csr) (size row : Nat) (st : SquareState) (column : Nat) :
    SquareState :=
  let st :=
    if st.newNonzeros = st.resizes * size - 1 then
      { st with
        resizes := st.resizes + 5
        newValues := realloc st.newValues (size * (st.resizes + 5)) 0
        newColIndex := realloc st.newColIndex (size * (st.resizes + 5)) 0 }
    else st
  let cellValue := dot table row (table.colIndex.getD column 0)
  if cellValue > 0 then
    { st with
      newValues := st.newValues.set st.newNonzeros cellValue
      newColIndex := st.newColIndex.set st.newNonzeros column
      newNonzeros := st.newNonzeros + 1 }
  else st

/-- One turn of the outer loop of `csrSquare` (lines 247-298). -/
def csrSquareRow (table : csr) (size : Nat) (st : SquareState) (row : Nat) : SquareState :=
  let st := { st with newRowIndex := st.newRowIndex.set row st.newNonzeros }
  let start := table.rowIndex.getD row 0
  let stop := table.rowIndex.getD (row + 1) 0
  let st := (List.range' start (stop - start)).foldl (csrSquareCell table size row) st
  if row = size - 1 then { st with newRowIndex := st.newRowIndex.set size st.newNonzeros }
  else st

/-- The state of `csrSquare` when its outer loop has ended. -/
def csrSquareLoop (table : csr) (size : Nat) : SquareState :=
  (List.range size).foldl (csrSquareRow table size)
    { resizes := 5
      newValues := List.replicate (5 * size) 0
      newColIndex := List.replicate (5 * size) 0
      newNonzeros := 0
      newRowIndex := List.replicate (size + 1) 0 }

/-- The routine `csrSquare`: the loop, then both buffers trimmed to `newNonzeros`. -/
def csrSquare (table : csr) (size : Nat) : csr :=
  let st := csrSquareLoop table size
  { size := size
    values := realloc st.newValues st.newNonzeros 0
    colIndex := realloc st.newColIndex st.newNonzeros 0
    rowIndex := st.newRowIndex }

/-! ## `newhadamard` (helpers.c 315-364) -/

/-- The locals of `newhadamard` that change during the loops, together with the
`values` array of its first argument, which the routine writes through the
pointer it shares with the caller. -/
structure HadamardState where
  tableValues : List Int
  newValues : List Int
  newColIndex : List Nat
  newNonzeros : Nat
  newRowIndex : List Nat
deriving DecidableEq

/-- One turn of the loop over `j` (lines 335-347): the scan over `k` stops at the
first position of the row of `square` that has the column of position `j`. -/
def newhadamardCell (csrTable square : csr) (i : Nat) (st : HadamardState) (j : Nat) :
    HadamardState :=
  let kStart := square.rowIndex.getD i 0
  let kEnd := square.rowIndex.getD (i + 1) 0
  match (List.range' kStart (kEnd - kStart)).find?
      (fun k => csrTable.colIndex.getD j 0 == square.colIndex.getD k 0) with
  | some k =>
    let tableValues := st.tableValues.set j (square.values.getD k 0)
    { st with
      tableValues := tableValues
      newValues := st.newValues.set st.newNonzeros (tableValues.getD j 0)
      newColIndex := st.newColIndex.set st.newNonzeros (csrTable.colIndex.getD j 0)
      newNonzeros := st.newNonzeros + 1 }
  | none => st

/-- One turn of the loop over `i` (lines 332-352). -/
def newhadamardRow (csrTable square : csr) (size : Nat) (st : HadamardState) (i : Nat) :
    HadamardState :=
  let st := { st with newRowIndex := st.newRowIndex.set i st.newNonzeros }
  let jStart := csrTable.rowIndex.getD i 0
  let jEnd := csrTable.rowIndex.getD (i + 1) 0
  let st := (List.range' jStart (jEnd - jStart)).foldl (newhadamardCell csrTable square i) st
  if i = size - 1 then { st with newRowIndex := st.newRowIndex.set size st.newNonzeros }
  else st

/-- The state of `newhadamard` when its outer loop has ended. -/
def newhadamardLoop (csrTable square : csr) (size : Nat) : HadamardState :=
  let oldNonzeros := csrTable.rowIndex.getD size 0
  (List.range size).foldl (newhadamardRow csrTable square size)
    { tableValues := csrTable.values
      newValues := List.replicate oldNonzeros 0
      newColIndex := List.replicate oldNonzeros 0
      newNonzeros := 0
      newRowIndex := List.replicate (size + 1) 0 }

/-- The routine `newhadamard`: the loop, then both buffers trimmed to `newNonzeros`. -/
def newhadamard (csrTable square : csr) (size : Nat) : csr :=
  let st := newhadamardLoop csrTable square size
  { size := size
    values := realloc st.newValues st.newNonzeros 0
    colIndex := realloc st.newColIndex st.newNonzeros 0
    rowIndex := st.newRowIndex }

/-! ## `countTriangles` (helpers.c 171-195) -/

/-- The sum `t += v` of a `uint` and an `int`, reduced modulo `2 ^ 32`. -/
def uintAdd (t : Nat) (v : Int) : Nat :=
  (((t : Int) + v) % (2 ^ 32 : Int)).toNat

/-- One turn of the inner loop of `countTriangles` (lines 184-191) for row `i`
whose positions end at `stop`. -/
def countCell (C : csr) (i stop : Nat) (triangleCount : List Nat) (j : Nat) : List Nat :=
  let triangleCount := triangleCount.set i (uintAdd (triangleCount.getD i 0) (C.values.getD j 0))
  if j = stop - 1 then triangleCount.set i (triangleCount.getD i 0 / 2) else triangleCount

/-- The routine `countTriangles`. -/
def countTriangles (C : csr) : List Nat :=
  let size := C.size
  (List.range size).foldl (fun triangleCount i =>
    let start := C.rowIndex.getD i 0
    let stop := C.rowIndex.getD (i + 1) 0
    (List.range' start (stop - start)).foldl (countCell C i stop) triangleCount)
    (List.replicate size 0)

/-- The composition builder, `csrSquare`, `newhadamard`, `countTriangles` on an
edge list whose header was read without error and declares an `N x N` matrix. -/
def pipeline (N : Nat) (edges : List (Nat × Nat)) : List Nat :=
  let A := readmtx_dynamic 0 0 N N edges
  let S := csrSquare A N
  let C := newhadamard A S N
  countTriangles C



/-! ## `hadamardSingleStep` (helpers.c 97-141) -/

/-- The locals of `hadamardSingleStep` that change during the loops. -/
structure SingleStepState where
  newValues : List Int
  newColIndex : List Nat
  newNonzeros : Nat
  newRowIndex : List Nat
deriving DecidableEq

/-- One turn of the inner loop of `hadamardSingleStep` (lines 116-128). -/
def hadamardSingleStepCell (table : csr) (row : Nat) (st : SingleStepState) (index : Nat) :
    SingleStepState :=
  let currentColumn := table.colIndex.getD index 0
  let value := dot table row currentColumn
  if value > 0 then
    { newValues := st.newValues.set st.newNonzeros value
      newColIndex := st.newColIndex.set st.newNonzeros currentColumn
      newNonzeros := st.newNonzeros + 1
      newRowIndex := st.newRowIndex.set (row + 1) (st.newRowIndex.getD (row + 1) 0 + 1) }
  else st

/-- One turn of the outer loop of `hadamardSingleStep` (lines 112-134). -/
def hadamardSingleStepRow (table : csr) (size : Nat) (st : SingleStepState) (row : Nat) :
    SingleStepState :=
  let rowStart := table.rowIndex.getD row 0
  let rowEnd := table.rowIndex.getD (row + 1) 0
  let st := (List.range' rowStart (rowEnd - rowStart)).foldl (hadamardSingleStepCell table row) st
  if row < size - 1 then
    { st with newRowIndex := st.newRowIndex.set (row + 2) (st.newRowIndex.getD (row + 1) 0) }
  else st

/-- The routine `hadamardSingleStep` on the rows `start <= row < stop`. -/
def hadamardSingleStep (table : csr) (start stop : Nat) : csr :=
  let size := stop - start
  let nonzeros := table.rowIndex.getD stop 0 - table.rowIndex.getD start 0
  let st := (List.range' start (stop - start)).foldl (hadamardSingleStepRow table size)
    { newValues := List.replicate nonzeros 0
      newColIndex := List.replicate nonzeros 0
      newNonzeros := 0
      newRowIndex := List.replicate (size + 1) 0 }
  { size := size, values := st.newValues, colIndex := st.newColIndex, rowIndex := st.newRowIndex }

/-! ## `matrixToCSR` and `CSRtoMatrix` (helpers.c 558-640) -/

/-- The locals of `matrixToCSR` that change during the loops. -/
structure ToCSRState where
  nonzeros : Nat
  resizes : Nat
  rowIndex : List Nat
  values : List Int
  colIndex : List Nat
deriving DecidableEq

/-- One turn of the inner loop of `matrixToCSR` (lines 581-596) on cell `table[i][j]`. -/
def matrixToCSRCell (table : List (List Int)) (size i : Nat) (st : ToCSRState) (j : Nat) :
    ToCSRState :=
  if (table.getD i []).getD j 0 ≠ 0 then
    let st := { st with nonzeros := st.nonzeros + 1 }
    let st :=
      if st.nonzeros = st.resizes * size - 1 then
        { st with
          resizes := st.resizes + 10
          values := realloc st.values ((st.resizes + 10) * size) 0
          colIndex := realloc st.colIndex ((st.resizes + 10) * size) 0 }
      else st
    { st with
      values := st.values.set (st.nonzeros - 1) ((table.getD i []).getD j 0)
      colIndex := st.colIndex.set (st.nonzeros - 1) j }
  else st

/-- One turn of the outer loop of `matrixToCSR` (lines 577-602). -/
def matrixToCSRRow (table : List (List Int)) (size : Nat) (st : ToCSRState) (i : Nat) :
    ToCSRState :=
  let st := { st with rowIndex := st.rowIndex.set i st.nonzeros }
  let st := (List.range size).foldl (matrixToCSRCell table size i) st
  if i = size - 1 then { st with rowIndex := st.rowIndex.set size st.nonzeros } else st

/-- The state of `matrixToCSR` when its outer loop has ended. -/
def matrixToCSRLoop (table : List (List Int)) (size : Nat) : ToCSRState :=
  (List.range size).foldl (matrixToCSRRow table size)
    { nonzeros := 0
      resizes := 10
      rowIndex := List.replicate (size + 1) 0
      values := List.replicate (10 * size) 0
      colIndex := List.replicate (10 * size) 0 }

/-- The routine `matrixToCSR` of helpers.c; the buffers are returned untrimmed. -/
def matrixToCSR (table : List (List Int)) (size : Nat) : csr :=
  let st := matrixToCSRLoop table size
  { size := size, values := st.values, colIndex := st.colIndex, rowIndex := st.rowIndex }

/-- One turn of the inner loop of `CSRtoMatrix` (lines 631-635): the write
`matrix[row][column] = value`. -/
def CSRtoMatrixCell (table : csr) (row : Nat) (matrix : List (List Int)) (j : Nat) :
    List (List Int) :=
  let column := table.colIndex.getD j 0
  let value := table.values.getD j 0
  matrix.set row ((matrix.getD row []).set column value)

/-- The routine `CSRtoMatrix` (the same loop in helpers.c and in pthreads.c). -/
def CSRtoMatrix (table : csr) (size : Nat) : List (List Int) :=
  (List.range size).foldl (fun matrix row =>
    let start := table.rowIndex.getD row 0
    let stop := table.rowIndex.getD (row + 1) 0
    (List.range' start (stop - start)).foldl (CSRtoMatrixCell table row) matrix)
    (List.replicate size (List.replicate size 0))

/-! ## `matrixToCSR` of pthreads.c (lines 97-135) -/

/-- The locals of the `matrixToCSR` of pthreads.c that change during the loops. -/
structure LegacyToCSRState where
  nonzeros : Nat
  rowIndex : List Nat
  values : List Int
  colIndex : List Nat
deriving DecidableEq

/-- One turn of the inner loop (pthreads.c 111-125): the buffers start with 100
slots and are resized to `nonzeros + 100` whenever `nonzeros` is a multiple of 100. -/
def legacyMatrixToCSRCell (table : List (List Int)) (i : Nat) (st : LegacyToCSRState)
    (j : Nat) : LegacyToCSRState :=
  if (table.getD i []).getD j 0 ≠ 0 then
    let st := { st with nonzeros := st.nonzeros + 1 }
    let st :=
      if st.nonzeros % 100 = 0 then
        { st with
          values := realloc st.values (st.nonzeros + 100) 0
          colIndex := realloc st.colIndex (st.nonzeros + 100) 0 }
      else st
    { st with
      values := st.values.set (st.nonzeros - 1) ((table.getD i []).getD j 0)
      colIndex := st.colIndex.set (st.nonzeros - 1) j }
  else st

/-- One turn of the outer loop (pthreads.c 107-131). -/
def legacyMatrixToCSRRow (table : List (List Int)) (size : Nat) (st : LegacyToCSRState)
    (i : Nat) : LegacyToCSRState :=
  let st := { st with rowIndex := st.rowIndex.set i st.nonzeros }
  let st := (List.range size).foldl (legacyMatrixToCSRCell table i) st
  if i = size - 1 then { st with rowIndex := st.rowIndex.set size st.nonzeros } else st

/-- The routine `matrixToCSR` of pthreads.c.  Its `rowIndex` comes from `malloc`
without being cleared; `junk` is what the `size + 1` slots hold at that point. -/
def legacyMatrixToCSR (junk : List Nat) (table : List (List Int)) (size : Nat) : csr :=
  let st := (List.range size).foldl (legacyMatrixToCSRRow table size)
    { nonzeros := 0
      rowIndex := realloc junk (size + 1) 0
      values := List.replicate 100 0
      colIndex := List.replicate 100 0 }
  { size := size, values := st.values, colIndex := st.colIndex, rowIndex := st.rowIndex }

/-! ## Effects and outcomes of the routines -/

/-- What a call of `readmtx_dynamic` has done when it returns: the value returned, the
number of row buffers obtained from `calloc` (line 41) and the number of edge pairs
read from the file by `fscanf` (line 47). -/
structure ReadRun where
  result : csr
  rowBuffers : Nat
  pairsRead : Nat
deriving DecidableEq

/-- The routine `readmtx_dynamic` with its effects: both early returns (lines 27-37)
come before the allocation loop of line 40 and before the edge loop of line 45; a
full run allocates `N` row buffers and reads the `nz` pairs of `edges`. -/
def readmtx_dynamic_run (banner result : Int) (M N : Nat) (edges : List (Nat × Nat)) :
    ReadRun :=
  if N ≠ M then
    { result := { size := 0, values := [], colIndex := [], rowIndex := [] }
      rowBuffers := 0, pairsRead := 0 }
  else if banner ≠ 0 ∨ result ≠ 0 then
    { result := { size := 0, values := [], colIndex := [], rowIndex := [] }
      rowBuffers := 0, pairsRead := 0 }
  else { result := buildFromEdges N edges, rowBuffers := N, pairsRead := edges.length }

/-- The error kinds a dense converter could report, after section 7 of the
specification; no statement of the source produces one. -/
inductive ConverterError where
  | InvalidDimension
deriving DecidableEq

/-- The outcome of a call of `matrixToCSR` (helpers.c 558-610): the routine does not
test `size` and has the single `return converted` of line 609. -/
def matrixToCSR_outcome (table : List (List Int)) (size : Nat) : Except ConverterError csr :=
  Except.ok (matrixToCSR table size)

/-- The outcome of a call of `CSRtoMatrix` (helpers.c 613-640): the routine does not
test `size` and has the single `return matrix` of line 639. -/
def CSRtoMatrix_outcome (table : csr) (size : Nat) : Except ConverterError (List (List Int)) :=
  Except.ok (CSRtoMatrix table size)

/-! ## The arguments of `newhadamard` after the call -/

/-- The memory a call of `newhadamard` leaves behind: the two arguments as the caller
finds them afterwards, and the value returned. -/
structure HadamardRun where
  csrTable : csr
  square : csr
  hadamard : csr
deriving DecidableEq

/-- The routine `newhadamard` with its effect on the arguments.  The only assignment
through a pointer of an argument is `csrTable.values[j] = square.values[k]` (line
338); the arrays of the two arguments are distinct allocations. -/
def newhadamardRun (csrTable square : csr) (size : Nat) : HadamardRun :=
  let st := newhadamardLoop csrTable square size
  { csrTable := { csrTable with values := st.tableValues }
    square := square
    hadamard := newhadamard csrTable square size }

/-! ## `readmtx_dynamic` with the `rowIndex` array as requested -/

/-- Lines 39-93 of `readmtx_dynamic` with a `rowIndex` array of `slots` entries.  Line
74 requests `slots = N` entries (`calloc(N, sizeof(uint))`); a write behind the last
slot, undefined in C, is lost here. -/
def buildFromEdgesSlots (slots N : Nat) (edges : List (Nat × Nat)) : csr :=
  let valuesByRow := List.replicate N [0, 0]
  let st := edges.foldl edgeStep (valuesByRow, 0)
  let valuesByRow := st.1
  let nonzeros := st.2
  let values : List Int := List.replicate nonzeros 1
  let fl := (List.range N).foldl (flattenRow valuesByRow N)
    (List.replicate slots 0, List.replicate nonzeros 0)
  { size := N, values := values, colIndex := fl.2, rowIndex := fl.1 }

/-! ## `csrSquare` with the log of its writes -/

/-- One turn of the inner loop of `csrSquare` (lines 255-292) that also records every
write of line 288: the index `newNonzeros` written and the capacity `resizes * size`
the two buffers have at that moment. -/
def csrSquareCellLog (table : csr) (size row : Nat) (s : SquareState × List (Nat × Nat))
    (column : Nat) : SquareState × List (Nat × Nat) :=
  let st :=
    if s.1.newNonzeros = s.1.resizes * size - 1 then
      { s.1 with
        resizes := s.1.resizes + 5
        newValues := realloc s.1.newValues (size * (s.1.resizes + 5)) 0
        newColIndex := realloc s.1.newColIndex (size * (s.1.resizes + 5)) 0 }
    else s.1
  let cellValue := dot table row (table.colIndex.getD column 0)
  if cellValue > 0 then
    ({ st with
        newValues := st.newValues.set st.newNonzeros cellValue
        newColIndex := st.newColIndex.set st.newNonzeros column
        newNonzeros := st.newNonzeros + 1 },
      s.2 ++ [(st.newNonzeros, st.resizes * size)])
  else (st, s.2)

/-- One turn of the outer loop of `csrSquare` (lines 247-298), with the log. -/
def csrSquareRowLog (table : csr) (size : Nat) (s : SquareState × List (Nat × Nat))
    (row : Nat) : SquareState × List (Nat × Nat) :=
  let s : SquareState × List (Nat × Nat) :=
    ({ s.1 with newRowIndex := s.1.newRowIndex.set row s.1.newNonzeros }, s.2)
  let start := table.rowIndex.getD row 0
  let stop := table.rowIndex.getD (row + 1) 0
  let s := (List.range' start (stop - start)).foldl (csrSquareCellLog table size row) s
  if row = size - 1 then
    ({ s.1 with newRowIndex := s.1.newRowIndex.set size s.1.newNonzeros }, s.2)
  else s

/-- The state of `csrSquare` when its outer loop has ended, and the log of its writes. -/
def csrSquareLog (table : csr) (size : Nat) : SquareState × List (Nat × Nat) :=
  (List.range size).foldl (csrSquareRowLog table size)
    ({ resizes := 5
       newValues := List.replicate (5 * size) 0
       newColIndex := List.replicate (5 * size) 0
       newNonzeros := 0
       newRowIndex := List.replicate (size + 1) 0 }, [])

/-! ## `matmul` and `hadamard` (helpers.c 200-223, 509-552) -/

/-- The routine `matmul`: every row of the product is allocated with `rows1` slots
(line 204), cleared over `cols2` cells, and accumulated in place. -/
def matmul (table1 table2 : List (List Int)) (rows1 cols1 cols2 : Nat) : List (List Int) :=
  let multTable := List.replicate rows1 (List.replicate rows1 (0 : Int))
  let multTable := (List.range rows1).foldl (fun mt i =>
    (List.range cols2).foldl (fun mt j => mt.set i ((mt.getD i []).set j 0)) mt) multTable
  (List.range rows1).foldl (fun mt i =>
    (List.range cols2).foldl (fun mt j =>
      (List.range cols1).foldl (fun mt k =>
        mt.set i ((mt.getD i []).set j
          (toInt32 ((mt.getD i []).getD j 0
            + toInt32 ((table1.getD i []).getD k 0 * (table2.getD k []).getD j 0)))))
        mt) mt) multTable

/-- The locals of `hadamard` that change during the loops. -/
structure MaskState where
  newValues : List Int
  newColIndex : List Nat
  newNonzeros : Nat
  newRowIndex : List Nat
deriving DecidableEq

/-- One turn of the inner loop of `hadamard` (lines 532-542). -/
def hadamardCell (csrTable : csr) (square : List (List Int)) (row : Nat) (st : MaskState)
    (i : Nat) : MaskState :=
  let column := csrTable.colIndex.getD i 0
  let value := csrTable.values.getD i 0
  let cellValue := toInt32 (value * (square.getD row []).getD column 0)
  if cellValue > 0 then
    { st with
      newValues := st.newValues.set st.newNonzeros cellValue
      newColIndex := st.newColIndex.set st.newNonzeros column
      newNonzeros := st.newNonzeros + 1 }
  else st

/-- One turn of the outer loop of `hadamard` (lines 526-548). -/
def hadamardRow (csrTable : csr) (square : List (List Int)) (size : Nat) (st : MaskState)
    (row : Nat) : MaskState :=
  let st := { st with newRowIndex := st.newRowIndex.set row st.newNonzeros }
  let start := csrTable.rowIndex.getD row 0
  let stop := csrTable.rowIndex.getD (row + 1) 0
  let st := (List.range' start (stop - start)).foldl (hadamardCell csrTable square row) st
  if row = size - 1 then { st with newRowIndex := st.newRowIndex.set size st.newNonzeros }
  else st

/-- The routine `hadamard`, the mask against a dense square; the buffers are returned
untrimmed, and slot `size` of `newRowIndex`, which line 523 does not clear, starts
as `0`. -/
def hadamard (csrTable : csr) (square : List (List Int)) (size : Nat) : csr :=
  let nonzeros := csrTable.rowIndex.getD size 0
  let st := (List.range size).foldl (hadamardRow csrTable square size)
    { newValues := List.replicate nonzeros 0
      newColIndex := List.replicate nonzeros 0
      newNonzeros := 0
      newRowIndex := List.replicate (size + 1) 0 }
  { size := size, values := st.newValues, colIndex := st.newColIndex, rowIndex := st.newRowIndex }

/-! ## `readmtx_dynamic` with the accesses to `rowIndex` checked (helpers.c 74-93) -/

/-- One turn of the inner flattening loop (lines 80-85) when the slot `rowIndex[row + 1]`
it reads (line 81) and increments (line 84) lies inside the array; `none` when the slot
is outside. -/
def flattenCellChecked (valuesByRow : List (List Nat)) (row : Nat)
    (st : List Nat × List Nat) (column : Nat) : Option (List Nat × List Nat) :=
  if row + 1 < st.1.length then some (flattenCell valuesByRow row st column) else none

/-- One turn of the outer flattening loop (lines 77-90) with every access to `rowIndex`
checked: the inner loop, and the store `rowIndex[row + 2] = rowIndex[row + 1]` of line
88, which needs the slot `row + 2`. -/
def flattenRowChecked (valuesByRow : List (List Nat)) (N : Nat)
    (st : List Nat × List Nat) (row : Nat) : Option (List Nat × List Nat) :=
  let rowNonzeros := (valuesByRow.getD row []).getD 0 0
  match (List.range' 1 rowNonzeros).foldlM (flattenCellChecked valuesByRow row) st with
  | none => none
  | some st =>
    if row < N - 1 then
      if row + 2 < st.1.length then some (st.1.set (row + 2) (st.1.getD (row + 1) 0), st.2)
      else none
    else some st

/-- Lines 39-93 of `readmtx_dynamic` with `slots` slots obtained for `rowIndex` and
every access to that array checked: `none` when the run reads or writes a slot outside
the array, which is undefined in C. -/
def buildFromEdgesChecked (slots N : Nat) (edges : List (Nat × Nat)) : Option csr :=
  let valuesByRow := List.replicate N [0, 0]
  let st := edges.foldl edgeStep (valuesByRow, 0)
  let valuesByRow := st.1
  let nonzeros := st.2
  let values : List Int := List.replicate nonzeros 1
  match (List.range N).foldlM (flattenRowChecked valuesByRow N)
    (List.replicate slots 0, List.replicate nonzeros 0) with
  | none => none
  | some fl => some { size := N, values := values, colIndex := fl.2, rowIndex := fl.1 }

/-- The column list of a row buffer of `valuesByRow`: the slots `1..count`, where
`count` is kept in slot 0. -/
def rowList (buf : List Nat) : List Nat := (buf.drop 1).take (buf.getD 0 0)

/-! ## Abstraction: the rows a CSR value stores -/

/-- The positions of `values` and `colIndex` that belong to row `r`. -/
def rowPositions (A : csr) (r : Nat) : List Nat :=
  List.range' (A.rowIndex.getD r 0) (A.rowIndex.getD (r + 1) 0 - A.rowIndex.getD r 0)

/-- The entry `csrSquare` writes for position `column` of row `row`, if any: the
position itself in the column slot, and the positive dot product. -/
def squareEmit (table : csr) (row column : Nat) : Option (Nat × Int) :=
  if dot table row (table.colIndex.getD column 0) > 0 then
    some (column, dot table row (table.colIndex.getD column 0))
  else none

/-- The rows of the result of `csrSquare`, as lists of the entries written. -/
def squareRows (table : csr) (size : Nat) : List (List (Nat × Int)) :=
  (List.range size).map (fun r => (rowPositions table r).filterMap (squareEmit table r))

/-- Invariant of the inner loop of `csrSquare`: both buffers have `resizes * size`
slots, one more than `newNonzeros`, and hold the entries `out` written so far. -/
structure SqInv (size : Nat) (st : SquareState) (out : List (Nat × Int)) : Prop where
  lenV : st.newValues.length = st.resizes * size
  lenC : st.newColIndex.length = st.resizes * size
  cap : st.newNonzeros + 1 ≤ st.resizes * size
  cnt : st.newNonzeros = out.length
  vals : st.newValues.take st.newNonzeros = out.map Prod.snd
  cols : st.newColIndex.take st.newNonzeros = out.map Prod.fst

/-- Invariant of the outer loop of `csrSquare` when `k` rows are done. -/
structure SqRowInv (table : csr) (size k : Nat) (st : SquareState) : Prop where
  inv : SqInv size st (squareRows table k).flatten
  lenR : st.newRowIndex.length = size + 1
  offs : ∀ r < k, st.newRowIndex.getD r 0 = (squareRows table r).flatten.length
  last : k = size → st.newRowIndex.getD size 0 = (squareRows table size).flatten.length

/-- The entries stored in row `r`, as pairs (column index, value), in stored order. -/
def rowEntries (A : csr) (r : Nat) : List (Nat × Int) :=
  (rowPositions A r).map (fun p => (A.colIndex.getD p 0, A.values.getD p 0))

/-- The CSR value `X` stores exactly the rows `rows`: row offsets are the running
entry counts and the first `rowIndex[size]` slots of `colIndex` and `values` hold the
entries row after row. -/
structure Represents (X : csr) (rows : List (List (Nat × Int))) : Prop where
  size_eq : X.size = rows.length
  lenR : X.rowIndex.length = rows.length + 1
  offs : ∀ r ≤ rows.length, X.rowIndex.getD r 0 = (rows.take r).flatten.length
  cols : X.colIndex.take rows.flatten.length = rows.flatten.map Prod.fst
  vals : X.values.take rows.flatten.length = rows.flatten.map Prod.snd

/-- The entry `newhadamard` writes for position `j` of row `i` of `A`, if any: the
column of `A` and the value of the first entry of row `i` of `S` with that column. -/
def maskEmit (A S : csr) (i j : Nat) : Option (Nat × Int) :=
  match (rowPositions S i).find? (fun k => A.colIndex.getD j 0 == S.colIndex.getD k 0) with
  | some k => some (A.colIndex.getD j 0, S.values.getD k 0)
  | none => none

/-- The rows of the result of `newhadamard`, as lists of the entries written. -/
def maskRows (A S : csr) (size : Nat) : List (List (Nat × Int)) :=
  (List.range size).map (fun i => (rowPositions A i).filterMap (maskEmit A S i))

/-- Invariant of the inner loop of `newhadamard`: buffers of `cap` slots holding the
entries `out` written so far; the `values` of the first argument keep their length. -/
structure HdInv (cap len : Nat) (st : HadamardState) (out : List (Nat × Int)) : Prop where
  lenV : st.newValues.length = cap
  lenC : st.newColIndex.length = cap
  lenT : st.tableValues.length = len
  cnt : st.newNonzeros = out.length
  vals : st.newValues.take st.newNonzeros = out.map Prod.snd
  cols : st.newColIndex.take st.newNonzeros = out.map Prod.fst

/-- Row offsets that never decrease over `0..size`. -/
def MonoOffsets (A : csr) (size : Nat) : Prop :=
  ∀ r < size, A.rowIndex.getD r 0 ≤ A.rowIndex.getD (r + 1) 0

/-- Invariant of the outer loop of `newhadamard` when `k` rows are done. -/
structure HdRowInv (A S : csr) (size k : Nat) (st : HadamardState) : Prop where
  inv : HdInv (A.rowIndex.getD size 0) A.values.length st (maskRows A S k).flatten
  lenR : st.newRowIndex.length = size + 1
  offs : ∀ r < k, st.newRowIndex.getD r 0 = (maskRows A S r).flatten.length
  last : k = size → st.newRowIndex.getD size 0 = (maskRows A S size).flatten.length
  bound : (maskRows A S k).flatten.length ≤ A.rowIndex.getD k 0

/-- The value stored in `row` for column `c` (first hit), `0` when there is none. -/
def lookup (row : List (Nat × Int)) (c : Nat) : Int :=
  match row.find? (fun e => c == e.1) with
  | some e => e.2
  | none => 0

/-- The buffer of a row holding the pending list `pend`: count, entries, one spare slot. -/
def rowBuf (pend : List Nat) : List Nat := pend.length :: (pend ++ [0])

/-- The pending lists after one edge. -/
def pendStep (pends : List (List Nat)) (e : Nat × Nat) : List (List Nat) :=
  let row := e.1 - 1
  let col := e.2 - 1
  let p := pends.set row (pends.getD row [] ++ [col])
  if row ≠ col then p.set col (p.getD col [] ++ [row]) else p

/-- The pending lists after all edges. -/
def pendingLists (N : Nat) (edges : List (Nat × Nat)) : List (List Nat) :=
  edges.foldl pendStep (List.replicate N [])

/-- Edge endpoints are vertex labels `1..N`. -/
def InRange (N : Nat) (edges : List (Nat × Nat)) : Prop :=
  ∀ e ∈ edges, 1 ≤ e.1 ∧ e.1 ≤ N ∧ 1 ≤ e.2 ∧ e.2 ≤ N

/-- Invariant of the inner flattening loop of the builder after `t` cells of `row`. -/
structure FlatCellInv (row : Nat) (pend : List Nat) (ri ci : List Nat) (t : Nat)
    (st : List Nat × List Nat) : Prop where
  lenR : st.1.length = ri.length
  cur : st.1.getD (row + 1) 0 = ri.getD (row + 1) 0 + t
  other : ∀ r, r ≠ row + 1 → st.1.getD r 0 = ri.getD r 0
  lenC : st.2.length = ci.length
  cols : st.2.take (ri.getD (row + 1) 0 + t) = ci.take (ri.getD (row + 1) 0) ++ pend.take t

/-- Invariant of the outer flattening loop of the builder when `k` rows are done. -/
structure FlatRowInv (pends : List (List Nat)) (N k : Nat) (st : List Nat × List Nat) : Prop where
  lenR : st.1.length = N + 1
  offs : ∀ r ≤ k, st.1.getD r 0 = (pends.take r).flatten.length
  next : k < N → st.1.getD (k + 1) 0 = (pends.take k).flatten.length
  lenC : st.2.length = pends.flatten.length
  cols : st.2.take (pends.take k).flatten.length = (pends.take k).flatten

/-- The rows of the matrix the builder stores: every pending column with value 1. -/
def builtRows (N : Nat) (edges : List (Nat × Nat)) : List (List (Nat × Int)) :=
  (pendingLists N edges).map (fun pend => pend.map (fun c => (c, (1 : Int))))

/-- Vertices `a` and `b` (labels `1..N`) are joined by a listed edge. -/
def adjacent (edges : List (Nat × Nat)) (a b : Nat) : Prop :=
  (a, b) ∈ edges ∨ (b, a) ∈ edges

instance (edges : List (Nat × Nat)) (a b : Nat) : Decidable (adjacent edges a b) := by
  unfold adjacent; infer_instance

/-- No three vertices `1..N` are pairwise joined. -/
def TriangleFree (N : Nat) (edges : List (Nat × Nat)) : Prop :=
  ∀ a ∈ List.range' 1 N, ∀ b ∈ List.range' 1 N, ∀ c ∈ List.range' 1 N,
    ¬ (adjacent edges a b ∧ adjacent edges b c ∧ adjacent edges a c)

instance (N : Nat) (edges : List (Nat × Nat)) : Decidable (TriangleFree N edges) := by
  unfold TriangleFree; infer_instance

instance (N : Nat) (edges : List (Nat × Nat)) : Decidable (InRange N edges) := by
  unfold InRange; infer_instance

/-- An edge list of a simple undirected graph on the vertices `1..N`: endpoints in
range, no self-loop, every edge listed once (in one direction only). -/
def SimpleEdgeList (N : Nat) (edges : List (Nat × Nat)) : Prop :=
  InRange N edges ∧ (∀ e ∈ edges, e.1 ≠ e.2) ∧ edges.Nodup ∧ ∀ e ∈ edges, (e.2, e.1) ∉ edges

instance (N : Nat) (edges : List (Nat × Nat)) : Decidable (SimpleEdgeList N edges) := by
  unfold SimpleEdgeList; infer_instance

/-- The data-model invariants of a CSR value: `size + 1` row offsets starting at 0
and never decreasing, `values` and `colIndex` of length `rowIndex[size]`, column
indices below `size`, and no column index twice in one row. -/
def WF (A : csr) : Prop :=
  A.rowIndex.length = A.size + 1 ∧
  A.rowIndex.getD 0 0 = 0 ∧
  (∀ r < A.size, A.rowIndex.getD r 0 ≤ A.rowIndex.getD (r + 1) 0) ∧
  A.values.length = A.rowIndex.getD A.size 0 ∧
  A.colIndex.length = A.rowIndex.getD A.size 0 ∧
  (∀ p < A.colIndex.length, A.colIndex.getD p 0 < A.size) ∧
  (∀ r < A.size, ((rowEntries A r).map Prod.fst).Nodup)

instance (A : csr) : Decidable (WF A) := by
  unfold WF; infer_instance

/-- The value of `A` at `(i, c)`: the stored value, `0` when nothing is stored there. -/
def valueAt (A : csr) (i c : Nat) : Int := lookup (rowEntries A i) c

/-- Column `c` is stored in row `i`. -/
def storedIn (A : csr) (i c : Nat) : Bool := decide (c ∈ (rowEntries A i).map Prod.fst)

/-- The inner product of rows `i` and `j` in the words of the specification: the sum,
over the columns stored in both rows, of the product of the two values. -/
def innerProduct (A : csr) (i j : Nat) : Int :=
  (((List.range A.size).filter (fun c => storedIn A i c && storedIn A j c)).map
    (fun c => valueAt A i c * valueAt A j c)).sum

/-- What cell `(i, j)` of a dense table contributes to the CSR form. -/
def denseEmit (table : List (List Int)) (i j : Nat) : Option (Nat × Int) :=
  if (table.getD i []).getD j 0 ≠ 0 then some (j, (table.getD i []).getD j 0) else none

/-- The rows of the CSR form of a dense table. -/
def denseRows (table : List (List Int)) (size k : Nat) : List (List (Nat × Int)) :=
  (List.range k).map (fun i => (List.range size).filterMap (denseEmit table i))

/-- Invariant of the inner loop of `matrixToCSR`: both buffers have `resizes * size`
slots, two more than `nonzeros`, and hold the entries `out` written so far. -/
structure ToCSRInv (size : Nat) (st : ToCSRState) (out : List (Nat × Int)) : Prop where
  lenV : st.values.length = st.resizes * size
  lenC : st.colIndex.length = st.resizes * size
  cap : st.nonzeros + 2 ≤ st.resizes * size
  cnt : st.nonzeros = out.length
  vals : st.values.take st.nonzeros = out.map Prod.snd
  cols : st.colIndex.take st.nonzeros = out.map Prod.fst

/-- Invariant of the outer loop of `matrixToCSR` when `k` rows are done. -/
structure ToCSRRowInv (table : List (List Int)) (size k : Nat) (st : ToCSRState) : Prop where
  inv : ToCSRInv size st (denseRows table size k).flatten
  lenR : st.rowIndex.length = size + 1
  offs : ∀ r < k, st.rowIndex.getD r 0 = (denseRows table size r).flatten.length
  last : k = size → st.rowIndex.getD size 0 = (denseRows table size size).flatten.length

/-- Invariant of the inner loop of the `matrixToCSR` of pthreads.c: the buffers have
`100 * (nonzeros / 100 + 1)` slots and hold the entries `out` written so far. -/
structure LegacyInv (st : LegacyToCSRState) (out : List (Nat × Int)) : Prop where
  lenV : st.values.length = 100 * (st.nonzeros / 100 + 1)
  lenC : st.colIndex.length = 100 * (st.nonzeros / 100 + 1)
  cnt : st.nonzeros = out.length
  vals : st.values.take st.nonzeros = out.map Prod.snd
  cols : st.colIndex.take st.nonzeros = out.map Prod.fst

/-- Invariant of the outer loop of the `matrixToCSR` of pthreads.c. -/
structure LegacyRowInv (table : List (List Int)) (size k : Nat) (st : LegacyToCSRState) :
    Prop where
  inv : LegacyInv st (denseRows table size k).flatten
  lenR : st.rowIndex.length = size + 1
  offs : ∀ r < k, st.rowIndex.getD r 0 = (denseRows table size r).flatten.length
  last : k = size → st.rowIndex.getD size 0 = (denseRows table size size).flatten.length

/-- The dense row obtained by writing the entries of a CSR row into `buf` in order. -/
def writeRow (buf : List Int) (entries : List (Nat × Int)) : List Int :=
  entries.foldl (fun b e => b.set e.1 e.2) buf

/-- The sum of the values stored in row `i`. -/
def rowSum (C : csr) (i : Nat) : Int := ((rowEntries C i).map Prod.snd).sum

/-- Row offsets of a CSR value are valid: `size + 1` offsets that start at 0 and never
decrease, and `values` and `colIndex` of length `rowIndex[size]`. -/
def ValidOffsets (A : csr) : Prop :=
  A.rowIndex.length = A.size + 1 ∧
  A.rowIndex.getD 0 0 = 0 ∧
  (∀ r < A.size, A.rowIndex.getD r 0 ≤ A.rowIndex.getD (r + 1) 0) ∧
  A.values.length = A.rowIndex.getD A.size 0 ∧
  A.colIndex.length = A.rowIndex.getD A.size 0

instance (A : csr) : Decidable (ValidOffsets A) := by
  unfold ValidOffsets; infer_instance

/-- The entry an edge `(r, c)` of the stream adds to the pending list of row `x`, in
the words of the specification: `c - 1` when `r = x + 1`, and `r - 1` when
`c = x + 1` and `r` is not `x + 1`. -/
def pendingEntry (x : Nat) (e : Nat × Nat) : Option Nat :=
  if e.1 = x + 1 then some (e.2 - 1) else if e.2 = x + 1 then some (e.1 - 1) else none

/-- The pending list of row `x` in the words of the specification: the entries of the
edges of the stream, in stream order. -/
def pendingOf (edges : List (Nat × Nat)) (x : Nat) : List Nat :=
  edges.filterMap (pendingEntry x)

/-- Every edge is listed once: no pair occurs twice, and no pair with distinct
endpoints occurs in both directions. -/
def ListedOnce (edges : List (Nat × Nat)) : Prop :=
  edges.Nodup ∧ ∀ e ∈ edges, e.1 ≠ e.2 → (e.2, e.1) ∉ edges

instance (edges : List (Nat × Nat)) : Decidable (ListedOnce edges) := by
  unfold ListedOnce; infer_instance

/-- The nonzero cells of row `r` of a dense table with their values, by increasing
column, in the words of the specification. -/
def nonzeroCells (T : List (List Int)) (size r : Nat) : List (Nat × Int) :=
  ((List.range size).filter (fun j => (T.getD r []).getD j 0 ≠ 0)).map
    (fun j => (j, (T.getD r []).getD j 0))

/-- The column indices of every row are stored in non-decreasing order. -/
def RowsSorted (A : csr) : Prop :=
  ∀ r < A.size, ((rowEntries A r).map Prod.fst).Pairwise (fun a b => a ≤ b)

instance (A : csr) : Decidable (RowsSorted A) := by
  unfold RowsSorted; infer_instance

/-- The `values` array of the first argument after the writes of `newhadamard` for the
positions `ps` of row `i`. -/
def writeBack (A S : csr) (i : Nat) (tv : List Int) (ps : List Nat) : List Int :=
  ps.foldl (fun tv j =>
    match maskEmit A S i j with
    | some e => tv.set j e.2
    | none => tv) tv

/-- The value position `j` of row `i` of `A` holds after `newhadamard A S`: the value
of the first entry of row `i` of `S` with the column of `j`, else the old value. -/
def maskedValue (A S : csr) (i j : Nat) : Int :=
  match maskEmit A S i j with
  | some e => e.2
  | none => A.values.getD j 0

structure FrameInv (A S : csr) (k : Nat) (tv : List Int) : Prop where
  len : tv.length = A.values.length
  done : ∀ i < k, ∀ q ∈ rowPositions A i, tv.getD q 0 = maskedValue A S i q
  rest : ∀ q, (∀ i < k, q ∉ rowPositions A i) → tv.getD q 0 = A.values.getD q 0

/-- Invariant of the logged loops of `csrSquare`: one slot is free behind
`newNonzeros`, every logged write was below the capacity, and the writes went to the
indices `0, 1, 2, ...` in turn. -/
structure LogInv (size : Nat) (s : SquareState × List (Nat × Nat)) : Prop where
  cap : s.1.newNonzeros + 1 ≤ s.1.resizes * size
  below : ∀ w ∈ s.2, w.1 < w.2
  index : s.2.map Prod.fst = List.range s.1.newNonzeros

/-- The entry `hadamardSingleStep` writes for position `index` of row `row`, if any:
the column of the position and the positive dot product. -/
def stepEmit (table : csr) (row index : Nat) : Option (Nat × Int) :=
  if dot table row (table.colIndex.getD index 0) > 0 then
    some (table.colIndex.getD index 0, dot table row (table.colIndex.getD index 0))
  else none

/-- The rows of the result of `hadamardSingleStep`, as lists of the entries written. -/
def stepRows (table : csr) (k : Nat) : List (List (Nat × Int)) :=
  (List.range k).map (fun r => (rowPositions table r).filterMap (stepEmit table r))

/-- Invariant of the inner loop of `hadamardSingleStep`: buffers of `cap` slots that
hold the entries `out` written so far. -/
structure StepInv (cap : Nat) (st : SingleStepState) (out : List (Nat × Int)) : Prop where
  lenV : st.newValues.length = cap
  lenC : st.newColIndex.length = cap
  cnt : st.newNonzeros = out.length
  vals : st.newValues.take st.newNonzeros = out.map Prod.snd
  cols : st.newColIndex.take st.newNonzeros = out.map Prod.fst

/-- Invariant of the outer loop of `hadamardSingleStep` (from row 0) when `k` rows are
done. -/
structure StepRowInv (A : csr) (size k : Nat) (st : SingleStepState) : Prop where
  inv : StepInv (A.rowIndex.getD size 0 - A.rowIndex.getD 0 0) st (stepRows A k).flatten
  lenR : st.newRowIndex.length = size + 1
  offs : ∀ r ≤ k, st.newRowIndex.getD r 0 = (stepRows A r).flatten.length
  next : k < size → st.newRowIndex.getD (k + 1) 0 = (stepRows A k).flatten.length
  bound : (stepRows A k).flatten.length + A.rowIndex.getD 0 0 ≤ A.rowIndex.getD k 0

/-- Cell `(i, j)` of a dense table. -/
def cellAt (mt : List (List Int)) (i j : Nat) : Int := (mt.getD i []).getD j 0

/-- A dense table of `n` rows of `n` cells that hold `int` values. -/
def SquareDims (n : Nat) (mt : List (List Int)) : Prop :=
  mt.length = n ∧ (∀ i < n, (mt.getD i []).length = n) ∧
    ∀ i j, toInt32 (cellAt mt i j) = cellAt mt i j

/-- The entry `hadamard` writes for position `i` of row `row`, if any: the column of
the position and the positive product of the stored value with the cell of the dense
square. -/
def legacyEmit (A : csr) (square : List (List Int)) (row i : Nat) : Option (Nat × Int) :=
  if toInt32 (A.values.getD i 0 * (square.getD row []).getD (A.colIndex.getD i 0) 0) > 0 then
    some (A.colIndex.getD i 0,
      toInt32 (A.values.getD i 0 * (square.getD row []).getD (A.colIndex.getD i 0) 0))
  else none

/-- The rows of the result of `hadamard`, as lists of the entries written. -/
def legacyRows (A : csr) (square : List (List Int)) (k : Nat) : List (List (Nat × Int)) :=
  (List.range k).map (fun r => (rowPositions A r).filterMap (legacyEmit A square r))

/-- Invariant of the inner loop of `hadamard`: buffers of `cap` slots that hold the
entries `out` written so far. -/
structure MaskInv (cap : Nat) (st : MaskState) (out : List (Nat × Int)) : Prop where
  lenV : st.newValues.length = cap
  lenC : st.newColIndex.length = cap
  cnt : st.newNonzeros = out.length
  vals : st.newValues.take st.newNonzeros = out.map Prod.snd
  cols : st.newColIndex.take st.newNonzeros = out.map Prod.fst

/-- Invariant of the outer loop of `hadamard` when `k` rows are done. -/
structure MaskRowInv (A : csr) (square : List (List Int)) (size k : Nat) (st : MaskState) :
    Prop where
  inv : MaskInv (A.rowIndex.getD size 0) st (legacyRows A square k).flatten
  lenR : st.newRowIndex.length = size + 1
  offs : ∀ r < k, st.newRowIndex.getD r 0 = (legacyRows A square r).flatten.length
  last : k = size → st.newRowIndex.getD size 0 = (legacyRows A square k).flatten.length
  bound : (legacyRows A square k).flatten.length + A.rowIndex.getD 0 0 ≤ A.rowIndex.getD k 0

/-! ## Theorems -/

theorem map_getD_range' {α : Type} (xs : List α) (d : α) (a n : Nat) (h : a + n ≤ xs.length) :
    (List.range' a n).map (fun p => xs.getD p d) = (xs.drop a).take n := by
  induction n generalizing a with
  | zero => simp
  | succ n ih =>
    rw [List.range'_succ, List.map_cons, ih (a + 1) (by omega)]
    have ha : a < xs.length := by omega
    rw [List.drop_eq_getElem_cons ha, List.take_succ_cons]
    simp [List.getD_eq_getElem?_getD, List.getElem?_eq_getElem ha]

theorem take_set_succ {α : Type} (buf : List α) (n : Nat) (v : α) (h : n < buf.length) :
    (buf.set n v).take (n + 1) = buf.take n ++ [v] := by
  induction buf generalizing n with
  | nil => simp at h
  | cons x xs ih =>
    cases n with
    | zero => simp
    | succ n => simp at h; simp [ih n h]

theorem realloc_length {α : Type} (buf : List α) (n : Nat) (f : α) :
    (realloc buf n f).length = n := by
  simp [realloc]; omega

theorem realloc_take {α : Type} (buf : List α) (n k : Nat) (f : α) (hk : k ≤ n)
    (hb : k ≤ buf.length) : (realloc buf n f).take k = buf.take k := by
  unfold realloc
  rw [List.take_append_of_le_length (by simp; omega), List.take_take]
  simp [hk]

theorem realloc_of_le {α : Type} (buf : List α) (n : Nat) (f : α) (h : n ≤ buf.length) :
    realloc buf n f = buf.take n := by
  simp [realloc, Nat.sub_eq_zero_of_le h]

theorem getD_set_eq {α : Type} (l : List α) (i : Nat) (a d : α) (h : i < l.length) :
    (l.set i a).getD i d = a := by
  simp [List.getD_eq_getElem?_getD, List.getElem?_set, h]

theorem getD_set_ne {α : Type} (l : List α) (i j : Nat) (a d : α) (h : i ≠ j) :
    (l.set i a).getD j d = l.getD j d := by
  simp [List.getD_eq_getElem?_getD, List.getElem?_set, h]

theorem csrSquareCell_inv (table : csr) (size row column : Nat) (hs : 0 < size)
    (st : SquareState) (out : List (Nat × Int)) (h : SqInv size st out) :
    SqInv size (csrSquareCell table size row st column)
        (out ++ (squareEmit table row column).toList) ∧
      (csrSquareCell table size row st column).newRowIndex = st.newRowIndex := by
  obtain ⟨lenV, lenC, cap, cnt, vals, cols⟩ := h
  unfold csrSquareCell squareEmit
  by_cases hg : st.newNonzeros = st.resizes * size - 1
  · have hmul : size * (st.resizes + 5) = st.resizes * size + 5 * size := by ring
    by_cases hd : dot table row (table.colIndex.getD column 0) > 0
    · simp only [hg, hd, if_true]
      refine ⟨⟨?_, ?_, ?_, ?_, ?_, ?_⟩, trivial⟩
      · simp [realloc_length]; ring
      · simp [realloc_length]; ring
      · simp only; nlinarith
      · simp [← cnt, hg]
      · simp only
        rw [take_set_succ _ _ _ (by rw [realloc_length]; nlinarith),
          realloc_take _ _ _ _ (by nlinarith) (by omega), ← hg, vals]
        simp
      · simp only
        rw [take_set_succ _ _ _ (by rw [realloc_length]; nlinarith),
          realloc_take _ _ _ _ (by nlinarith) (by omega), ← hg, cols]
        simp
    · simp only [hg, hd, if_true, if_false]
      refine ⟨⟨?_, ?_, ?_, ?_, ?_, ?_⟩, trivial⟩
      · simp [realloc_length]; ring
      · simp [realloc_length]; ring
      · simp only; nlinarith
      · simp [← cnt, hg]
      · simp only
        rw [realloc_take _ _ _ _ (by nlinarith) (by omega), ← hg, vals]
        simp
      · simp only
        rw [realloc_take _ _ _ _ (by nlinarith) (by omega), ← hg, cols]
        simp
  · by_cases hd : dot table row (table.colIndex.getD column 0) > 0
    · simp only [hg, hd, if_true, if_false]
      refine ⟨⟨?_, ?_, ?_, ?_, ?_, ?_⟩, trivial⟩
      · simpa using lenV
      · simpa using lenC
      · simp only; omega
      · simp [← cnt]
      · simp only
        rw [take_set_succ _ _ _ (by omega), vals]
        simp
      · simp only
        rw [take_set_succ _ _ _ (by omega), cols]
        simp
    · simp only [hg, hd, if_false]
      exact ⟨⟨lenV, lenC, cap, by simpa using cnt, by simpa using vals, by simpa using cols⟩, trivial⟩

theorem csrSquareCells_inv (table : csr) (size row : Nat) (hs : 0 < size) (ps : List Nat)
    (st : SquareState) (out : List (Nat × Int)) (h : SqInv size st out) :
    SqInv size (ps.foldl (csrSquareCell table size row) st)
        (out ++ ps.filterMap (squareEmit table row)) ∧
      (ps.foldl (csrSquareCell table size row) st).newRowIndex = st.newRowIndex := by
  induction ps generalizing st out with
  | nil => simpa using h
  | cons p ps ih =>
    obtain ⟨h1, h2⟩ := csrSquareCell_inv table size row p hs st out h
    obtain ⟨h3, h4⟩ := ih _ _ h1
    simp only [List.foldl_cons]
    refine ⟨?_, h4.trans h2⟩
    have e : out ++ List.filterMap (squareEmit table row) (p :: ps)
        = out ++ (squareEmit table row p).toList ++ ps.filterMap (squareEmit table row) := by
      cases hp : squareEmit table row p <;> simp [List.filterMap_cons, hp]
    rw [e]; exact h3

theorem squareRows_succ (table : csr) (k : Nat) :
    squareRows table (k + 1)
      = squareRows table k ++ [(rowPositions table k).filterMap (squareEmit table k)] := by
  simp [squareRows, List.range_succ]

theorem csrSquareRow_inv (table : csr) (size k : Nat) (hk : k < size) (st : SquareState)
    (h : SqRowInv table size k st) : SqRowInv table size (k + 1) (csrSquareRow table size st k) := by
  obtain ⟨inv, lenR, offs, -⟩ := h
  have inv0 : SqInv size { st with newRowIndex := st.newRowIndex.set k st.newNonzeros }
      (squareRows table k).flatten := ⟨inv.lenV, inv.lenC, inv.cap, inv.cnt, inv.vals, inv.cols⟩
  obtain ⟨h1, h2⟩ := csrSquareCells_inv table size k (by omega) (rowPositions table k) _ _ inv0
  have hfl : (squareRows table k).flatten ++ (rowPositions table k).filterMap (squareEmit table k)
      = (squareRows table (k + 1)).flatten := by
    rw [squareRows_succ]; simp
  rw [hfl] at h1
  have hoffs : ∀ r < k + 1, (st.newRowIndex.set k st.newNonzeros).getD r 0
      = (squareRows table r).flatten.length := by
    intro r hr
    by_cases hrk : r = k
    · subst hrk
      rw [getD_set_eq _ _ _ _ (by omega)]; exact inv.cnt
    · rw [getD_set_ne _ _ _ _ _ (Ne.symm hrk)]; exact offs r (by omega)
  unfold csrSquareRow
  simp only
  rw [show List.range' (table.rowIndex.getD k 0)
      (table.rowIndex.getD (k + 1) 0 - table.rowIndex.getD k 0) = rowPositions table k from rfl]
  by_cases hl : k = size - 1
  · simp only [hl, if_true]
    have hks : k + 1 = size := by omega
    rw [← hl]
    refine ⟨⟨h1.lenV, h1.lenC, h1.cap, h1.cnt, h1.vals, h1.cols⟩, ?_, ?_, ?_⟩
    · simp [h2, lenR]
    · intro r hr
      simp only
      rw [getD_set_ne _ _ _ _ _ (by omega), h2]
      exact hoffs r hr
    · intro _
      simp only
      rw [getD_set_eq _ _ _ _ (by simp [h2, lenR]), h1.cnt, hks]
  · simp only [hl, if_false]
    refine ⟨h1, ?_, ?_, ?_⟩
    · simp [h2, lenR]
    · intro r hr; rw [h2]; exact hoffs r hr
    · intro h'; omega

theorem csrSquareLoop_inv (table : csr) (size : Nat) (hs : 0 < size) :
    SqRowInv table size size (csrSquareLoop table size) := by
  have key : ∀ k, k ≤ size → SqRowInv table size k
      ((List.range k).foldl (csrSquareRow table size)
        { resizes := 5
          newValues := List.replicate (5 * size) 0
          newColIndex := List.replicate (5 * size) 0
          newNonzeros := 0
          newRowIndex := List.replicate (size + 1) 0 }) := by
    intro k
    induction k with
    | zero =>
      intro _
      refine ⟨⟨by simp, by simp, by simp; omega, by simp [squareRows], by simp [squareRows],
        by simp [squareRows]⟩, by simp, by simp, by intro h; omega⟩
    | succ k ih =>
      intro hk
      rw [List.range_succ, List.foldl_append]
      exact csrSquareRow_inv table size k (by omega) _ (ih (by omega))
  exact key size le_rfl

theorem slice_eq {α : Type} (xs : List α) (d : α) (pre mid post : List α)
    (h : xs.take (pre ++ mid ++ post).length = pre ++ mid ++ post) :
    (List.range' pre.length mid.length).map (fun p => xs.getD p d) = mid := by
  have hx : xs = pre ++ (mid ++ (post ++ xs.drop (pre ++ mid ++ post).length)) := by
    have := (List.take_append_drop (pre ++ mid ++ post).length xs).symm
    rw [h] at this
    simpa [List.append_assoc] using this
  rw [map_getD_range' xs d _ _ (by rw [hx]; simp)]
  rw [hx, List.drop_left, List.take_left]

theorem flatten_split {α : Type} (rows : List (List α)) (r : Nat) (hr : r < rows.length) :
    rows.flatten = (rows.take r).flatten ++ rows[r] ++ (rows.drop (r + 1)).flatten := by
  have h := List.take_append_drop r rows
  rw [List.drop_eq_getElem_cons hr] at h
  calc rows.flatten = (rows.take r ++ rows[r] :: rows.drop (r + 1)).flatten := by rw [h]
    _ = _ := by rw [List.flatten_append, List.flatten_cons, List.append_assoc]

theorem take_succ_flatten {α : Type} (rows : List (List α)) (r : Nat) (hr : r < rows.length) :
    (rows.take (r + 1)).flatten = (rows.take r).flatten ++ rows[r] := by
  rw [List.take_succ, List.getElem?_eq_getElem hr, List.flatten_append]
  simp

theorem Represents.rowPositions_eq {X : csr} {rows : List (List (Nat × Int))}
    (h : Represents X rows) (r : Nat) (hr : r < rows.length) :
    rowPositions X r = List.range' (rows.take r).flatten.length rows[r].length := by
  unfold rowPositions
  rw [h.offs r (by omega), h.offs (r + 1) (by omega), take_succ_flatten rows r hr]
  simp

theorem Represents.rowEntries_eq {X : csr} {rows : List (List (Nat × Int))}
    (h : Represents X rows) (r : Nat) (hr : r < rows.length) :
    rowEntries X r = rows[r] := by
  unfold rowEntries
  rw [h.rowPositions_eq r hr, ← List.zip_map']
  have hc := h.cols
  have hv := h.vals
  have e1 : (rows.flatten.map Prod.fst)
      = (rows.take r).flatten.map Prod.fst ++ rows[r].map Prod.fst
        ++ (rows.drop (r + 1)).flatten.map Prod.fst := by
    conv_lhs => rw [flatten_split rows r hr]
    simp
  have e2 : (rows.flatten.map Prod.snd)
      = (rows.take r).flatten.map Prod.snd ++ rows[r].map Prod.snd
        ++ (rows.drop (r + 1)).flatten.map Prod.snd := by
    conv_lhs => rw [flatten_split rows r hr]
    simp
  have l1 : rows.flatten.length = ((rows.take r).flatten.map Prod.fst ++ rows[r].map Prod.fst
        ++ (rows.drop (r + 1)).flatten.map Prod.fst).length := by
    rw [← e1, List.length_map]
  have l2 : rows.flatten.length = ((rows.take r).flatten.map Prod.snd ++ rows[r].map Prod.snd
        ++ (rows.drop (r + 1)).flatten.map Prod.snd).length := by
    rw [← e2, List.length_map]
  rw [e1] at hc
  rw [e2] at hv
  rw [l1] at hc
  rw [l2] at hv
  have s1 := slice_eq X.colIndex 0 _ _ _ hc
  have s2 := slice_eq X.values 0 _ _ _ hv
  simp only [List.length_map] at s1 s2
  rw [s1, s2]
  rw [← List.unzip_fst, ← List.unzip_snd, List.zip_unzip]

theorem squareRows_length (table : csr) (size : Nat) : (squareRows table size).length = size := by
  simp [squareRows]

theorem squareRows_take (table : csr) (size r : Nat) (hr : r ≤ size) :
    (squareRows table size).take r = squareRows table r := by
  simp [squareRows, ← List.map_take, List.take_range, Nat.min_eq_left hr]

theorem csrSquare_represents (table : csr) (size : Nat) :
    Represents (csrSquare table size) (squareRows table size) := by
  rcases Nat.eq_zero_or_pos size with hs | hs
  · subst hs
    refine ⟨by simp [csrSquare, squareRows], by simp [csrSquare, csrSquareLoop, squareRows], ?_,
      by simp [squareRows], by simp [squareRows]⟩
    intro r hr
    simp [squareRows] at hr
    subst hr
    simp [csrSquare, csrSquareLoop]
  · obtain ⟨inv, lenR, offs, last⟩ := csrSquareLoop_inv table size hs
    have hn := inv.cnt
    refine ⟨by simp [csrSquare, squareRows_length], by simp [csrSquare, squareRows_length, lenR],
      ?_, ?_, ?_⟩
    · intro r hr
      rw [squareRows_length] at hr
      rw [squareRows_take table size r hr]
      by_cases h : r = size
      · subst h; exact last rfl
      · exact offs r (by omega)
    · simp only [csrSquare]
      rw [realloc_of_le _ _ _ (by have := inv.lenV; have := inv.lenC; have := inv.cap; omega),
        ← hn, List.take_take, Nat.min_self]
      exact inv.cols
    · simp only [csrSquare]
      rw [realloc_of_le _ _ _ (by have := inv.lenV; have := inv.lenC; have := inv.cap; omega),
        ← hn, List.take_take, Nat.min_self]
      exact inv.vals

theorem newhadamardCell_inv (A S : csr) (i j cap len : Nat) (st : HadamardState)
    (out : List (Nat × Int)) (h : HdInv cap len st out) (hcap : out.length < cap)
    (hj : j < len) :
    HdInv cap len (newhadamardCell A S i st j) (out ++ (maskEmit A S i j).toList) ∧
      (newhadamardCell A S i st j).newRowIndex = st.newRowIndex := by
  obtain ⟨lenV, lenC, lenT, cnt, vals, cols⟩ := h
  cases hf : (List.range' (S.rowIndex.getD i 0) (S.rowIndex.getD (i + 1) 0 - S.rowIndex.getD i 0)).find?
      (fun k => A.colIndex.getD j 0 == S.colIndex.getD k 0) with
  | none =>
    have e1 : newhadamardCell A S i st j = st := by simp only [newhadamardCell, hf]
    have e2 : maskEmit A S i j = none := by simp only [maskEmit, rowPositions, hf]
    rw [e1, e2]
    simp only [Option.toList, List.append_nil]
    exact ⟨⟨lenV, lenC, lenT, cnt, vals, cols⟩, trivial⟩
  | some k =>
    have e1 : newhadamardCell A S i st j =
        { st with
          tableValues := st.tableValues.set j (S.values.getD k 0)
          newValues := st.newValues.set st.newNonzeros
            ((st.tableValues.set j (S.values.getD k 0)).getD j 0)
          newColIndex := st.newColIndex.set st.newNonzeros (A.colIndex.getD j 0)
          newNonzeros := st.newNonzeros + 1 } := by
      simp only [newhadamardCell, hf]
    have e2 : maskEmit A S i j = some (A.colIndex.getD j 0, S.values.getD k 0) := by
      simp only [maskEmit, rowPositions, hf]
    rw [e1, e2]
    refine ⟨⟨by simpa using lenV, by simpa using lenC, by simpa using lenT, by simp [cnt], ?_, ?_⟩,
      rfl⟩
    · simp only
      rw [take_set_succ _ _ _ (by omega), vals, getD_set_eq _ _ _ _ (by omega)]
      simp
    · simp only
      rw [take_set_succ _ _ _ (by omega), cols]
      simp

theorem filterMap_length_le {α β : Type} (f : α → Option β) (l : List α) :
    (l.filterMap f).length ≤ l.length := by
  induction l with
  | nil => simp
  | cons a l ih =>
    rw [List.filterMap_cons]
    cases f a <;> simp <;> omega

theorem newhadamardCells_inv (A S : csr) (i cap len : Nat) (ps : List Nat) (st : HadamardState)
    (out : List (Nat × Int)) (h : HdInv cap len st out) (hcap : out.length + ps.length ≤ cap)
    (hj : ∀ j ∈ ps, j < len) :
    HdInv cap len (ps.foldl (newhadamardCell A S i) st) (out ++ ps.filterMap (maskEmit A S i)) ∧
      (ps.foldl (newhadamardCell A S i) st).newRowIndex = st.newRowIndex := by
  induction ps generalizing st out with
  | nil => simpa using h
  | cons p ps ih =>
    simp only [List.length_cons] at hcap
    obtain ⟨h1, h2⟩ := newhadamardCell_inv A S i p cap len st out h (by omega)
      (hj p (List.mem_cons_self _ _))
    have hlen : (out ++ (maskEmit A S i p).toList).length + ps.length ≤ cap := by
      cases maskEmit A S i p <;> simp <;> omega
    obtain ⟨h3, h4⟩ := ih _ _ h1 hlen (fun j hm => hj j (List.mem_cons_of_mem _ hm))
    simp only [List.foldl_cons]
    refine ⟨?_, h4.trans h2⟩
    have e : out ++ List.filterMap (maskEmit A S i) (p :: ps)
        = out ++ (maskEmit A S i p).toList ++ ps.filterMap (maskEmit A S i) := by
      cases hp : maskEmit A S i p <;> simp [List.filterMap_cons, hp]
    rw [e]; exact h3

theorem maskRows_succ (A S : csr) (k : Nat) :
    maskRows A S (k + 1) = maskRows A S k ++ [(rowPositions A k).filterMap (maskEmit A S k)] := by
  simp [maskRows, List.range_succ]

theorem maskRows_length (A S : csr) (size : Nat) : (maskRows A S size).length = size := by
  simp [maskRows]

theorem maskRows_take (A S : csr) (size r : Nat) (hr : r ≤ size) :
    (maskRows A S size).take r = maskRows A S r := by
  simp [maskRows, ← List.map_take, List.take_range, Nat.min_eq_left hr]

theorem MonoOffsets.le {A : csr} {size : Nat} (h : MonoOffsets A size) (a b : Nat)
    (hab : a ≤ b) (hb : b ≤ size) : A.rowIndex.getD a 0 ≤ A.rowIndex.getD b 0 := by
  induction b with
  | zero => simp at hab; subst hab; exact le_rfl
  | succ b ih =>
    rcases Nat.eq_or_lt_of_le hab with e | l
    · subst e; exact le_rfl
    · exact (ih (by omega) (by omega)).trans (h b (by omega))

theorem rowPositions_length (A : csr) (r : Nat) :
    (rowPositions A r).length = A.rowIndex.getD (r + 1) 0 - A.rowIndex.getD r 0 := by
  simp [rowPositions]

theorem mem_rowPositions {A : csr} {r p : Nat} (h : p ∈ rowPositions A r) :
    A.rowIndex.getD r 0 ≤ p ∧ p < A.rowIndex.getD (r + 1) 0 := by
  unfold rowPositions at h
  rw [List.mem_range'_1] at h
  omega

theorem newhadamardRow_inv (A S : csr) (size k : Nat) (hk : k < size)
    (hmono : MonoOffsets A size) (hval : A.rowIndex.getD size 0 ≤ A.values.length)
    (st : HadamardState) (h : HdRowInv A S size k st) :
    HdRowInv A S size (k + 1) (newhadamardRow A S size st k) := by
  obtain ⟨inv, lenR, offs, -, bound⟩ := h
  have inv0 : HdInv (A.rowIndex.getD size 0) A.values.length
      { st with newRowIndex := st.newRowIndex.set k st.newNonzeros }
      (maskRows A S k).flatten := ⟨inv.lenV, inv.lenC, inv.lenT, inv.cnt, inv.vals, inv.cols⟩
  have hk1 := hmono k hk
  have hks := hmono.le (k + 1) size (by omega) le_rfl
  obtain ⟨h1, h2⟩ := newhadamardCells_inv A S k _ _ (rowPositions A k) _ _ inv0
    (by rw [rowPositions_length]; omega)
    (fun j hj => by have := mem_rowPositions hj; omega)
  have hfl : (maskRows A S k).flatten ++ (rowPositions A k).filterMap (maskEmit A S k)
      = (maskRows A S (k + 1)).flatten := by
    rw [maskRows_succ]; simp
  have hb : (maskRows A S (k + 1)).flatten.length ≤ A.rowIndex.getD (k + 1) 0 := by
    rw [← hfl, List.length_append]
    have := filterMap_length_le (maskEmit A S k) (rowPositions A k)
    rw [rowPositions_length] at this
    omega
  rw [hfl] at h1
  have hoffs : ∀ r < k + 1, (st.newRowIndex.set k st.newNonzeros).getD r 0
      = (maskRows A S r).flatten.length := by
    intro r hr
    by_cases hrk : r = k
    · subst hrk
      rw [getD_set_eq _ _ _ _ (by omega)]; exact inv.cnt
    · rw [getD_set_ne _ _ _ _ _ (Ne.symm hrk)]; exact offs r (by omega)
  unfold newhadamardRow
  simp only
  rw [show List.range' (A.rowIndex.getD k 0)
      (A.rowIndex.getD (k + 1) 0 - A.rowIndex.getD k 0) = rowPositions A k from rfl]
  by_cases hl : k = size - 1
  · simp only [hl, if_true]
    have hks : k + 1 = size := by omega
    rw [← hl]
    refine ⟨⟨h1.lenV, h1.lenC, h1.lenT, h1.cnt, h1.vals, h1.cols⟩, ?_, ?_, ?_, hb⟩
    · simp [h2, lenR]
    · intro r hr
      simp only
      rw [getD_set_ne _ _ _ _ _ (by omega), h2]
      exact hoffs r hr
    · intro _
      simp only
      rw [getD_set_eq _ _ _ _ (by simp [h2, lenR]), h1.cnt, hks]
  · simp only [hl, if_false]
    refine ⟨h1, ?_, ?_, ?_, hb⟩
    · simp [h2, lenR]
    · intro r hr; rw [h2]; exact hoffs r hr
    · intro h'; omega

theorem newhadamardLoop_inv (A S : csr) (size : Nat) (hs : 0 < size)
    (hmono : MonoOffsets A size) (hval : A.rowIndex.getD size 0 ≤ A.values.length) :
    HdRowInv A S size size (newhadamardLoop A S size) := by
  have key : ∀ k, k ≤ size → HdRowInv A S size k
      ((List.range k).foldl (newhadamardRow A S size)
        { tableValues := A.values
          newValues := List.replicate (A.rowIndex.getD size 0) 0
          newColIndex := List.replicate (A.rowIndex.getD size 0) 0
          newNonzeros := 0
          newRowIndex := List.replicate (size + 1) 0 }) := by
    intro k
    induction k with
    | zero =>
      intro _
      refine ⟨⟨by simp, by simp, by simp, by simp [maskRows], by simp [maskRows],
        by simp [maskRows]⟩, by simp, by simp, by intro h; omega, by simp [maskRows]⟩
    | succ k ih =>
      intro hk
      rw [List.range_succ, List.foldl_append]
      exact newhadamardRow_inv A S size k (by omega) hmono hval _ (ih (by omega))
  exact key size le_rfl

theorem newhadamard_represents (A S : csr) (size : Nat)
    (hmono : MonoOffsets A size) (hval : A.rowIndex.getD size 0 ≤ A.values.length) :
    Represents (newhadamard A S size) (maskRows A S size) := by
  rcases Nat.eq_zero_or_pos size with hs | hs
  · subst hs
    refine ⟨by simp [newhadamard, maskRows], by simp [newhadamard, newhadamardLoop, maskRows], ?_,
      by simp [maskRows], by simp [maskRows]⟩
    intro r hr
    simp [maskRows] at hr
    subst hr
    simp [newhadamard, newhadamardLoop]
  · obtain ⟨inv, lenR, offs, last, bound⟩ := newhadamardLoop_inv A S size hs hmono hval
    have hn := inv.cnt
    refine ⟨by simp [newhadamard, maskRows_length], by simp [newhadamard, maskRows_length, lenR],
      ?_, ?_, ?_⟩
    · intro r hr
      rw [maskRows_length] at hr
      rw [maskRows_take A S size r hr]
      by_cases h : r = size
      · subst h; exact last rfl
      · exact offs r (by omega)
    · simp only [newhadamard]
      rw [realloc_of_le _ _ _ (by have := inv.lenC; omega),
        ← hn, List.take_take, Nat.min_self]
      exact inv.cols
    · simp only [newhadamard]
      rw [realloc_of_le _ _ _ (by have := inv.lenV; omega),
        ← hn, List.take_take, Nat.min_self]
      exact inv.vals

theorem lookup_nil (c : Nat) : lookup [] c = 0 := rfl

theorem lookup_cons (e : Nat × Int) (row : List (Nat × Int)) (c : Nat) :
    lookup (e :: row) c = if c = e.1 then e.2 else lookup row c := by
  unfold lookup
  rw [List.find?_cons]
  by_cases h : c = e.1
  · simp [h]
  · have : (c == e.1) = false := by simpa using h
    simp [this, h]

theorem lookup_eq_zero_of_not_mem (row : List (Nat × Int)) (c : Nat)
    (h : c ∉ row.map Prod.fst) : lookup row c = 0 := by
  induction row with
  | nil => rfl
  | cons e row ih =>
    simp only [List.map_cons, List.mem_cons, not_or] at h
    rw [lookup_cons, if_neg h.1, ih h.2]

theorem toInt32_of_range (x : Int) (hlo : -2147483648 ≤ x) (hhi : x < 2147483648) :
    toInt32 x = x := by
  unfold toInt32; omega

theorem toInt32_range (x : Int) : -2147483648 ≤ toInt32 x ∧ toInt32 x < 2147483648 := by
  unfold toInt32; omega

theorem toInt32_toInt32 (x : Int) : toInt32 (toInt32 x) = toInt32 x := by
  unfold toInt32; omega

theorem toInt32_add (x y : Int) : toInt32 (toInt32 x + toInt32 y) = toInt32 (x + y) := by
  unfold toInt32; omega

theorem toInt32_zero : toInt32 0 = 0 := by decide

theorem dot_step (A : csr) (j : Nat) (s : Int) (p : Nat) :
    (match (List.range' (A.rowIndex.getD j 0) (A.rowIndex.getD (j + 1) 0 - A.rowIndex.getD j 0)).find?
        (fun q => A.colIndex.getD p 0 == A.colIndex.getD q 0) with
      | some q => toInt32 (toInt32 s + toInt32 (A.values.getD p 0 * A.values.getD q 0))
      | none => toInt32 s)
    = toInt32 (s + A.values.getD p 0 * lookup (rowEntries A j) (A.colIndex.getD p 0)) := by
  unfold lookup rowEntries rowPositions
  rw [List.find?_map]
  cases hf : (List.range' (A.rowIndex.getD j 0) (A.rowIndex.getD (j + 1) 0 - A.rowIndex.getD j 0)).find?
      (fun q => A.colIndex.getD p 0 == A.colIndex.getD q 0) with
  | none =>
    have : List.find? ((fun e : Nat × Int => A.colIndex.getD p 0 == e.1) ∘
        fun p => (A.colIndex.getD p 0, A.values.getD p 0))
        (List.range' (A.rowIndex.getD j 0) (A.rowIndex.getD (j + 1) 0 - A.rowIndex.getD j 0))
        = none := hf
    rw [this]; simp
  | some q =>
    have : List.find? ((fun e : Nat × Int => A.colIndex.getD p 0 == e.1) ∘
        fun p => (A.colIndex.getD p 0, A.values.getD p 0))
        (List.range' (A.rowIndex.getD j 0) (A.rowIndex.getD (j + 1) 0 - A.rowIndex.getD j 0))
        = some q := hf
    rw [this]
    simp only [Option.map_some', toInt32_add]

theorem dot_eq_sum (A : csr) (i j : Nat) :
    dot A i j
      = toInt32 ((rowEntries A i).map (fun e => e.2 * lookup (rowEntries A j) e.1)).sum := by
  have key : ∀ (ps : List Nat) (s : Int),
      ps.foldl (fun value p =>
        match (List.range' (A.rowIndex.getD j 0)
            (A.rowIndex.getD (j + 1) 0 - A.rowIndex.getD j 0)).find?
            (fun q => A.colIndex.getD p 0 == A.colIndex.getD q 0) with
        | some q => toInt32 (value + toInt32 (A.values.getD p 0 * A.values.getD q 0))
        | none => value) (toInt32 s)
      = toInt32 (s + ((ps.map (fun p => (A.colIndex.getD p 0, A.values.getD p 0))).map
          (fun e => e.2 * lookup (rowEntries A j) e.1)).sum) := by
    intro ps
    induction ps with
    | nil => intro s; simp
    | cons p ps ih =>
      intro s
      rw [List.foldl_cons, dot_step, ih]
      simp [add_assoc]
  have := key (rowPositions A i) 0
  rw [toInt32_zero, zero_add] at this
  unfold dot
  exact this

theorem sum_range_ite (n c0 : Nat) (x : Int) :
    ((List.range n).map (fun c => if c = c0 then x else 0)).sum = if c0 < n then x else 0 := by
  induction n with
  | zero => simp
  | succ n ih =>
    rw [List.range_succ, List.map_append, List.sum_append, ih]
    by_cases h1 : c0 < n
    · have : n ≠ c0 := by omega
      simp [h1, this, Nat.lt_succ_of_lt h1]
    · by_cases h2 : n = c0
      · subst h2; simp
      · have : ¬ c0 < n + 1 := by omega
        simp [h1, h2, this]

theorem sum_lookup (R : List (Nat × Int)) (n : Nat) (g : Nat → Int)
    (hnd : (R.map Prod.fst).Nodup) (hlt : ∀ c ∈ R.map Prod.fst, c < n) :
    (R.map (fun e => e.2 * g e.1)).sum = ((List.range n).map (fun c => lookup R c * g c)).sum := by
  induction R with
  | nil => simp [lookup_nil]
  | cons e R ih =>
    simp only [List.map_cons, List.nodup_cons] at hnd
    have hlt' : ∀ c ∈ R.map Prod.fst, c < n := fun c hc => hlt c (by simp at hc ⊢; exact Or.inr hc)
    have he : e.1 < n := hlt e.1 (by simp)
    have hfun : (fun c => lookup (e :: R) c * g c)
        = fun c => (if c = e.1 then e.2 * g e.1 else 0) + lookup R c * g c := by
      funext c
      rw [lookup_cons]
      by_cases hc : c = e.1
      · subst hc
        simp [lookup_eq_zero_of_not_mem R _ hnd.1]
      · simp [hc]
    rw [hfun, List.sum_map_add, sum_range_ite, if_pos he, List.map_cons, List.sum_cons,
      ih hnd.2 hlt']

theorem sum_filter_of_zero {α : Type} (l : List α) (p : α → Bool) (f : α → Int)
    (h : ∀ x ∈ l, p x = false → f x = 0) :
    (l.map f).sum = ((l.filter p).map f).sum := by
  induction l with
  | nil => simp
  | cons a l ih =>
    have ih' := ih (fun x hx => h x (List.mem_cons_of_mem _ hx))
    by_cases hp : p a = true
    · simp [List.filter_cons, hp, ih']
    · have hp' : p a = false := by simpa using hp
      simp [List.filter_cons, hp', ih', h a (List.mem_cons_self _ _) hp']

theorem set_length_append {α : Type} (l : List α) (a b : α) :
    (l ++ [a]).set l.length b = l ++ [b] := by
  induction l with
  | nil => rfl
  | cons x l ih => simp [ih]

theorem rowBuf_push (pend : List Nat) (v : Nat) :
    (let buf := rowBuf pend
     let newEntry := buf.getD 0 0 + 1
     let buf := buf.set newEntry v
     let buf := buf.set 0 (buf.getD 0 0 + 1)
     realloc buf (buf.getD 0 0 + 2) 0) = rowBuf (pend ++ [v]) := by
  simp only [rowBuf, List.getD_cons_zero, List.set_cons_succ, List.set_cons_zero,
    set_length_append, realloc]
  simp [List.take_of_length_le]

theorem getD_map_rowBuf (pends : List (List Nat)) (r : Nat) (hr : r < pends.length) :
    (pends.map rowBuf).getD r [] = rowBuf (pends.getD r []) := by
  simp [List.getD_eq_getElem?_getD, List.getElem?_eq_getElem hr]

theorem appendToRow_map (pends : List (List Nat)) (r v : Nat) (hr : r < pends.length) :
    appendToRow (pends.map rowBuf) r v = (pends.set r (pends.getD r [] ++ [v])).map rowBuf := by
  unfold appendToRow
  simp only
  rw [getD_map_rowBuf pends r hr]
  have h := rowBuf_push (pends.getD r []) v
  simp only at h
  rw [h, List.map_set]

theorem flatten_set_length {α : Type} (pends : List (List α)) (r : Nat) (v : α)
    (hr : r < pends.length) :
    (pends.set r (pends.getD r [] ++ [v])).flatten.length = pends.flatten.length + 1 := by
  induction pends generalizing r with
  | nil => simp at hr
  | cons p pends ih =>
    cases r with
    | zero => simp; omega
    | succ r =>
      simp only [List.length_cons, Nat.add_lt_add_iff_right] at hr
      have := ih r hr
      simp only [List.set_cons_succ, List.flatten_cons, List.length_append, List.getD_cons_succ]
      omega

theorem pendStep_length (pends : List (List Nat)) (e : Nat × Nat) :
    (pendStep pends e).length = pends.length := by
  unfold pendStep
  simp only
  split <;> simp

theorem edgeStep_abs (pends : List (List Nat)) (e : Nat × Nat)
    (h1 : e.1 - 1 < pends.length) (h2 : e.2 - 1 < pends.length) :
    edgeStep (pends.map rowBuf, pends.flatten.length) e
      = ((pendStep pends e).map rowBuf, (pendStep pends e).flatten.length) := by
  unfold edgeStep pendStep
  simp only
  rw [appendToRow_map pends _ _ h1]
  by_cases hne : e.1 - 1 ≠ e.2 - 1
  · rw [if_pos hne, if_pos hne, appendToRow_map _ _ _ (by simpa using h2),
      flatten_set_length _ _ _ (by simpa using h2), flatten_set_length _ _ _ h1]
  · rw [if_neg hne, if_neg hne, flatten_set_length _ _ _ h1]

theorem edgeLoop_abs (N : Nat) (edges : List (Nat × Nat)) (hin : InRange N edges)
    (pends : List (List Nat)) (hl : pends.length = N) :
    edges.foldl edgeStep (pends.map rowBuf, pends.flatten.length)
      = ((edges.foldl pendStep pends).map rowBuf, (edges.foldl pendStep pends).flatten.length) := by
  induction edges generalizing pends with
  | nil => rfl
  | cons e edges ih =>
    have he := hin e (List.mem_cons_self _ _)
    rw [List.foldl_cons, List.foldl_cons,
      edgeStep_abs pends e (by omega) (by omega)]
    exact ih (fun x hx => hin x (List.mem_cons_of_mem _ hx)) _
      (by rw [pendStep_length, hl])

theorem pendingLists_length (N : Nat) (edges : List (Nat × Nat)) :
    (pendingLists N edges).length = N := by
  unfold pendingLists
  have : ∀ pends : List (List Nat), (edges.foldl pendStep pends).length = pends.length := by
    induction edges with
    | nil => intro _; rfl
    | cons e edges ih => intro pends; rw [List.foldl_cons, ih, pendStep_length]
  rw [this]; simp

theorem edgeLoop_eq (N : Nat) (edges : List (Nat × Nat)) (hin : InRange N edges) :
    edges.foldl edgeStep (List.replicate N [0, 0], 0)
      = ((pendingLists N edges).map rowBuf, (pendingLists N edges).flatten.length) := by
  have h := edgeLoop_abs N edges hin (List.replicate N []) (by simp)
  have e1 : (List.replicate N ([] : List Nat)).map rowBuf = List.replicate N [0, 0] := by
    simp [rowBuf]
  have e2 : (List.replicate N ([] : List Nat)).flatten.length = 0 := by
    induction N with
    | zero => rfl
    | succ n ih => simp [List.replicate_succ]
  rw [e1, e2] at h
  exact h

theorem rowBuf_getD (pend : List Nat) (t : Nat) (ht : t < pend.length) :
    (rowBuf pend).getD (1 + t) 0 = pend.getD t 0 := by
  unfold rowBuf
  rw [Nat.add_comm 1 t, List.getD_cons_succ]
  simp [List.getD_eq_getElem?_getD, List.getElem?_append_left ht]

theorem rowBuf_count (pend : List Nat) : (rowBuf pend).getD 0 0 = pend.length := rfl

theorem take_succ_getD {α : Type} (l : List α) (t : Nat) (d : α) (ht : t < l.length) :
    l.take (t + 1) = l.take t ++ [l.getD t d] := by
  rw [List.take_succ, List.getElem?_eq_getElem ht]
  simp [List.getD_eq_getElem?_getD, List.getElem?_eq_getElem ht]

theorem flattenCells_inv (pends : List (List Nat)) (row : Nat) (hrow : row < pends.length)
    (ri ci : List Nat) (hri : row + 1 < ri.length)
    (hci : ri.getD (row + 1) 0 + (pends.getD row []).length ≤ ci.length)
    (t : Nat) (ht : t ≤ (pends.getD row []).length) :
    FlatCellInv row (pends.getD row []) ri ci t
      ((List.range' 1 t).foldl (flattenCell (pends.map rowBuf) row) (ri, ci)) := by
  induction t with
  | zero => exact ⟨rfl, rfl, fun _ _ => rfl, rfl, by simp⟩
  | succ t ih =>
    obtain ⟨lenR, cur, other, lenC, cols⟩ := ih (by omega)
    rw [List.range'_1_concat, List.foldl_append]
    simp only [List.foldl_cons, List.foldl_nil]
    generalize (List.range' 1 t).foldl (flattenCell (pends.map rowBuf) row) (ri, ci) = st at *
    unfold flattenCell
    simp only
    rw [getD_map_rowBuf pends row hrow, rowBuf_getD _ _ (by omega), cur]
    refine ⟨by simp [lenR], ?_, ?_, by simp [lenC], ?_⟩
    · rw [getD_set_eq _ _ _ _ (by omega)]; omega
    · intro r hr
      rw [getD_set_ne _ _ _ _ _ (Ne.symm hr)]; exact other r hr
    · rw [← Nat.add_assoc, take_set_succ _ _ _ (by omega), cols,
        take_succ_getD _ _ 0 (by omega), List.append_assoc]

theorem getD_eq_getElem_nil {α : Type} (rows : List (List α)) (r : Nat) (hr : r < rows.length) :
    rows.getD r [] = rows[r] := by
  simp [List.getD_eq_getElem?_getD, List.getElem?_eq_getElem hr]

theorem take_flatten_length_le {α : Type} (rows : List (List α)) (r : Nat) :
    (rows.take r).flatten.length ≤ rows.flatten.length := by
  conv_rhs => rw [← List.take_append_drop r rows, List.flatten_append, List.length_append]
  omega

theorem flattenRow_inv (pends : List (List Nat)) (N k : Nat) (hN : pends.length = N) (hk : k < N)
    (st : List Nat × List Nat) (h : FlatRowInv pends N k st) :
    FlatRowInv pends N (k + 1) (flattenRow (pends.map rowBuf) N st k) := by
  obtain ⟨lenR, offs, next, lenC, cols⟩ := h
  have hkl : k < pends.length := by omega
  have hsucc : (pends.take (k + 1)).flatten = (pends.take k).flatten ++ pends.getD k [] := by
    rw [take_succ_flatten pends k hkl, getD_eq_getElem_nil pends k hkl]
  have hle := take_flatten_length_le pends (k + 1)
  rw [hsucc, List.length_append] at hle
  have hnext := next hk
  obtain ⟨clenR, ccur, cother, clenC, ccols⟩ := flattenCells_inv pends k hkl st.1 st.2 (by omega)
    (by omega) (pends.getD k []).length le_rfl
  unfold flattenRow
  simp only
  rw [getD_map_rowBuf pends k hkl, rowBuf_count]
  generalize (List.range' 1 (pends.getD k []).length).foldl (flattenCell (pends.map rowBuf) k)
    st = st' at *
  rw [hnext] at ccur ccols
  rw [List.take_length, cols] at ccols
  by_cases hlast : k < N - 1
  · rw [if_pos hlast]
    refine ⟨by simp [clenR, lenR], ?_, ?_, by simpa [clenC] using lenC, ?_⟩
    · intro r hr
      simp only
      rw [getD_set_ne _ _ _ _ _ (by omega)]
      by_cases hrk : r = k + 1
      · subst hrk; rw [ccur, hsucc, List.length_append]
      · rw [cother r hrk]; exact offs r (by omega)
    · intro _
      simp only
      rw [getD_set_eq _ _ _ _ (by omega), ccur, hsucc, List.length_append]
    · simp only
      rw [hsucc, List.length_append]; exact ccols
  · rw [if_neg hlast]
    refine ⟨by simp [clenR, lenR], ?_, ?_, by simpa [clenC] using lenC, ?_⟩
    · intro r hr
      by_cases hrk : r = k + 1
      · subst hrk; rw [ccur, hsucc, List.length_append]
      · rw [cother r hrk]; exact offs r (by omega)
    · intro h'; omega
    · rw [hsucc, List.length_append]; exact ccols

theorem flattenLoop_inv (pends : List (List Nat)) (N : Nat) (hN : pends.length = N) :
    FlatRowInv pends N N ((List.range N).foldl (flattenRow (pends.map rowBuf) N)
      (List.replicate (N + 1) 0, List.replicate pends.flatten.length 0)) := by
  have key : ∀ k, k ≤ N → FlatRowInv pends N k
      ((List.range k).foldl (flattenRow (pends.map rowBuf) N)
        (List.replicate (N + 1) 0, List.replicate pends.flatten.length 0)) := by
    intro k
    induction k with
    | zero =>
      intro _
      refine ⟨by simp, ?_, ?_, by simp, by simp⟩
      · intro r hr
        have : r = 0 := by omega
        subst this; simp
      · intro h
        simp [List.getD_eq_getElem?_getD, List.getElem?_replicate, h]
    | succ k ih =>
      intro hk
      rw [List.range_succ, List.foldl_append]
      exact flattenRow_inv pends N k hN (by omega) _ (ih (by omega))
  exact key N le_rfl

theorem flatten_map_map_fst (pends : List (List Nat)) :
    ((pends.map (fun pend => pend.map (fun c => (c, (1 : Int))))).flatten).map Prod.fst
      = pends.flatten := by
  induction pends with
  | nil => rfl
  | cons p pends ih =>
    simp only [List.map_cons, List.flatten_cons, List.map_append, ih]
    simp [Function.comp_def]

theorem flatten_map_map_snd (pends : List (List Nat)) :
    ((pends.map (fun pend => pend.map (fun c => (c, (1 : Int))))).flatten).map Prod.snd
      = List.replicate pends.flatten.length 1 := by
  induction pends with
  | nil => rfl
  | cons p pends ih =>
    simp only [List.map_cons, List.flatten_cons, List.map_append, ih, List.length_append,
      List.replicate_add]
    congr 1
    simp [Function.comp_def, List.eq_replicate_iff]

theorem flatten_map_map_length (pends : List (List Nat)) :
    ((pends.map (fun pend => pend.map (fun c => (c, (1 : Int))))).flatten).length
      = pends.flatten.length := by
  rw [← flatten_map_map_fst pends, List.length_map]

theorem buildFromEdges_represents (N : Nat) (edges : List (Nat × Nat)) (hin : InRange N edges) :
    Represents (buildFromEdges N edges) (builtRows N edges) := by
  have hl := pendingLists_length N edges
  obtain ⟨lenR, offs, -, lenC, cols⟩ := flattenLoop_inv (pendingLists N edges) N hl
  unfold buildFromEdges
  simp only
  rw [edgeLoop_eq N edges hin]
  simp only
  have hNtake : (pendingLists N edges).take N = pendingLists N edges :=
    List.take_of_length_le (by omega)
  rw [hNtake] at cols
  refine ⟨?_, ?_, ?_, ?_, ?_⟩
  · show N = (builtRows N edges).length
    rw [builtRows, List.length_map, hl]
  · show _ = (builtRows N edges).length + 1
    rw [builtRows, List.length_map, hl]; exact lenR
  · intro r hr
    simp only [builtRows, List.length_map, hl] at hr
    simp only [builtRows]
    rw [← List.map_take, flatten_map_map_length]
    exact offs r hr
  · simp only [builtRows]
    rw [flatten_map_map_length, flatten_map_map_fst]
    exact cols
  · simp only [builtRows]
    rw [flatten_map_map_length, flatten_map_map_snd]
    exact List.take_of_length_le (by rw [List.length_replicate])

theorem getD_set_list {α : Type} (l : List (List α)) (i r : Nat) (a : List α) (hi : i < l.length) :
    (l.set i a).getD r [] = if r = i then a else l.getD r [] := by
  by_cases h : r = i
  · subst h; rw [if_pos rfl, getD_set_eq _ _ _ _ hi]
  · rw [if_neg h, getD_set_ne _ _ _ _ _ (Ne.symm h)]

theorem getD_pendStep (pends : List (List Nat)) (e : Nat × Nat) (r : Nat)
    (h1 : e.1 - 1 < pends.length) (h2 : e.2 - 1 < pends.length) :
    (pendStep pends e).getD r []
      = pends.getD r [] ++ (if r = e.1 - 1 then [e.2 - 1] else [])
          ++ (if e.1 - 1 ≠ e.2 - 1 ∧ r = e.2 - 1 then [e.1 - 1] else []) := by
  unfold pendStep
  simp only
  by_cases hne : e.1 - 1 ≠ e.2 - 1
  · rw [if_pos hne, getD_set_list _ _ _ _ (by simpa using h2), getD_set_list _ _ _ _ h1,
      getD_set_list _ _ _ _ h1]
    by_cases hr2 : r = e.2 - 1
    · have hr1 : ¬ r = e.1 - 1 := by omega
      have h21 : ¬ e.2 - 1 = e.1 - 1 := by omega
      simp [hr2, h21, hne]
    · by_cases hr1 : r = e.1 - 1
      · simp [hr1, hr2, hne]
      · simp [hr1, hr2]
  · rw [if_neg hne, getD_set_list _ _ _ _ h1]
    by_cases hr1 : r = e.1 - 1
    · simp [hr1, hne]
    · simp [hr1, hne]

theorem foldl_pendStep_length (edges : List (Nat × Nat)) (pends : List (List Nat)) :
    (edges.foldl pendStep pends).length = pends.length := by
  induction edges generalizing pends with
  | nil => rfl
  | cons e edges ih => rw [List.foldl_cons, ih, pendStep_length]

theorem mem_foldl_pendStep (N : Nat) (edges : List (Nat × Nat)) (hin : InRange N edges)
    (pends : List (List Nat)) (hl : pends.length = N) (r c : Nat)
    (h : c ∈ (edges.foldl pendStep pends).getD r []) :
    c ∈ pends.getD r [] ∨ adjacent edges (r + 1) (c + 1) := by
  induction edges generalizing pends with
  | nil => exact Or.inl h
  | cons e edges ih =>
    have he := hin e (List.mem_cons_self _ _)
    rw [List.foldl_cons] at h
    rcases ih (fun x hx => hin x (List.mem_cons_of_mem _ hx)) (pendStep pends e)
      (by rw [pendStep_length, hl]) h with h' | h'
    · rw [getD_pendStep pends e r (by omega) (by omega)] at h'
      simp only [List.mem_append] at h'
      rcases h' with (h' | h') | h'
      · exact Or.inl h'
      · right; left
        by_cases hr : r = e.1 - 1
        · rw [if_pos hr] at h'
          simp only [List.mem_singleton] at h'
          have e1 : e.1 = r + 1 := by omega
          have e2 : e.2 = c + 1 := by omega
          rw [← e1, ← e2]; exact List.mem_cons_self _ _
        · rw [if_neg hr] at h'; simp at h'
      · right; right
        by_cases hr : e.1 - 1 ≠ e.2 - 1 ∧ r = e.2 - 1
        · rw [if_pos hr] at h'
          simp only [List.mem_singleton] at h'
          have e1 : e.1 = c + 1 := by omega
          have e2 : e.2 = r + 1 := by omega
          rw [← e1, ← e2]; exact List.mem_cons_self _ _
        · rw [if_neg hr] at h'; simp at h'
    · right
      rcases h' with h' | h'
      · exact Or.inl (List.mem_cons_of_mem _ h')
      · exact Or.inr (List.mem_cons_of_mem _ h')

theorem mem_pendingLists (N : Nat) (edges : List (Nat × Nat)) (hin : InRange N edges)
    (r c : Nat) (h : c ∈ (pendingLists N edges).getD r []) :
    adjacent edges (r + 1) (c + 1) := by
  rcases mem_foldl_pendStep N edges hin (List.replicate N []) (by simp) r c h with h' | h'
  · simp [List.getD_eq_getElem?_getD, List.getElem?_replicate] at h'
    split at h' <;> simp at h'
  · exact h'

theorem lt_of_mem_foldl_pendStep (N : Nat) (edges : List (Nat × Nat)) (hin : InRange N edges)
    (pends : List (List Nat)) (hl : pends.length = N)
    (hp : ∀ r, ∀ c ∈ pends.getD r [], c < N) (r c : Nat)
    (h : c ∈ (edges.foldl pendStep pends).getD r []) : c < N := by
  induction edges generalizing pends with
  | nil => exact hp r c h
  | cons e edges ih =>
    have he := hin e (List.mem_cons_self _ _)
    rw [List.foldl_cons] at h
    refine ih (fun x hx => hin x (List.mem_cons_of_mem _ hx)) (pendStep pends e)
      (by rw [pendStep_length, hl]) ?_ h
    intro r' c' hc'
    rw [getD_pendStep pends e r' (by omega) (by omega)] at hc'
    simp only [List.mem_append] at hc'
    rcases hc' with (h' | h') | h'
    · exact hp r' c' h'
    · split at h'
      · simp only [List.mem_singleton] at h'; omega
      · simp at h'
    · split at h'
      · simp only [List.mem_singleton] at h'; omega
      · simp at h'

theorem lt_of_mem_pendingLists (N : Nat) (edges : List (Nat × Nat)) (hin : InRange N edges)
    (r c : Nat) (h : c ∈ (pendingLists N edges).getD r []) : c < N := by
  refine lt_of_mem_foldl_pendStep N edges hin (List.replicate N []) (by simp) ?_ r c h
  intro r' c' hc'
  simp [List.getD_eq_getElem?_getD, List.getElem?_replicate] at hc'
  split at hc' <;> simp at hc'

theorem count_foldl_pendStep (N : Nat) (edges : List (Nat × Nat)) (hin : InRange N edges)
    (pends : List (List Nat)) (hl : pends.length = N)
    (hp : ∀ i j, (pends.getD i []).count j = (pends.getD j []).count i) (i j : Nat) :
    ((edges.foldl pendStep pends).getD i []).count j
      = ((edges.foldl pendStep pends).getD j []).count i := by
  induction edges generalizing pends with
  | nil => exact hp i j
  | cons e edges ih =>
    have he := hin e (List.mem_cons_self _ _)
    rw [List.foldl_cons]
    refine ih (fun x hx => hin x (List.mem_cons_of_mem _ hx)) (pendStep pends e)
      (by rw [pendStep_length, hl]) ?_
    intro a b
    rw [getD_pendStep pends e a (by omega) (by omega),
      getD_pendStep pends e b (by omega) (by omega)]
    simp only [List.count_append, hp a b]
    have h5' : (e.2 - 1 = e.1 - 1) = (e.1 - 1 = e.2 - 1) := propext eq_comm
    by_cases h1 : a = e.1 - 1 <;> by_cases h2 : b = e.2 - 1 <;>
      by_cases h3 : a = e.2 - 1 <;> by_cases h4 : b = e.1 - 1 <;>
      by_cases h5 : e.1 - 1 = e.2 - 1 <;>
      simp [h1, h2, h3, h4, h5, h5', List.count_singleton]

theorem readmtx_dynamic_ok (N : Nat) (edges : List (Nat × Nat)) :
    readmtx_dynamic 0 0 N N edges = buildFromEdges N edges := by
  simp [readmtx_dynamic]

theorem foldl_id_of_forall {α β : Type} (f : β → α → β) (l : List α) (init : β)
    (h : ∀ x ∈ l, ∀ s, f s x = s) : l.foldl f init = init := by
  induction l generalizing init with
  | nil => rfl
  | cons a l ih =>
    rw [List.foldl_cons, h a (List.mem_cons_self _ _), ih _ (fun x hx => h x (List.mem_cons_of_mem _ hx))]

theorem countTriangles_of_empty (C : csr) (h : ∀ r ≤ C.size, C.rowIndex.getD r 0 = 0) :
    countTriangles C = List.replicate C.size 0 := by
  unfold countTriangles
  simp only
  apply foldl_id_of_forall
  intro i hi s
  rw [List.mem_range] at hi
  rw [h i (by omega), h (i + 1) (by omega)]
  rfl

theorem take_flatten_of_empty {α : Type} (rows : List (List α)) (h : ∀ row ∈ rows, row = [])
    (r : Nat) : (rows.take r).flatten = [] := by
  rw [List.flatten_eq_nil_iff]
  intro l hl
  exact h l (List.mem_of_mem_take hl)

theorem Represents.offsets_zero {X : csr} {rows : List (List (Nat × Int))}
    (h : Represents X rows) (he : ∀ row ∈ rows, row = []) (r : Nat) (hr : r ≤ X.size) :
    X.rowIndex.getD r 0 = 0 := by
  rw [h.offs r (by rw [← h.size_eq]; exact hr), take_flatten_of_empty rows he]
  rfl

theorem Represents.mono {X : csr} {rows : List (List (Nat × Int))} (h : Represents X rows) :
    MonoOffsets X X.size := by
  intro r hr
  have hr' : r < rows.length := by rw [← h.size_eq]; exact hr
  rw [h.offs r (by omega), h.offs (r + 1) (by omega), take_succ_flatten rows r hr',
    List.length_append]
  omega

theorem Represents.values_bound {X : csr} {rows : List (List (Nat × Int))}
    (h : Represents X rows) : X.rowIndex.getD X.size 0 ≤ X.values.length := by
  have hv := congrArg List.length h.vals
  rw [List.length_take, List.length_map] at hv
  rw [h.offs X.size (by rw [h.size_eq]), h.size_eq, List.take_length]
  omega

theorem buildFromEdges_size (N : Nat) (edges : List (Nat × Nat)) :
    (buildFromEdges N edges).size = N := rfl

theorem builtRows_length (N : Nat) (edges : List (Nat × Nat)) :
    (builtRows N edges).length = N := by
  simp [builtRows, pendingLists_length]

theorem rowEntries_built (N : Nat) (edges : List (Nat × Nat)) (hin : InRange N edges)
    (r : Nat) (hr : r < N) :
    rowEntries (buildFromEdges N edges) r
      = ((pendingLists N edges).getD r []).map (fun c => (c, (1 : Int))) := by
  have hl := pendingLists_length N edges
  rw [(buildFromEdges_represents N edges hin).rowEntries_eq r (by rw [builtRows_length]; exact hr)]
  simp only [builtRows, List.getElem_map]
  rw [getD_eq_getElem_nil _ _ (by omega)]

theorem dot_built_of_triangleFree (N : Nat) (edges : List (Nat × Nat)) (hin : InRange N edges)
    (htf : TriangleFree N edges) (r : Nat) (hr : r < N) (c : Nat)
    (hc : c ∈ (pendingLists N edges).getD r []) :
    dot (buildFromEdges N edges) r c = 0 := by
  have hcN := lt_of_mem_pendingLists N edges hin r c hc
  rw [dot_eq_sum]
  refine (congrArg toInt32 (List.sum_eq_zero ?_)).trans toInt32_zero
  intro x hx
  rw [List.mem_map] at hx
  obtain ⟨e, he, rfl⟩ := hx
  rw [rowEntries_built N edges hin r hr, List.mem_map] at he
  obtain ⟨c', hc', rfl⟩ := he
  have hcN' := lt_of_mem_pendingLists N edges hin r c' hc'
  rw [lookup_eq_zero_of_not_mem, mul_zero]
  rw [rowEntries_built N edges hin c hcN]
  intro hmem
  simp only [List.map_map, List.mem_map, Function.comp] at hmem
  obtain ⟨c'', hc'', heq⟩ := hmem
  subst heq
  have a1 := mem_pendingLists N edges hin r c hc
  have a2 := mem_pendingLists N edges hin c c'' hc''
  have a3 := mem_pendingLists N edges hin r c'' hc'
  exact htf (r + 1) (by rw [List.mem_range'_1]; omega) (c + 1) (by rw [List.mem_range'_1]; omega)
    (c'' + 1) (by rw [List.mem_range'_1]; omega) ⟨a1, a2, a3⟩

theorem squareRows_built_empty (N : Nat) (edges : List (Nat × Nat)) (hin : InRange N edges)
    (htf : TriangleFree N edges) :
    ∀ row ∈ squareRows (buildFromEdges N edges) N, row = [] := by
  intro row hrow
  simp only [squareRows, List.mem_map, List.mem_range] at hrow
  obtain ⟨r, hr, rfl⟩ := hrow
  rw [List.filterMap_eq_nil_iff]
  intro p hp
  have hmem : (buildFromEdges N edges).colIndex.getD p 0 ∈ (pendingLists N edges).getD r [] := by
    have h1 : ((buildFromEdges N edges).colIndex.getD p 0, (buildFromEdges N edges).values.getD p 0)
        ∈ rowEntries (buildFromEdges N edges) r := by
      unfold rowEntries
      exact List.mem_map.mpr ⟨p, hp, rfl⟩
    rw [rowEntries_built N edges hin r hr, List.mem_map] at h1
    obtain ⟨c, hc, heq⟩ := h1
    have : c = (buildFromEdges N edges).colIndex.getD p 0 := congrArg Prod.fst heq
    rw [← this]; exact hc
  unfold squareEmit
  rw [dot_built_of_triangleFree N edges hin htf r hr _ hmem]
  simp

theorem maskRows_of_empty (A S : csr) (size : Nat) (h : ∀ r ≤ size, S.rowIndex.getD r 0 = 0) :
    ∀ row ∈ maskRows A S size, row = [] := by
  intro row hrow
  simp only [maskRows, List.mem_map, List.mem_range] at hrow
  obtain ⟨r, hr, rfl⟩ := hrow
  rw [List.filterMap_eq_nil_iff]
  intro p _
  unfold maskEmit rowPositions
  rw [h r (by omega), h (r + 1) (by omega)]
  rfl

/-- With `N + 1` row offsets in the builder (`buildFromEdges`): for every edge list of
a simple undirected graph on the vertices `1..N` that has no triangle, the pipeline
builder, `csrSquare`, `newhadamard`, `countTriangles` returns `0` for each of the `N`
vertices. -/
theorem pipeline_triangleFree (N : Nat) (edges : List (Nat × Nat))
    (hs : SimpleEdgeList N edges) (htf : TriangleFree N edges) :
    pipeline N edges = List.replicate N 0 := by
  have hin := hs.1
  unfold pipeline
  simp only
  rw [readmtx_dynamic_ok]
  have hA := buildFromEdges_represents N edges hin
  have hS := csrSquare_represents (buildFromEdges N edges) N
  have hS0 := hS.offsets_zero (squareRows_built_empty N edges hin htf)
  have hC := newhadamard_represents (buildFromEdges N edges) (csrSquare (buildFromEdges N edges) N)
    N hA.mono hA.values_bound
  have hC0 := hC.offsets_zero (maskRows_of_empty _ _ N hS0)
  exact countTriangles_of_empty _ hC0

theorem pipeline_triangleFree_witness :
    (SimpleEdgeList 4 [(1, 2), (2, 3), (3, 4), (4, 1)] ∧
      TriangleFree 4 [(1, 2), (2, 3), (3, 4), (4, 1)] ∧
      pipeline 4 [(1, 2), (2, 3), (3, 4), (4, 1)] = [0, 0, 0, 0]) ∧
    (SimpleEdgeList 3 [(1, 2)] ∧ TriangleFree 3 [(1, 2)] ∧ pipeline 3 [(1, 2)] = [0, 0, 0]) :=
  ⟨⟨by decide, by decide, pipeline_triangleFree 4 _ (by decide) (by decide)⟩,
    ⟨by decide, by decide, pipeline_triangleFree 3 _ (by decide) (by decide)⟩⟩

theorem WF.offsets_mono {A : csr} (h : WF A) : MonoOffsets A A.size := h.2.2.1

theorem WF.values_le {A : csr} (h : WF A) : A.rowIndex.getD A.size 0 ≤ A.values.length :=
  le_of_eq h.2.2.2.1.symm

theorem WF.col_lt {A : csr} (h : WF A) (r : Nat) (hr : r < A.size) :
    ∀ c ∈ (rowEntries A r).map Prod.fst, c < A.size := by
  intro c hc
  simp only [rowEntries, List.map_map, List.mem_map, Function.comp] at hc
  obtain ⟨p, hp, rfl⟩ := hc
  have hp' := mem_rowPositions hp
  have := h.offsets_mono.le (r + 1) A.size (by omega) le_rfl
  exact h.2.2.2.2.2.1 p (by rw [h.2.2.2.2.1]; omega)

theorem WF.nodup {A : csr} (h : WF A) (r : Nat) (hr : r < A.size) :
    ((rowEntries A r).map Prod.fst).Nodup := h.2.2.2.2.2.2 r hr

theorem dot_eq_range_sum (A : csr) (hA : WF A) (i j : Nat) (hi : i < A.size) :
    dot A i j = toInt32 ((List.range A.size).map
      (fun c => lookup (rowEntries A i) c * lookup (rowEntries A j) c)).sum := by
  rw [dot_eq_sum, sum_lookup (rowEntries A i) A.size (fun c => lookup (rowEntries A j) c)
    (hA.nodup i hi) (hA.col_lt i hi)]

/-- Claim C6: for a CSR matrix that satisfies the data-model invariants and rows
`i, j < size`, `dot A i j = dot A j i`. -/
theorem dot_comm (A : csr) (hA : WF A) (i j : Nat) (hi : i < A.size) (hj : j < A.size) :
    dot A i j = dot A j i := by
  rw [dot_eq_range_sum A hA i j hi, dot_eq_range_sum A hA j i hj]
  refine congrArg toInt32 (congrArg List.sum (List.map_congr_left ?_))
  intro c _
  exact mul_comm _ _

theorem dot_comm_witness :
    WF ⟨3, [1, 1, 1, 1, 1, 1], [1, 2, 0, 2, 0, 1], [0, 2, 4, 6]⟩ ∧
      dot ⟨3, [1, 1, 1, 1, 1, 1], [1, 2, 0, 2, 0, 1], [0, 2, 4, 6]⟩ 0 2
        = dot ⟨3, [1, 1, 1, 1, 1, 1], [1, 2, 0, 2, 0, 1], [0, 2, 4, 6]⟩ 2 0 :=
  ⟨by decide, dot_comm _ (by decide) 0 2 (by decide) (by decide)⟩

theorem innerProduct_eq_range_sum (A : csr) (i j : Nat) :
    ((List.range A.size).map
      (fun c => lookup (rowEntries A i) c * lookup (rowEntries A j) c)).sum
      = innerProduct A i j := by
  unfold innerProduct valueAt
  apply sum_filter_of_zero
  intro c _ hc
  simp only [storedIn, Bool.and_eq_false_iff, decide_eq_false_iff_not] at hc
  rcases hc with hc | hc
  · rw [lookup_eq_zero_of_not_mem _ _ hc, zero_mul]
  · rw [lookup_eq_zero_of_not_mem _ _ hc, mul_zero]

/-- Claim C9 fails as stated: the matrix with the single entry `46341` at `(0, 0)`
satisfies the data-model invariants and has its one row in increasing order; the
inner product of row 0 with itself is `46341 * 46341 = 2147488281`, and `dot`
returns `-2147479015`, the product reduced to 32-bit two's complement. -/
theorem dot_overflows :
    WF ⟨1, [46341], [0], [0, 1]⟩ ∧
      ((rowEntries ⟨1, [46341], [0], [0, 1]⟩ 0).map Prod.fst).Pairwise (fun a b => a < b) ∧
      dot ⟨1, [46341], [0], [0, 1]⟩ 0 0 = -2147479015 ∧
      innerProduct ⟨1, [46341], [0], [0, 1]⟩ 0 0 = 2147488281 ∧
      dot ⟨1, [46341], [0], [0, 1]⟩ 0 0 ≠ innerProduct ⟨1, [46341], [0], [0, 1]⟩ 0 0 := by
  decide

/-- Claim C9, amended: for a CSR matrix that satisfies the data-model invariants and
rows `i, j < size`, `dot A i j` is the inner product of the two rows (the sum over the
columns stored in both of the product of the two stored values) reduced to 32-bit
two's complement; it is the inner product itself whenever that lies in the range
`-2 ^ 31 <= . < 2 ^ 31` of `int`, and it is `0` when the rows share no column.  No
ordering of the columns inside a row is needed. -/
theorem dot_eq_innerProduct (A : csr) (hA : WF A) (i j : Nat) (hi : i < A.size)
    (_hj : j < A.size) :
    dot A i j = toInt32 (innerProduct A i j) ∧
      (-2147483648 ≤ innerProduct A i j → innerProduct A i j < 2147483648 →
        dot A i j = innerProduct A i j) ∧
      ((∀ c, ¬ (storedIn A i c = true ∧ storedIn A j c = true)) → dot A i j = 0) := by
  have hmain : dot A i j = toInt32 (innerProduct A i j) := by
    rw [dot_eq_range_sum A hA i j hi, innerProduct_eq_range_sum]
  refine ⟨hmain, ?_, ?_⟩
  · intro hlo hhi
    rw [hmain, toInt32_of_range _ hlo hhi]
  · intro hno
    rw [hmain]
    unfold innerProduct
    have : (List.range A.size).filter (fun c => storedIn A i c && storedIn A j c) = [] := by
      rw [List.filter_eq_nil_iff]
      intro c _ hc
      simp only [Bool.and_eq_true] at hc
      exact hno c hc
    rw [this]; rfl

theorem dot_eq_innerProduct_witness :
    WF ⟨3, [1, 1, 1, 1, 1, 1], [1, 2, 0, 2, 0, 1], [0, 2, 4, 6]⟩ ∧
      (0 : Nat) < 3 ∧ (1 : Nat) < 3 ∧
      -2147483648 ≤ innerProduct ⟨3, [1, 1, 1, 1, 1, 1], [1, 2, 0, 2, 0, 1], [0, 2, 4, 6]⟩ 0 1 ∧
      innerProduct ⟨3, [1, 1, 1, 1, 1, 1], [1, 2, 0, 2, 0, 1], [0, 2, 4, 6]⟩ 0 1 < 2147483648 ∧
      dot ⟨3, [1, 1, 1, 1, 1, 1], [1, 2, 0, 2, 0, 1], [0, 2, 4, 6]⟩ 0 1
        = innerProduct ⟨3, [1, 1, 1, 1, 1, 1], [1, 2, 0, 2, 0, 1], [0, 2, 4, 6]⟩ 0 1 :=
  ⟨by decide, by decide, by decide, by decide, by decide,
    (dot_eq_innerProduct _ (by decide) 0 1 (by decide) (by decide)).2.1 (by decide)
      (by decide)⟩

/-- Claim C7: every entry `(c, v)` stored in row `i` of
`newhadamard A (csrSquare A)` has an entry with column index `c` in row `i` of `A`,
and the entry `(c, v)` itself, with `v` nonzero, in row `i` of `csrSquare A`. -/
theorem mask_subset (A : csr) (hA : WF A) (i : Nat) (hi : i < A.size) (c : Nat) (v : Int)
    (h : (c, v) ∈ rowEntries (newhadamard A (csrSquare A A.size) A.size) i) :
    (∃ w, (c, w) ∈ rowEntries A i) ∧
      (c, v) ∈ rowEntries (csrSquare A A.size) i ∧ v ≠ 0 := by
  have hC := newhadamard_represents A (csrSquare A A.size) A.size hA.offsets_mono hA.values_le
  have hS := csrSquare_represents A A.size
  rw [hC.rowEntries_eq i (by rw [maskRows_length]; exact hi)] at h
  simp only [maskRows, List.getElem_map, List.getElem_range, List.mem_filterMap] at h
  obtain ⟨j, hj, hem⟩ := h
  unfold maskEmit at hem
  split at hem
  · rename_i k hk
    simp only [Option.some.injEq, Prod.mk.injEq] at hem
    obtain ⟨hc, hv⟩ := hem
    have hkm := List.mem_of_find?_eq_some hk
    have hkp := List.find?_some hk
    simp only [beq_iff_eq] at hkp
    have hin : (c, v) ∈ rowEntries (csrSquare A A.size) i := by
      unfold rowEntries
      refine List.mem_map.mpr ⟨k, hkm, ?_⟩
      rw [← hkp, hc, hv]
    refine ⟨⟨A.values.getD j 0, ?_⟩, hin, ?_⟩
    · unfold rowEntries
      exact List.mem_map.mpr ⟨j, hj, by rw [hc]⟩
    · rw [hS.rowEntries_eq i (by rw [squareRows_length]; exact hi)] at hin
      simp only [squareRows, List.getElem_map, List.getElem_range, List.mem_filterMap] at hin
      obtain ⟨p, _, hp⟩ := hin
      unfold squareEmit at hp
      split at hp
      · rename_i hpos
        simp only [Option.some.injEq, Prod.mk.injEq] at hp
        rw [← hp.2]; exact ne_of_gt hpos
      · simp at hp
  · simp at hem

theorem lookup_ones (pend : List Nat) (c : Nat) :
    lookup (pend.map (fun x => (x, (1 : Int)))) c = if c ∈ pend then 1 else 0 := by
  induction pend with
  | nil => rfl
  | cons x pend ih =>
    rw [List.map_cons, lookup_cons, ih]
    by_cases h : c = x
    · simp [h]
    · simp [h]

theorem count_pendingLists (N : Nat) (edges : List (Nat × Nat)) (hin : InRange N edges)
    (i j : Nat) :
    ((pendingLists N edges).getD i []).count j = ((pendingLists N edges).getD j []).count i := by
  refine count_foldl_pendStep N edges hin (List.replicate N []) (by simp) ?_ i j
  intro a b
  have : ∀ r : Nat, (List.replicate N ([] : List Nat)).getD r [] = [] := by
    intro r
    simp only [List.getD_eq_getElem?_getD, List.getElem?_replicate]
    split <;> rfl
  rw [this, this]; rfl

/-- With `N + 1` row offsets in the builder (`buildFromEdges`): the matrix built from
an edge list with endpoints in `1..N` is symmetric: row `i` stores column `j` as often
as row `j` stores column `i`, so the value at `(i, j)` equals the value at `(j, i)`. -/
theorem built_symmetric (N : Nat) (edges : List (Nat × Nat)) (hin : InRange N edges)
    (i j : Nat) (hi : i < N) (hj : j < N) :
    ((rowEntries (readmtx_dynamic 0 0 N N edges) i).map Prod.fst).count j
        = ((rowEntries (readmtx_dynamic 0 0 N N edges) j).map Prod.fst).count i ∧
      lookup (rowEntries (readmtx_dynamic 0 0 N N edges) i) j
        = lookup (rowEntries (readmtx_dynamic 0 0 N N edges) j) i := by
  rw [readmtx_dynamic_ok, rowEntries_built N edges hin i hi, rowEntries_built N edges hin j hj]
  have hc := count_pendingLists N edges hin i j
  constructor
  · simpa [Function.comp_def] using hc
  · rw [lookup_ones, lookup_ones]
    have h1 : j ∈ (pendingLists N edges).getD i [] ↔ i ∈ (pendingLists N edges).getD j [] := by
      rw [← List.count_pos_iff, ← List.count_pos_iff, hc]
    by_cases h : j ∈ (pendingLists N edges).getD i []
    · rw [if_pos h, if_pos (h1.mp h)]
    · rw [if_neg h, if_neg (fun h' => h (h1.mpr h'))]

theorem built_symmetric_witness :
    InRange 3 [(1, 2), (1, 3), (2, 3), (2, 1), (3, 3)] ∧
      ((rowEntries (readmtx_dynamic 0 0 3 3 [(1, 2), (1, 3), (2, 3), (2, 1), (3, 3)]) 0).map
          Prod.fst).count 1
        = ((rowEntries (readmtx_dynamic 0 0 3 3 [(1, 2), (1, 3), (2, 3), (2, 1), (3, 3)]) 1).map
          Prod.fst).count 0 :=
  ⟨by decide, (built_symmetric 3 _ (by decide) 0 1 (by decide) (by decide)).1⟩

theorem matrixToCSRCell_inv (table : List (List Int)) (size i j : Nat) (hs : 0 < size)
    (st : ToCSRState) (out : List (Nat × Int)) (h : ToCSRInv size st out) :
    ToCSRInv size (matrixToCSRCell table size i st j) (out ++ (denseEmit table i j).toList) ∧
      (matrixToCSRCell table size i st j).rowIndex = st.rowIndex := by
  obtain ⟨lenV, lenC, cap, cnt, vals, cols⟩ := h
  unfold matrixToCSRCell denseEmit
  by_cases hc : (table.getD i []).getD j 0 ≠ 0
  · simp only [hc, if_true, not_false_eq_true, ne_eq]
    by_cases hg : st.nonzeros + 1 = st.resizes * size - 1
    · simp only [hg, if_true]
      have hmul : (st.resizes + 10) * size = st.resizes * size + 10 * size := by ring
      have hsub : st.resizes * size - 1 - 1 = st.nonzeros := by omega
      refine ⟨⟨?_, ?_, ?_, ?_, ?_, ?_⟩, trivial⟩
      · simp [realloc_length]
      · simp [realloc_length]
      · simp only; nlinarith
      · simp [← cnt, hg]
      · simp only
        rw [hsub, ← hg, take_set_succ _ _ _ (by rw [realloc_length]; nlinarith),
          realloc_take _ _ _ _ (by nlinarith) (by omega), vals]
        simp
      · simp only
        rw [hsub, ← hg, take_set_succ _ _ _ (by rw [realloc_length]; nlinarith),
          realloc_take _ _ _ _ (by nlinarith) (by omega), cols]
        simp
    · simp only [hg, if_false]
      refine ⟨⟨?_, ?_, ?_, ?_, ?_, ?_⟩, trivial⟩
      · simpa using lenV
      · simpa using lenC
      · simp only; omega
      · simp [← cnt]
      · simp only [Nat.add_sub_cancel]
        rw [take_set_succ _ _ _ (by omega), vals]
        simp
      · simp only [Nat.add_sub_cancel]
        rw [take_set_succ _ _ _ (by omega), cols]
        simp
  · simp only [hc, if_false]
    exact ⟨⟨lenV, lenC, cap, by simpa using cnt, by simpa using vals, by simpa using cols⟩,
      trivial⟩

theorem matrixToCSRCells_inv (table : List (List Int)) (size i : Nat) (hs : 0 < size)
    (js : List Nat) (st : ToCSRState) (out : List (Nat × Int)) (h : ToCSRInv size st out) :
    ToCSRInv size (js.foldl (matrixToCSRCell table size i) st)
        (out ++ js.filterMap (denseEmit table i)) ∧
      (js.foldl (matrixToCSRCell table size i) st).rowIndex = st.rowIndex := by
  induction js generalizing st out with
  | nil => simpa using h
  | cons p ps ih =>
    obtain ⟨h1, h2⟩ := matrixToCSRCell_inv table size i p hs st out h
    obtain ⟨h3, h4⟩ := ih _ _ h1
    simp only [List.foldl_cons]
    refine ⟨?_, h4.trans h2⟩
    have e : out ++ List.filterMap (denseEmit table i) (p :: ps)
        = out ++ (denseEmit table i p).toList ++ ps.filterMap (denseEmit table i) := by
      cases hp : denseEmit table i p <;> simp [List.filterMap_cons, hp]
    rw [e]; exact h3

theorem denseRows_succ (table : List (List Int)) (size k : Nat) :
    denseRows table size (k + 1)
      = denseRows table size k ++ [(List.range size).filterMap (denseEmit table k)] := by
  simp [denseRows, List.range_succ]

theorem denseRows_length (table : List (List Int)) (size k : Nat) :
    (denseRows table size k).length = k := by
  simp [denseRows]

theorem denseRows_take (table : List (List Int)) (size k r : Nat) (hr : r ≤ k) :
    (denseRows table size k).take r = denseRows table size r := by
  simp [denseRows, ← List.map_take, List.take_range, Nat.min_eq_left hr]

theorem matrixToCSRRow_inv (table : List (List Int)) (size k : Nat) (hk : k < size)
    (st : ToCSRState) (h : ToCSRRowInv table size k st) :
    ToCSRRowInv table size (k + 1) (matrixToCSRRow table size st k) := by
  obtain ⟨inv, lenR, offs, -⟩ := h
  have inv0 : ToCSRInv size { st with rowIndex := st.rowIndex.set k st.nonzeros }
      (denseRows table size k).flatten := ⟨inv.lenV, inv.lenC, inv.cap, inv.cnt, inv.vals, inv.cols⟩
  obtain ⟨h1, h2⟩ := matrixToCSRCells_inv table size k (by omega) (List.range size) _ _ inv0
  have hfl : (denseRows table size k).flatten ++ (List.range size).filterMap (denseEmit table k)
      = (denseRows table size (k + 1)).flatten := by
    rw [denseRows_succ]; simp
  rw [hfl] at h1
  have hoffs : ∀ r < k + 1, (st.rowIndex.set k st.nonzeros).getD r 0
      = (denseRows table size r).flatten.length := by
    intro r hr
    by_cases hrk : r = k
    · subst hrk
      rw [getD_set_eq _ _ _ _ (by omega)]; exact inv.cnt
    · rw [getD_set_ne _ _ _ _ _ (Ne.symm hrk)]; exact offs r (by omega)
  unfold matrixToCSRRow
  simp only
  by_cases hl : k = size - 1
  · simp only [hl, if_true]
    have hks : k + 1 = size := by omega
    rw [← hl]
    refine ⟨⟨h1.lenV, h1.lenC, h1.cap, h1.cnt, h1.vals, h1.cols⟩, ?_, ?_, ?_⟩
    · simp [h2, lenR]
    · intro r hr
      simp only
      rw [getD_set_ne _ _ _ _ _ (by omega), h2]
      exact hoffs r hr
    · intro _
      simp only
      rw [getD_set_eq _ _ _ _ (by simp [h2, lenR]), h1.cnt, hks]
  · simp only [hl, if_false]
    refine ⟨h1, ?_, ?_, ?_⟩
    · simp [h2, lenR]
    · intro r hr; rw [h2]; exact hoffs r hr
    · intro h'; omega

theorem matrixToCSRLoop_inv (table : List (List Int)) (size : Nat) (hs : 0 < size) :
    ToCSRRowInv table size size (matrixToCSRLoop table size) := by
  have key : ∀ k, k ≤ size → ToCSRRowInv table size k
      ((List.range k).foldl (matrixToCSRRow table size)
        { nonzeros := 0
          resizes := 10
          rowIndex := List.replicate (size + 1) 0
          values := List.replicate (10 * size) 0
          colIndex := List.replicate (10 * size) 0 }) := by
    intro k
    induction k with
    | zero =>
      intro _
      refine ⟨⟨by simp, by simp, by simp; omega, by simp [denseRows], by simp [denseRows],
        by simp [denseRows]⟩, by simp, by simp, by intro h; omega⟩
    | succ k ih =>
      intro hk
      rw [List.range_succ, List.foldl_append]
      exact matrixToCSRRow_inv table size k (by omega) _ (ih (by omega))
  exact key size le_rfl

theorem matrixToCSR_represents (table : List (List Int)) (size : Nat) :
    Represents (matrixToCSR table size) (denseRows table size size) := by
  rcases Nat.eq_zero_or_pos size with hs | hs
  · subst hs
    refine ⟨by simp [matrixToCSR, denseRows], by simp [matrixToCSR, matrixToCSRLoop, denseRows],
      ?_, by simp [denseRows], by simp [denseRows]⟩
    intro r hr
    simp [denseRows] at hr
    subst hr
    simp [matrixToCSR, matrixToCSRLoop]
  · obtain ⟨inv, lenR, offs, last⟩ := matrixToCSRLoop_inv table size hs
    have hn := inv.cnt
    refine ⟨by simp [matrixToCSR, denseRows_length], by simp [matrixToCSR, denseRows_length, lenR],
      ?_, ?_, ?_⟩
    · intro r hr
      rw [denseRows_length] at hr
      rw [denseRows_take table size size r hr]
      by_cases h : r = size
      · subst h; exact last rfl
      · exact offs r (by omega)
    · simp only [matrixToCSR]
      rw [← hn]
      exact inv.cols
    · simp only [matrixToCSR]
      rw [← hn]
      exact inv.vals

theorem legacyMatrixToCSRCell_inv (table : List (List Int)) (i j : Nat)
    (st : LegacyToCSRState) (out : List (Nat × Int)) (h : LegacyInv st out) :
    LegacyInv (legacyMatrixToCSRCell table i st j) (out ++ (denseEmit table i j).toList) ∧
      (legacyMatrixToCSRCell table i st j).rowIndex = st.rowIndex := by
  obtain ⟨lenV, lenC, cnt, vals, cols⟩ := h
  unfold legacyMatrixToCSRCell denseEmit
  by_cases hc : (table.getD i []).getD j 0 ≠ 0
  · simp only [hc, if_true, not_false_eq_true, ne_eq]
    by_cases hg : (st.nonzeros + 1) % 100 = 0
    · simp only [hg, if_true, Nat.add_sub_cancel]
      refine ⟨⟨?_, ?_, ?_, ?_, ?_⟩, trivial⟩
      · simp only [List.length_set, realloc_length]; omega
      · simp only [List.length_set, realloc_length]; omega
      · simp [← cnt]
      · simp only
        rw [take_set_succ _ _ _ (by rw [realloc_length]; omega),
          realloc_take _ _ _ _ (by omega) (by omega), vals]
        simp
      · simp only
        rw [take_set_succ _ _ _ (by rw [realloc_length]; omega),
          realloc_take _ _ _ _ (by omega) (by omega), cols]
        simp
    · simp only [hg, if_false, Nat.add_sub_cancel]
      refine ⟨⟨?_, ?_, ?_, ?_, ?_⟩, trivial⟩
      · simp only [List.length_set]; omega
      · simp only [List.length_set]; omega
      · simp [← cnt]
      · simp only
        rw [take_set_succ _ _ _ (by omega), vals]
        simp
      · simp only
        rw [take_set_succ _ _ _ (by omega), cols]
        simp
  · simp only [hc, if_false]
    exact ⟨⟨lenV, lenC, by simpa using cnt, by simpa using vals, by simpa using cols⟩, trivial⟩

theorem legacyMatrixToCSRCells_inv (table : List (List Int)) (i : Nat)
    (js : List Nat) (st : LegacyToCSRState) (out : List (Nat × Int)) (h : LegacyInv st out) :
    LegacyInv (js.foldl (legacyMatrixToCSRCell table i) st)
        (out ++ js.filterMap (denseEmit table i)) ∧
      (js.foldl (legacyMatrixToCSRCell table i) st).rowIndex = st.rowIndex := by
  induction js generalizing st out with
  | nil => simpa using h
  | cons p ps ih =>
    obtain ⟨h1, h2⟩ := legacyMatrixToCSRCell_inv table i p st out h
    obtain ⟨h3, h4⟩ := ih _ _ h1
    simp only [List.foldl_cons]
    refine ⟨?_, h4.trans h2⟩
    have e : out ++ List.filterMap (denseEmit table i) (p :: ps)
        = out ++ (denseEmit table i p).toList ++ ps.filterMap (denseEmit table i) := by
      cases hp : denseEmit table i p <;> simp [List.filterMap_cons, hp]
    rw [e]; exact h3

theorem legacyMatrixToCSRRow_inv (table : List (List Int)) (size k : Nat) (hk : k < size)
    (st : LegacyToCSRState) (h : LegacyRowInv table size k st) :
    LegacyRowInv table size (k + 1) (legacyMatrixToCSRRow table size st k) := by
  obtain ⟨inv, lenR, offs, -⟩ := h
  have inv0 : LegacyInv { st with rowIndex := st.rowIndex.set k st.nonzeros }
      (denseRows table size k).flatten := ⟨inv.lenV, inv.lenC, inv.cnt, inv.vals, inv.cols⟩
  obtain ⟨h1, h2⟩ := legacyMatrixToCSRCells_inv table k (List.range size) _ _ inv0
  have hfl : (denseRows table size k).flatten ++ (List.range size).filterMap (denseEmit table k)
      = (denseRows table size (k + 1)).flatten := by
    rw [denseRows_succ]; simp
  rw [hfl] at h1
  have hoffs : ∀ r < k + 1, (st.rowIndex.set k st.nonzeros).getD r 0
      = (denseRows table size r).flatten.length := by
    intro r hr
    by_cases hrk : r = k
    · subst hrk
      rw [getD_set_eq _ _ _ _ (by omega)]; exact inv.cnt
    · rw [getD_set_ne _ _ _ _ _ (Ne.symm hrk)]; exact offs r (by omega)
  unfold legacyMatrixToCSRRow
  simp only
  by_cases hl : k = size - 1
  · simp only [hl, if_true]
    have hks : k + 1 = size := by omega
    rw [← hl]
    refine ⟨⟨h1.lenV, h1.lenC, h1.cnt, h1.vals, h1.cols⟩, ?_, ?_, ?_⟩
    · simp [h2, lenR]
    · intro r hr
      simp only
      rw [getD_set_ne _ _ _ _ _ (by omega), h2]
      exact hoffs r hr
    · intro _
      simp only
      rw [getD_set_eq _ _ _ _ (by simp [h2, lenR]), h1.cnt, hks]
  · simp only [hl, if_false]
    refine ⟨h1, ?_, ?_, ?_⟩
    · simp [h2, lenR]
    · intro r hr; rw [h2]; exact hoffs r hr
    · intro h'; omega

theorem legacyMatrixToCSR_represents (junk : List Nat) (table : List (List Int)) (size : Nat)
    (hs : 0 < size) :
    Represents (legacyMatrixToCSR junk table size) (denseRows table size size) := by
  have key : ∀ k, k ≤ size → LegacyRowInv table size k
      ((List.range k).foldl (legacyMatrixToCSRRow table size)
        { nonzeros := 0
          rowIndex := realloc junk (size + 1) 0
          values := List.replicate 100 0
          colIndex := List.replicate 100 0 }) := by
    intro k
    induction k with
    | zero =>
      intro _
      refine ⟨⟨by simp, by simp, by simp [denseRows], by simp [denseRows],
        by simp [denseRows]⟩, by simp [realloc_length], by simp, by intro h; omega⟩
    | succ k ih =>
      intro hk
      rw [List.range_succ, List.foldl_append]
      exact legacyMatrixToCSRRow_inv table size k (by omega) _ (ih (by omega))
  obtain ⟨inv, lenR, offs, last⟩ := key size le_rfl
  have hn := inv.cnt
  refine ⟨by simp [legacyMatrixToCSR, denseRows_length],
    by simp only [legacyMatrixToCSR, denseRows_length]; exact lenR, ?_, ?_, ?_⟩
  · intro r hr
    rw [denseRows_length] at hr
    rw [denseRows_take table size size r hr]
    by_cases h : r = size
    · subst h; exact last rfl
    · exact offs r (by omega)
  · simp only [legacyMatrixToCSR]
    rw [← hn]
    exact inv.cols
  · simp only [legacyMatrixToCSR]
    rw [← hn]
    exact inv.vals

theorem set_getD_self {α : Type} (l : List α) (i : Nat) (d : α) (hi : i < l.length) :
    l.set i (l.getD i d) = l := by
  apply List.ext_getElem (by simp)
  intro n h1 h2
  rw [List.getElem_set]
  split
  · rename_i h; subst h
    simp [List.getD_eq_getElem?_getD, List.getElem?_eq_getElem hi]
  · rfl

theorem CSRtoMatrixCells_eq (X : csr) (row : Nat) (ps : List Nat) (m : List (List Int))
    (hrow : row < m.length) :
    ps.foldl (CSRtoMatrixCell X row) m
      = m.set row (writeRow (m.getD row [])
          (ps.map (fun p => (X.colIndex.getD p 0, X.values.getD p 0)))) := by
  induction ps generalizing m with
  | nil =>
    simp only [List.foldl_nil, List.map_nil, writeRow]
    exact (set_getD_self _ _ _ hrow).symm
  | cons p ps ih =>
    rw [List.foldl_cons, ih _ (by simpa [CSRtoMatrixCell] using hrow)]
    simp only [CSRtoMatrixCell, List.set_set, List.map_cons, writeRow, List.foldl_cons]
    rw [getD_set_eq _ _ _ _ hrow]

theorem CSRtoMatrix_eq (X : csr) (size : Nat) :
    CSRtoMatrix X size
      = (List.range size).map (fun r => writeRow (List.replicate size 0) (rowEntries X r)) := by
  have key : ∀ k, k ≤ size →
      (List.range k).foldl (fun matrix row =>
        (List.range' (X.rowIndex.getD row 0)
          (X.rowIndex.getD (row + 1) 0 - X.rowIndex.getD row 0)).foldl
            (CSRtoMatrixCell X row) matrix)
        (List.replicate size (List.replicate size 0))
      = (List.range k).map (fun r => writeRow (List.replicate size 0) (rowEntries X r))
          ++ List.replicate (size - k) (List.replicate size 0) := by
    intro k
    induction k with
    | zero => intro _; simp
    | succ k ih =>
      intro hk
      rw [List.range_succ, List.foldl_append, ih (by omega)]
      simp only [List.foldl_cons, List.foldl_nil]
      have hlen : k < ((List.range k).map
          (fun r => writeRow (List.replicate size 0) (rowEntries X r))
          ++ List.replicate (size - k) (List.replicate size (0 : Int))).length := by
        simp; omega
      rw [CSRtoMatrixCells_eq X k _ _ hlen]
      have hrep : List.replicate (size - k) (List.replicate size (0 : Int))
          = List.replicate size 0 :: List.replicate (size - (k + 1)) (List.replicate size 0) := by
        rw [← List.replicate_succ]; congr 1; omega
      rw [hrep]
      have hk' : k = ((List.range k).map
          (fun r => writeRow (List.replicate size 0) (rowEntries X r))).length := by simp
      rw [List.getD_eq_getElem?_getD]
      rw [List.getElem?_append_right (by simp)]
      simp only [List.length_map, List.length_range, Nat.sub_self, List.getElem?_cons_zero,
        Option.getD_some]
      rw [List.set_append_right _ _ (by simp)]
      simp only [List.length_map, List.length_range, Nat.sub_self, List.set_cons_zero,
        List.map_append, List.map_cons, List.map_nil, List.append_assoc, List.singleton_append]
      rfl
  have := key size le_rfl
  simpa [CSRtoMatrix] using this

theorem writeRow_dense (row : List Int) (size : Nat) (hrow : row.length = size) (k : Nat)
    (hk : k ≤ size) (f : Nat → Option (Nat × Int))
    (hf : ∀ j, f j = if row.getD j 0 ≠ 0 then some (j, row.getD j 0) else none) :
    writeRow (List.replicate size 0) ((List.range k).filterMap f)
      = row.take k ++ List.replicate (size - k) 0 := by
  induction k with
  | zero => simp [writeRow]
  | succ k ih =>
    have ih' := ih (by omega)
    unfold writeRow at ih' ⊢
    rw [List.range_succ, List.filterMap_append, List.foldl_append, ih']
    have hrep : List.replicate (size - k) (0 : Int)
        = 0 :: List.replicate (size - (k + 1)) 0 := by
      rw [← List.replicate_succ]; congr 1; omega
    have hklen : (row.take k).length = k := by simp; omega
    rw [take_succ_getD row k 0 (by omega), hrep]
    simp only [List.filterMap_cons, List.filterMap_nil, hf k]
    by_cases hz : row.getD k 0 ≠ 0
    · simp only [hz, if_true, not_false_eq_true, ne_eq, List.foldl_cons, List.foldl_nil]
      rw [List.set_append_right _ _ (by omega), hklen, Nat.sub_self, List.set_cons_zero]
      simp
    · have hz' : row.getD k 0 = 0 := by simpa using hz
      simp only [hz, if_false, List.foldl_nil]
      rw [hz']
      simp

theorem map_getD_range_self {α : Type} (l : List (List α)) :
    (List.range l.length).map (fun r => l.getD r []) = l := by
  apply List.ext_getElem (by simp)
  intro n h1 h2
  simp [List.getD_eq_getElem?_getD, List.getElem?_eq_getElem h2]

theorem CSRtoMatrix_of_represents (X : csr) (T : List (List Int)) (size : Nat)
    (hlen : T.length = size) (hrows : ∀ row ∈ T, row.length = size)
    (hX : Represents X (denseRows T size size)) : CSRtoMatrix X size = T := by
  rw [CSRtoMatrix_eq]
  conv_rhs => rw [← map_getD_range_self T, hlen]
  apply List.map_congr_left
  intro r hr
  rw [List.mem_range] at hr
  rw [hX.rowEntries_eq r (by rw [denseRows_length]; exact hr)]
  simp only [denseRows, List.getElem_map, List.getElem_range]
  have hmem : T.getD r [] ∈ T := by
    rw [getD_eq_getElem_nil T r (by omega)]; exact List.getElem_mem _
  have hr1 := hrows _ hmem
  rw [writeRow_dense (T.getD r []) size hr1 size le_rfl (denseEmit T r) (fun j => rfl)]
  rw [List.take_of_length_le (le_of_eq hr1), Nat.sub_self]
  simp

/-- Claim C4: for every `size` and every dense `size x size` integer table `T`
(symmetric 0/1 tables among them), `CSRtoMatrix (matrixToCSR T size) size = T`, for
the `matrixToCSR` of helpers.c and for the one of pthreads.c. -/
theorem dense_roundtrip (T : List (List Int)) (size : Nat) (hlen : T.length = size)
    (hrows : ∀ row ∈ T, row.length = size) :
    CSRtoMatrix (matrixToCSR T size) size = T ∧
      ∀ junk, CSRtoMatrix (legacyMatrixToCSR junk T size) size = T := by
  refine ⟨CSRtoMatrix_of_represents _ T size hlen hrows (matrixToCSR_represents T size), ?_⟩
  intro junk
  rcases Nat.eq_zero_or_pos size with hs | hs
  · subst hs
    have : T = [] := List.length_eq_zero.mp hlen
    subst this
    rfl
  · exact CSRtoMatrix_of_represents _ T size hlen hrows
      (legacyMatrixToCSR_represents junk T size hs)

/-- Claim C1, evaluated on the complete graph on three vertices: the pipeline returns
`[0, 0, 0]`, while every vertex lies on one triangle; the fused routine
`hadamardSingleStep` followed by `countTriangles` returns `[1, 1, 1]`. -/
theorem pipeline_complete3 :
    pipeline 3 [(1, 2), (1, 3), (2, 3)] = [0, 0, 0] ∧
      countTriangles (hadamardSingleStep (readmtx_dynamic 0 0 3 3 [(1, 2), (1, 3), (2, 3)]) 0 3)
        = [1, 1, 1] := by
  decide

/-- Claim C3 fails as stated: on the complete graph on four vertices the pipeline
does not return `[2, 2, 2, 2]`. -/
theorem pipeline_complete4_ne :
    pipeline 4 [(1, 2), (1, 3), (1, 4), (2, 3), (2, 4), (3, 4)] ≠ [2, 2, 2, 2] := by
  decide

/-- Claim C3, amended: on the complete graph on four vertices every row of the built
matrix stores three entries, `dot` is `2` at each of them, and the fused routine
`hadamardSingleStep` followed by `countTriangles` returns `[3, 3, 3, 3]`. -/
theorem complete4_by_design :
    (∀ r < 4, ∀ e ∈ rowEntries
        (readmtx_dynamic 0 0 4 4 [(1, 2), (1, 3), (1, 4), (2, 3), (2, 4), (3, 4)]) r,
        dot (readmtx_dynamic 0 0 4 4 [(1, 2), (1, 3), (1, 4), (2, 3), (2, 4), (3, 4)]) r e.1 = 2) ∧
      (∀ r < 4, (rowEntries
        (readmtx_dynamic 0 0 4 4 [(1, 2), (1, 3), (1, 4), (2, 3), (2, 4), (3, 4)]) r).length = 3) ∧
      countTriangles (hadamardSingleStep
        (readmtx_dynamic 0 0 4 4 [(1, 2), (1, 3), (1, 4), (2, 3), (2, 4), (3, 4)]) 0 4)
        = [3, 3, 3, 3] := by
  decide

theorem dense_roundtrip_witness :
    ([[0, 1, 1], [1, 0, 0], [1, 0, 0]] : List (List Int)).length = 3 ∧
      (∀ row ∈ ([[0, 1, 1], [1, 0, 0], [1, 0, 0]] : List (List Int)), row.length = 3) ∧
      CSRtoMatrix (matrixToCSR [[0, 1, 1], [1, 0, 0], [1, 0, 0]] 3) 3
        = [[0, 1, 1], [1, 0, 0], [1, 0, 0]] :=
  ⟨by decide, by decide, (dense_roundtrip _ 3 (by decide) (by decide)).1⟩

theorem mask_subset_witness :
    WF ⟨3, [1, 1, 1, 1, 1, 1], [1, 2, 0, 2, 0, 1], [0, 2, 4, 6]⟩ ∧
      ((1, 1) ∈ rowEntries (newhadamard ⟨3, [1, 1, 1, 1, 1, 1], [1, 2, 0, 2, 0, 1], [0, 2, 4, 6]⟩
        (csrSquare ⟨3, [1, 1, 1, 1, 1, 1], [1, 2, 0, 2, 0, 1], [0, 2, 4, 6]⟩ 3) 3) 0) ∧
      (1, 1) ∈ rowEntries (csrSquare ⟨3, [1, 1, 1, 1, 1, 1], [1, 2, 0, 2, 0, 1], [0, 2, 4, 6]⟩ 3) 0 :=
  ⟨by decide, by decide,
    (mask_subset ⟨3, [1, 1, 1, 1, 1, 1], [1, 2, 0, 2, 0, 1], [0, 2, 4, 6]⟩ (by decide) 0
      (by decide) 1 1 (by decide)).2.1⟩

/-- Claim C8, evaluated on the complete graph on three vertices: row 0 of
`newhadamard A (csrSquare A)` has the odd value sum `1`. -/
theorem masked_rowsum_complete3 :
    SimpleEdgeList 3 [(1, 2), (1, 3), (2, 3)] ∧
      ((rowEntries (newhadamard (readmtx_dynamic 0 0 3 3 [(1, 2), (1, 3), (2, 3)])
        (csrSquare (readmtx_dynamic 0 0 3 3 [(1, 2), (1, 3), (2, 3)]) 3) 3) 0).map
          Prod.snd).sum = 1 := by
  decide

/-- Claim C10, evaluated on the complete graph on three vertices: row 1 of `A` stores
the columns `0` and `2`, `dot` is `1` at both, and `csrSquare` stores for them the
column indices `2` and `3`, the positions of the two entries in `A.colIndex`; the
fused routine `hadamardSingleStep` stores the columns `0` and `2`. -/
theorem csrSquare_complete3_columns :
    WF (readmtx_dynamic 0 0 3 3 [(1, 2), (1, 3), (2, 3)]) ∧
      rowEntries (readmtx_dynamic 0 0 3 3 [(1, 2), (1, 3), (2, 3)]) 1 = [(0, 1), (2, 1)] ∧
      dot (readmtx_dynamic 0 0 3 3 [(1, 2), (1, 3), (2, 3)]) 1 0 = 1 ∧
      dot (readmtx_dynamic 0 0 3 3 [(1, 2), (1, 3), (2, 3)]) 1 2 = 1 ∧
      rowEntries (csrSquare (readmtx_dynamic 0 0 3 3 [(1, 2), (1, 3), (2, 3)]) 3) 1
        = [(2, 1), (3, 1)] ∧
      rowEntries (hadamardSingleStep (readmtx_dynamic 0 0 3 3 [(1, 2), (1, 3), (2, 3)]) 0 3) 1
        = [(0, 1), (2, 1)] := by
  decide

theorem filterMap_map_sublist {α β : Type} (g : α → Option β) (f : α → β) (l : List α)
    (h : ∀ a b, g a = some b → b = f a) : List.Sublist (l.filterMap g) (l.map f) := by
  induction l with
  | nil => simp
  | cons a l ih =>
    rw [List.filterMap_cons, List.map_cons]
    cases hg : g a with
    | none => exact List.Sublist.cons _ ih
    | some b =>
      simp only
      rw [h a b hg]
      exact List.Sublist.cons₂ _ ih

theorem rowEntries_newhadamard (A S : csr) (hmono : MonoOffsets A A.size)
    (hval : A.rowIndex.getD A.size 0 ≤ A.values.length) (i : Nat) (hi : i < A.size) :
    rowEntries (newhadamard A S A.size) i = (rowPositions A i).filterMap (maskEmit A S i) := by
  rw [(newhadamard_represents A S A.size hmono hval).rowEntries_eq i
    (by rw [maskRows_length]; exact hi)]
  simp [maskRows]

theorem rowEntries_csrSquare (A : csr) (size i : Nat) (hi : i < size) :
    rowEntries (csrSquare A size) i = (rowPositions A i).filterMap (squareEmit A i) := by
  rw [(csrSquare_represents A size).rowEntries_eq i (by rw [squareRows_length]; exact hi)]
  simp [squareRows]

theorem maskEmit_fst (A S : csr) (i j : Nat) (e : Nat × Int) (h : maskEmit A S i j = some e) :
    e.1 = A.colIndex.getD j 0 := by
  unfold maskEmit at h
  split at h
  · simp only [Option.some.injEq] at h
    rw [← h]
  · simp at h

theorem maskEmit_of_stored (A S : csr) (i j : Nat) (v : Int)
    (hnd : ((rowEntries S i).map Prod.fst).Nodup)
    (hv : (A.colIndex.getD j 0, v) ∈ rowEntries S i) :
    maskEmit A S i j = some (A.colIndex.getD j 0, v) := by
  unfold rowEntries at hv hnd
  rw [List.mem_map] at hv
  obtain ⟨k0, hk0, hk0e⟩ := hv
  simp only [Prod.mk.injEq] at hk0e
  rw [List.map_map] at hnd
  have hinj := List.inj_on_of_nodup_map hnd
  unfold maskEmit
  cases hf : (rowPositions S i).find?
      (fun k => A.colIndex.getD j 0 == S.colIndex.getD k 0) with
  | none =>
    rw [List.find?_eq_none] at hf
    exact absurd (by rw [beq_iff_eq, hk0e.1]) (hf k0 hk0)
  | some k =>
    have hkm := List.mem_of_find?_eq_some hf
    have hkp := List.find?_some hf
    simp only [beq_iff_eq] at hkp
    have hk : k = k0 := hinj hkm hk0 (by simp only [Function.comp]; rw [← hkp, hk0e.1])
    subst hk
    simp only [hk0e.2]

/-- Claim C11: for CSR matrices `A` and `S` of the same size that satisfy the
data-model invariants, every position `(i, c)` stored in both has in
`newhadamard A S` the entry `(c, v)` with `v` the value `S` stores there, whatever
value `A` stores; the columns of an output row come in the order of the row of `A`. -/
theorem newhadamard_copies (A S : csr) (hA : WF A) (hS : WF S) (hsize : S.size = A.size)
    (i : Nat) (hi : i < A.size) :
    (∀ c w v, (c, w) ∈ rowEntries A i → (c, v) ∈ rowEntries S i →
        (c, v) ∈ rowEntries (newhadamard A S A.size) i) ∧
      List.Sublist ((rowEntries (newhadamard A S A.size) i).map Prod.fst)
        ((rowEntries A i).map Prod.fst) := by
  rw [rowEntries_newhadamard A S hA.offsets_mono hA.values_le i hi]
  constructor
  · intro c w v hw hv
    unfold rowEntries at hw
    rw [List.mem_map] at hw
    obtain ⟨j, hj, hje⟩ := hw
    simp only [Prod.mk.injEq] at hje
    rw [List.mem_filterMap]
    refine ⟨j, hj, ?_⟩
    have hnd : ((rowEntries S i).map Prod.fst).Nodup := hS.nodup i (by rw [hsize]; exact hi)
    have := maskEmit_of_stored A S i j v hnd (by rw [hje.1]; exact hv)
    rw [this, hje.1]
  · rw [List.map_filterMap]
    unfold rowEntries
    rw [List.map_map]
    apply filterMap_map_sublist
    intro j b hb
    simp only [Option.map_eq_some'] at hb
    obtain ⟨e, he, heb⟩ := hb
    rw [← heb, maskEmit_fst A S i j e he]
    rfl

theorem newhadamard_copies_witness :
    WF ⟨2, [5, 7, 5], [0, 1, 0], [0, 2, 3]⟩ ∧ WF ⟨2, [3, 4], [1, 0], [0, 1, 2]⟩ ∧
      (1, 3) ∈ rowEntries (newhadamard ⟨2, [5, 7, 5], [0, 1, 0], [0, 2, 3]⟩
        ⟨2, [3, 4], [1, 0], [0, 1, 2]⟩ 2) 0 :=
  ⟨by decide, by decide,
    (newhadamard_copies ⟨2, [5, 7, 5], [0, 1, 0], [0, 2, 3]⟩ ⟨2, [3, 4], [1, 0], [0, 1, 2]⟩
      (by decide) (by decide) rfl 0 (by decide)).1 1 7 3 (by decide) (by decide)⟩

theorem uintAdd_of_nonneg (t : Nat) (v : Int) (hv : 0 ≤ v) (hlt : (t : Int) + v < 2 ^ 32) :
    uintAdd t v = t + v.toNat := by
  unfold uintAdd
  rw [Int.emod_eq_of_lt (by omega) hlt]
  omega

theorem sum_map_range'_concat (f : Nat → Int) (s t : Nat) :
    ((List.range' s (t + 1)).map f).sum = ((List.range' s t).map f).sum + f (s + t) := by
  rw [List.range'_1_concat, List.map_append, List.sum_append]
  simp

theorem sum_map_range'_nonneg (f : Nat → Int) (s t : Nat)
    (h : ∀ p ∈ List.range' s t, 0 ≤ f p) : 0 ≤ ((List.range' s t).map f).sum := by
  apply List.sum_nonneg
  intro x hx
  rw [List.mem_map] at hx
  obtain ⟨p, hp, rfl⟩ := hx
  exact h p hp

theorem countCells_partial (C : csr) (i stop start : Nat) (tc : List Nat) (hi : i < tc.length)
    (t : Nat) (ht : start + t + 1 ≤ stop)
    (hnn : ∀ p ∈ List.range' start t, 0 ≤ C.values.getD p 0)
    (hlt : (tc.getD i 0 : Int) + ((List.range' start t).map (fun p => C.values.getD p 0)).sum
      < 2 ^ 32) :
    (List.range' start t).foldl (countCell C i stop) tc
      = tc.set i (tc.getD i 0
          + (((List.range' start t).map (fun p => C.values.getD p 0)).sum).toNat) := by
  induction t with
  | zero =>
    simp only [List.range'_zero, List.foldl_nil, List.map_nil, List.sum_nil, Int.toNat_zero,
      Nat.add_zero]
    exact (set_getD_self _ _ _ hi).symm
  | succ t ih =>
    have hnn' : ∀ p ∈ List.range' start t, 0 ≤ C.values.getD p 0 := by
      intro p hp
      apply hnn p
      rw [List.mem_range'_1] at hp ⊢
      omega
    have hlast : 0 ≤ C.values.getD (start + t) 0 :=
      hnn _ (by rw [List.mem_range'_1]; omega)
    have hs0 := sum_map_range'_nonneg (fun p => C.values.getD p 0) start t hnn'
    rw [sum_map_range'_concat] at hlt ⊢
    rw [List.range'_1_concat, List.foldl_append, ih (by omega) hnn' (by omega)]
    simp only [List.foldl_cons, List.foldl_nil, countCell]
    rw [if_neg (by omega), getD_set_eq _ _ _ _ hi, List.set_set,
      uintAdd_of_nonneg _ _ hlast (by push_cast; omega)]
    congr 1
    omega

theorem countCells_row (C : csr) (i : Nat) (tc : List Nat) (hi : i < tc.length)
    (h0 : tc.getD i 0 = 0)
    (hnn : ∀ p ∈ rowPositions C i, 0 ≤ C.values.getD p 0)
    (hlt : rowSum C i < 2 ^ 32) :
    (rowPositions C i).foldl (countCell C i (C.rowIndex.getD (i + 1) 0)) tc
      = tc.set i ((rowSum C i).toNat / 2) := by
  have hsum : rowSum C i = ((rowPositions C i).map (fun p => C.values.getD p 0)).sum := by
    simp [rowSum, rowEntries, Function.comp_def]
  rw [hsum] at hlt ⊢
  unfold rowPositions at hnn hlt ⊢
  generalize hn : C.rowIndex.getD (i + 1) 0 - C.rowIndex.getD i 0 = n at hnn hlt ⊢
  cases n with
  | zero =>
    simp only [List.range'_zero, List.foldl_nil, List.map_nil, List.sum_nil, Int.toNat_zero,
      Nat.zero_div]
    rw [← h0, set_getD_self _ _ _ hi]
  | succ m =>
    have hnn' : ∀ p ∈ List.range' (C.rowIndex.getD i 0) m, 0 ≤ C.values.getD p 0 := by
      intro p hp
      apply hnn p
      rw [List.mem_range'_1] at hp ⊢
      omega
    have hlast : 0 ≤ C.values.getD (C.rowIndex.getD i 0 + m) 0 :=
      hnn _ (by rw [List.mem_range'_1]; omega)
    have hs0 := sum_map_range'_nonneg (fun p => C.values.getD p 0) (C.rowIndex.getD i 0) m hnn'
    rw [sum_map_range'_concat] at hlt ⊢
    rw [List.range'_1_concat, List.foldl_append,
      countCells_partial C i _ _ tc hi m (by omega) hnn' (by rw [h0]; push_cast; omega)]
    simp only [List.foldl_cons, List.foldl_nil, countCell]
    rw [if_pos (by omega)]
    simp only [List.set_set]
    rw [getD_set_eq _ _ _ _ hi, getD_set_eq _ _ _ _ hi, h0,
      uintAdd_of_nonneg _ _ hlast (by push_cast; omega)]
    congr 2
    omega

theorem countTriangles_eq (C : csr)
    (hnn : ∀ i < C.size, ∀ e ∈ rowEntries C i, 0 ≤ e.2)
    (hlt : ∀ i < C.size, rowSum C i < 2 ^ 32) :
    countTriangles C = (List.range C.size).map (fun i => (rowSum C i).toNat / 2) := by
  have key : ∀ k, k ≤ C.size →
      (List.range k).foldl (fun triangleCount i =>
        (List.range' (C.rowIndex.getD i 0)
          (C.rowIndex.getD (i + 1) 0 - C.rowIndex.getD i 0)).foldl
            (countCell C i (C.rowIndex.getD (i + 1) 0)) triangleCount)
        (List.replicate C.size 0)
      = (List.range k).map (fun i => (rowSum C i).toNat / 2)
          ++ List.replicate (C.size - k) 0 := by
    intro k
    induction k with
    | zero => intro _; simp
    | succ k ih =>
      intro hk
      rw [List.range_succ, List.foldl_append, ih (by omega)]
      simp only [List.foldl_cons, List.foldl_nil]
      have hrep : List.replicate (C.size - k) (0 : Nat)
          = 0 :: List.replicate (C.size - (k + 1)) 0 := by
        rw [← List.replicate_succ]; congr 1; omega
      rw [hrep]
      have hklen : ((List.range k).map (fun i => (rowSum C i).toNat / 2)).length = k := by simp
      have hnnk : ∀ p ∈ rowPositions C k, 0 ≤ C.values.getD p 0 := by
        intro p hp
        exact hnn k (by omega) (C.colIndex.getD p 0, C.values.getD p 0)
          (List.mem_map.mpr ⟨p, hp, rfl⟩)
      have h := countCells_row C k
        ((List.range k).map (fun i => (rowSum C i).toNat / 2)
          ++ 0 :: List.replicate (C.size - (k + 1)) 0)
        (by simp)
        (by rw [List.getD_eq_getElem?_getD, List.getElem?_append_right (by simp)]; simp)
        hnnk (hlt k (by omega))
      unfold rowPositions at h
      rw [h, List.set_append_right _ _ (by simp), hklen, Nat.sub_self, List.set_cons_zero]
      simp
  have := key C.size le_rfl
  simpa [countTriangles] using this

/-- Claim C12: for a CSR matrix `C` with valid row offsets, non-negative stored values
and row sums below `2 ^ 32`, `countTriangles C` has `C.size` elements, element `i`
is the sum of the values of row `i` divided by 2 (rounded down), and a row without
stored entry gives `0`. -/
theorem countTriangles_halves (C : csr) (_hC : ValidOffsets C)
    (hnn : ∀ i < C.size, ∀ e ∈ rowEntries C i, 0 ≤ e.2)
    (hlt : ∀ i < C.size, rowSum C i < 2 ^ 32) :
    (countTriangles C).length = C.size ∧
      (∀ i < C.size, ((countTriangles C).getD i 0 : Int) = rowSum C i / 2) ∧
      (∀ i < C.size, rowEntries C i = [] → (countTriangles C).getD i 0 = 0) := by
  rw [countTriangles_eq C hnn hlt]
  have hget : ∀ i < C.size,
      ((List.range C.size).map (fun i => (rowSum C i).toNat / 2)).getD i 0
        = (rowSum C i).toNat / 2 := by
    intro i hi
    simp [List.getD_eq_getElem?_getD, List.getElem?_eq_getElem, hi]
  refine ⟨by simp, ?_, ?_⟩
  · intro i hi
    rw [hget i hi]
    have h0 : 0 ≤ rowSum C i := by
      apply List.sum_nonneg
      intro x hx
      rw [List.mem_map] at hx
      obtain ⟨e, he, rfl⟩ := hx
      exact hnn i hi e he
    omega
  · intro i hi he
    rw [hget i hi]
    simp [rowSum, he]

theorem countTriangles_halves_witness :
    ValidOffsets ⟨3, [2, 3, 4], [1, 0, 2], [0, 2, 2, 3]⟩ ∧
      countTriangles ⟨3, [2, 3, 4], [1, 0, 2], [0, 2, 2, 3]⟩ = [2, 0, 2] ∧
      ((countTriangles ⟨3, [2, 3, 4], [1, 0, 2], [0, 2, 2, 3]⟩).getD 0 0 : Int)
        = rowSum ⟨3, [2, 3, 4], [1, 0, 2], [0, 2, 2, 3]⟩ 0 / 2 :=
  ⟨by decide, by decide,
    (countTriangles_halves ⟨3, [2, 3, 4], [1, 0, 2], [0, 2, 2, 3]⟩ (by decide) (by decide)
      (by decide)).2.1 0 (by decide)⟩

theorem pendStep_contrib (x : Nat) (e : Nat × Nat) (h1 : 1 ≤ e.1) (h2 : 1 ≤ e.2) :
    (if x = e.1 - 1 then [e.2 - 1] else [])
        ++ (if e.1 - 1 ≠ e.2 - 1 ∧ x = e.2 - 1 then [e.1 - 1] else [])
      = (pendingEntry x e).toList := by
  unfold pendingEntry
  by_cases ha : e.1 = x + 1
  · have hx : x = e.1 - 1 := by omega
    rw [if_pos hx, if_pos ha, if_neg (by omega)]
    rfl
  · have hx : ¬ x = e.1 - 1 := by omega
    rw [if_neg hx, if_neg ha]
    by_cases hb : e.2 = x + 1
    · rw [if_pos (by omega), if_pos hb]; rfl
    · rw [if_neg (by omega), if_neg hb]; rfl

theorem getD_foldl_pendStep (N : Nat) (edges : List (Nat × Nat)) (hin : InRange N edges)
    (pends : List (List Nat)) (hl : pends.length = N) (x : Nat) :
    (edges.foldl pendStep pends).getD x [] = pends.getD x [] ++ pendingOf edges x := by
  induction edges generalizing pends with
  | nil => simp [pendingOf]
  | cons e edges ih =>
    have he := hin e (List.mem_cons_self _ _)
    have hc := pendStep_contrib x e he.1 he.2.2.1
    rw [List.foldl_cons, ih (fun y hy => hin y (List.mem_cons_of_mem _ hy)) _
      (by rw [pendStep_length, hl]), getD_pendStep pends e x (by omega) (by omega)]
    simp only [List.append_assoc]
    congr 1
    rw [← List.append_assoc, hc]
    unfold pendingOf
    rw [List.filterMap_cons]
    cases pendingEntry x e <;> rfl

theorem getD_pendingLists (N : Nat) (edges : List (Nat × Nat)) (hin : InRange N edges)
    (x : Nat) : (pendingLists N edges).getD x [] = pendingOf edges x := by
  unfold pendingLists
  rw [getD_foldl_pendStep N edges hin _ (by simp)]
  have : (List.replicate N ([] : List Nat)).getD x [] = [] := by
    simp only [List.getD_eq_getElem?_getD, List.getElem?_replicate]
    split <;> rfl
  rw [this, List.nil_append]

theorem pendingLists_eq (N : Nat) (edges : List (Nat × Nat)) (hin : InRange N edges) :
    pendingLists N edges = (List.range N).map (pendingOf edges) := by
  have h := map_getD_range_self (pendingLists N edges)
  rw [pendingLists_length] at h
  rw [← h]
  apply List.map_congr_left
  intro x _
  exact getD_pendingLists N edges hin x

theorem buildFromEdges_arrays (N : Nat) (edges : List (Nat × Nat)) (hin : InRange N edges) :
    (buildFromEdges N edges).colIndex = (pendingLists N edges).flatten ∧
      (buildFromEdges N edges).values
        = List.replicate (pendingLists N edges).flatten.length 1 := by
  have hl := pendingLists_length N edges
  obtain ⟨-, -, -, lenC, cols⟩ := flattenLoop_inv (pendingLists N edges) N hl
  unfold buildFromEdges
  simp only
  rw [edgeLoop_eq N edges hin]
  simp only
  have hNtake : (pendingLists N edges).take N = pendingLists N edges :=
    List.take_of_length_le (by omega)
  rw [hNtake, List.take_of_length_le (le_of_eq lenC)] at cols
  exact ⟨cols, trivial⟩

/-- With `N + 1` row offsets in the builder (`buildFromEdges`): for every edge list
with endpoints in `1..N`, the `colIndex` array built is the concatenation, for the rows
`0..N-1` in order, of the pending lists of the rows, and `values` has the same length
and holds only `1`. -/
theorem built_colIndex (N : Nat) (edges : List (Nat × Nat)) (hin : InRange N edges) :
    (readmtx_dynamic 0 0 N N edges).colIndex = ((List.range N).map (pendingOf edges)).flatten ∧
      (readmtx_dynamic 0 0 N N edges).values.length
        = (readmtx_dynamic 0 0 N N edges).colIndex.length ∧
      ∀ v ∈ (readmtx_dynamic 0 0 N N edges).values, v = 1 := by
  rw [readmtx_dynamic_ok]
  obtain ⟨hc, hv⟩ := buildFromEdges_arrays N edges hin
  rw [hc, hv, pendingLists_eq N edges hin]
  refine ⟨rfl, by simp, ?_⟩
  intro v hv'
  exact (List.mem_replicate.mp hv').2

theorem built_colIndex_witness :
    InRange 3 [(1, 2), (3, 1), (2, 2), (1, 2)] ∧
      (readmtx_dynamic 0 0 3 3 [(1, 2), (3, 1), (2, 2), (1, 2)]).colIndex
        = [1, 2, 1, 0, 1, 0, 0] :=
  ⟨by decide, (built_colIndex 3 [(1, 2), (3, 1), (2, 2), (1, 2)] (by decide)).1⟩

theorem nodup_filterMap_of_pairwise {α β : Type} (f : α → Option β) (l : List α)
    (h : l.Pairwise (fun a a' => ∀ b, f a = some b → f a' ≠ some b)) :
    (l.filterMap f).Nodup := by
  induction l with
  | nil => simp
  | cons a l ih =>
    rw [List.pairwise_cons] at h
    rw [List.filterMap_cons]
    cases hf : f a with
    | none => exact ih h.2
    | some b =>
      simp only
      rw [List.nodup_cons]
      refine ⟨?_, ih h.2⟩
      intro hb
      rw [List.mem_filterMap] at hb
      obtain ⟨a', ha', hfa'⟩ := hb
      exact h.1 a' ha' b hf hfa'

theorem pendingOf_nodup (N : Nat) (edges : List (Nat × Nat)) (hin : InRange N edges)
    (hon : ListedOnce edges) (x : Nat) : (pendingOf edges x).Nodup := by
  apply nodup_filterMap_of_pairwise
  have hnd : edges.Pairwise (fun a b => a ≠ b) := hon.1
  refine List.Pairwise.imp_of_mem ?_ hnd
  intro a a' ha ha' hne b hfa hfa'
  have hra := hin a ha
  have hra' := hin a' ha'
  unfold pendingEntry at hfa hfa'
  by_cases h1 : a.1 = x + 1
  · rw [if_pos h1, Option.some.injEq] at hfa
    by_cases h1' : a'.1 = x + 1
    · rw [if_pos h1', Option.some.injEq] at hfa'
      exact hne (Prod.ext (by omega) (by omega))
    · rw [if_neg h1'] at hfa'
      by_cases h2' : a'.2 = x + 1
      · rw [if_pos h2', Option.some.injEq] at hfa'
        have hrev : (a.2, a.1) = a' := Prod.ext (by simp only; omega) (by simp only; omega)
        exact hon.2 a ha (by omega) (by rw [hrev]; exact ha')
      · rw [if_neg h2'] at hfa'; exact absurd hfa' (by simp)
  · rw [if_neg h1] at hfa
    by_cases h2 : a.2 = x + 1
    · rw [if_pos h2, Option.some.injEq] at hfa
      by_cases h1' : a'.1 = x + 1
      · rw [if_pos h1', Option.some.injEq] at hfa'
        have hrev : (a'.2, a'.1) = a := Prod.ext (by simp only; omega) (by simp only; omega)
        exact hon.2 a' ha' (by omega) (by rw [hrev]; exact ha)
      · rw [if_neg h1'] at hfa'
        by_cases h2' : a'.2 = x + 1
        · rw [if_pos h2', Option.some.injEq] at hfa'
          exact hne (Prod.ext (by omega) (by omega))
        · rw [if_neg h2'] at hfa'; exact absurd hfa' (by simp)
    · rw [if_neg h2] at hfa; exact absurd hfa (by simp)

/-- Claim C18 fails as stated: for the edge list `(1,2), (2,1)` on two vertices, row 0
of the built matrix stores column 1 twice, as the column list the edge loop collects
for row 0 does. -/
theorem built_duplicate_column :
    InRange 2 [(1, 2), (2, 1)] ∧
      (rowEntries (readmtx_dynamic 0 0 2 2 [(1, 2), (2, 1)]) 0).map Prod.fst = [1, 1] ∧
      ¬ ((rowEntries (readmtx_dynamic 0 0 2 2 [(1, 2), (2, 1)]) 0).map Prod.fst).Nodup ∧
      rowList ((([(1, 2), (2, 1)] : List (Nat × Nat)).foldl edgeStep
        (List.replicate 2 [0, 0], 0)).1.getD 0 []) = [1, 1] := by
  decide

/-- With `N + 1` row offsets in the builder (`buildFromEdges`): for every edge list
with endpoints in `1..N` that lists every edge once (no pair twice, no pair in both
directions), no row of the matrix built stores a column index twice. -/
theorem built_nodup (N : Nat) (edges : List (Nat × Nat)) (hin : InRange N edges)
    (hon : ListedOnce edges) (r : Nat) (hr : r < N) :
    ((rowEntries (readmtx_dynamic 0 0 N N edges) r).map Prod.fst).Nodup := by
  rw [readmtx_dynamic_ok, rowEntries_built N edges hin r hr, List.map_map,
    getD_pendingLists N edges hin r]
  have : (Prod.fst ∘ fun c : Nat => (c, (1 : Int))) = id := rfl
  rw [this, List.map_id]
  exact pendingOf_nodup N edges hin hon r

theorem built_nodup_witness :
    InRange 3 [(1, 2), (1, 3), (2, 3), (3, 3)] ∧ ListedOnce [(1, 2), (1, 3), (2, 3), (3, 3)] ∧
      ((rowEntries (readmtx_dynamic 0 0 3 3 [(1, 2), (1, 3), (2, 3), (3, 3)]) 2).map
        Prod.fst).Nodup :=
  ⟨by decide, by decide, built_nodup 3 _ (by decide) (by decide) 2 (by decide)⟩

theorem filterMap_ite_eq {α β : Type} (p : α → Prop) [DecidablePred p] (g : α → β)
    (l : List α) :
    l.filterMap (fun a => if p a then some (g a) else none)
      = (l.filter (fun a => decide (p a))).map g := by
  induction l with
  | nil => rfl
  | cons a l ih =>
    by_cases h : p a <;> simp [List.filterMap_cons, List.filter_cons, h, ih]

theorem filterMap_denseEmit (T : List (List Int)) (r : Nat) (l : List Nat) :
    l.filterMap (denseEmit T r)
      = (l.filter (fun j => (T.getD r []).getD j 0 ≠ 0)).map
          (fun j => (j, (T.getD r []).getD j 0)) :=
  filterMap_ite_eq (fun j => (T.getD r []).getD j 0 ≠ 0)
    (fun j => (j, (T.getD r []).getD j 0)) l

theorem denseRows_eq (T : List (List Int)) (size k : Nat) :
    denseRows T size k = (List.range k).map (nonzeroCells T size) := by
  unfold denseRows nonzeroCells
  apply List.map_congr_left
  intro r _
  exact filterMap_denseEmit T r _

theorem flatten_length_map {α β : Type} (f : α → List β) (l : List α) :
    (l.map f).flatten.length = (l.map (fun a => (f a).length)).sum := by
  induction l with
  | nil => rfl
  | cons a l ih => simp [ih]

theorem dense_represents_rows (X : csr) (T : List (List Int)) (size : Nat)
    (hX : Represents X (denseRows T size size)) :
    (∀ r < size, rowEntries X r = nonzeroCells T size r ∧
        ((rowEntries X r).map Prod.fst).Pairwise (fun a b => a < b)) ∧
      (∀ r ≤ size, X.rowIndex.getD r 0
        = ((List.range r).map (fun k => (nonzeroCells T size k).length)).sum) := by
  constructor
  · intro r hr
    have he : rowEntries X r = nonzeroCells T size r := by
      rw [hX.rowEntries_eq r (by rw [denseRows_length]; exact hr)]
      simp only [denseRows_eq, List.getElem_map, List.getElem_range]
    refine ⟨he, ?_⟩
    rw [he]
    unfold nonzeroCells
    rw [List.map_map]
    have : (Prod.fst ∘ fun j => (j, (T.getD r []).getD j 0)) = id := rfl
    rw [this, List.map_id]
    exact List.Pairwise.sublist (List.filter_sublist _) (List.pairwise_lt_range size)
  · intro r hr
    rw [hX.offs r (by rw [denseRows_length]; exact hr), denseRows_take T size size r hr,
      denseRows_eq, flatten_length_map]

/-- Claim C14: for `size >= 1` and a `size x size` integer table `T`, `matrixToCSR`
(of helpers.c and of pthreads.c) stores in row `r` exactly the nonzero cells of row
`r` of `T` with their values, by strictly increasing column, and sets `rowIndex[r]`,
for `r` in `0..size`, to the number of nonzero cells of the rows before `r`. -/
theorem matrixToCSR_rows (T : List (List Int)) (size : Nat) (hs : 1 ≤ size)
    (_hlen : T.length = size) (_hrows : ∀ row ∈ T, row.length = size) :
    ((∀ r < size, rowEntries (matrixToCSR T size) r = nonzeroCells T size r ∧
        ((rowEntries (matrixToCSR T size) r).map Prod.fst).Pairwise (fun a b => a < b)) ∧
      (∀ r ≤ size, (matrixToCSR T size).rowIndex.getD r 0
        = ((List.range r).map (fun k => (nonzeroCells T size k).length)).sum)) ∧
    ∀ junk,
      ((∀ r < size, rowEntries (legacyMatrixToCSR junk T size) r = nonzeroCells T size r ∧
        ((rowEntries (legacyMatrixToCSR junk T size) r).map Prod.fst).Pairwise
          (fun a b => a < b)) ∧
      (∀ r ≤ size, (legacyMatrixToCSR junk T size).rowIndex.getD r 0
        = ((List.range r).map (fun k => (nonzeroCells T size k).length)).sum)) :=
  ⟨dense_represents_rows _ T size (matrixToCSR_represents T size),
    fun junk => dense_represents_rows _ T size (legacyMatrixToCSR_represents junk T size hs)⟩

theorem matrixToCSR_rows_witness :
    1 ≤ 3 ∧ ([[0, 5, 0], [5, 0, -2], [0, -2, 7]] : List (List Int)).length = 3 ∧
      (∀ row ∈ ([[0, 5, 0], [5, 0, -2], [0, -2, 7]] : List (List Int)), row.length = 3) ∧
      rowEntries (matrixToCSR [[0, 5, 0], [5, 0, -2], [0, -2, 7]] 3) 1 = [(0, 5), (2, -2)] ∧
      (matrixToCSR [[0, 5, 0], [5, 0, -2], [0, -2, 7]] 3).rowIndex.getD 3 0 = 5 :=
  ⟨by decide, by decide, by decide,
    ((matrixToCSR_rows [[0, 5, 0], [5, 0, -2], [0, -2, 7]] 3 (by decide) (by decide)
      (by decide)).1.1 1 (by decide)).1,
    (matrixToCSR_rows [[0, 5, 0], [5, 0, -2], [0, -2, 7]] 3 (by decide) (by decide)
      (by decide)).1.2 3 (by decide)⟩

theorem readmtx_dynamic_run_result (banner result : Int) (M N : Nat)
    (edges : List (Nat × Nat)) :
    (readmtx_dynamic_run banner result M N edges).result
      = readmtx_dynamic banner result M N edges := by
  unfold readmtx_dynamic_run readmtx_dynamic
  split
  · rfl
  · split <;> rfl

/-- Claim C15: when the declared row count `M` and column count `N` differ,
`readmtx_dynamic` returns the error value (size 0, no arrays) whatever the edge data
is, and it has then allocated no row buffer and read no edge pair. -/
theorem readmtx_dynamic_mismatch (banner result : Int) (M N : Nat) (edges : List (Nat × Nat))
    (h : M ≠ N) :
    readmtx_dynamic banner result M N edges
        = { size := 0, values := [], colIndex := [], rowIndex := [] } ∧
      readmtx_dynamic_run banner result M N edges
        = { result := { size := 0, values := [], colIndex := [], rowIndex := [] }
            rowBuffers := 0, pairsRead := 0 } := by
  unfold readmtx_dynamic readmtx_dynamic_run
  rw [if_pos (Ne.symm h), if_pos (Ne.symm h)]
  exact ⟨rfl, rfl⟩

theorem readmtx_dynamic_mismatch_witness :
    (2 : Nat) ≠ 3 ∧
      readmtx_dynamic_run 0 0 2 3 [(1, 2), (3, 1)]
        = { result := { size := 0, values := [], colIndex := [], rowIndex := [] }
            rowBuffers := 0, pairsRead := 0 } :=
  ⟨by decide, (readmtx_dynamic_mismatch 0 0 2 3 [(1, 2), (3, 1)] (by decide)).2⟩

/-- Claim C16 fails as stated: for `size = 0` the dense converters return a value, the
empty CSR matrix and the empty table, and not an `InvalidDimension` error. -/
theorem converters_size_zero :
    matrixToCSR_outcome [] 0
        = Except.ok { size := 0, values := [], colIndex := [], rowIndex := [0] } ∧
      matrixToCSR_outcome [] 0 ≠ Except.error ConverterError.InvalidDimension ∧
      CSRtoMatrix_outcome { size := 0, values := [], colIndex := [], rowIndex := [0] } 0
        = Except.ok [] ∧
      CSRtoMatrix_outcome { size := 0, values := [], colIndex := [], rowIndex := [0] } 0
        ≠ Except.error ConverterError.InvalidDimension := by
  refine ⟨rfl, ?_, rfl, ?_⟩
  · intro h; cases h
  · intro h; cases h

theorem writeRow_length (buf : List Int) (entries : List (Nat × Int)) :
    (writeRow buf entries).length = buf.length := by
  unfold writeRow
  induction entries generalizing buf with
  | nil => rfl
  | cons e entries ih => rw [List.foldl_cons, ih, List.length_set]

/-- Claim C16, amended: the dense converters have no dimension check and no error
path.  For every `size`, `matrixToCSR` returns a CSR value of that size and
`CSRtoMatrix` returns a table of `size` rows of `size` cells; for `size = 0` these are
the empty CSR value (no stored entry, `rowIndex = [0]`) and the empty table. -/
theorem converters_total (table : List (List Int)) (X : csr) (size : Nat) :
    (∃ A, matrixToCSR_outcome table size = Except.ok A ∧ A.size = size ∧
        A.rowIndex.length = size + 1) ∧
      (∃ m, CSRtoMatrix_outcome X size = Except.ok m ∧ m.length = size ∧
        ∀ row ∈ m, row.length = size) ∧
      matrixToCSR table 0 = { size := 0, values := [], colIndex := [], rowIndex := [0] } ∧
      CSRtoMatrix X 0 = [] := by
  refine ⟨⟨matrixToCSR table size, rfl, rfl, ?_⟩, ⟨CSRtoMatrix X size, rfl, ?_, ?_⟩, rfl, rfl⟩
  · have h := (matrixToCSR_represents table size).lenR
    rw [denseRows_length] at h
    exact h
  · rw [CSRtoMatrix_eq]; simp
  · intro row hrow
    rw [CSRtoMatrix_eq, List.mem_map] at hrow
    obtain ⟨r, _, rfl⟩ := hrow
    rw [writeRow_length]; simp

theorem dot_innerProduct_of_wf (A : csr) (hA : WF A) (i j : Nat) (hi : i < A.size) :
    dot A i j = toInt32 (innerProduct A i j) := by
  rw [dot_eq_range_sum A hA i j hi, innerProduct_eq_range_sum]

/-- Claim C17, evaluated on a matrix with duplicate-free rows of which row 0, with the
columns `1, 0`, is not in non-decreasing order: `dot` of rows 0 and 1 is `2`, the inner
product of the two rows, and not less.  No position of row 1 is skipped: `lastMatch`
keeps its first value, so every scan of row 1 starts at the first position of the
row. -/
theorem dot_unsorted_full :
    WF ⟨2, [1, 1, 1, 1], [1, 0, 0, 1], [0, 2, 4]⟩ ∧
      ¬ RowsSorted ⟨2, [1, 1, 1, 1], [1, 0, 0, 1], [0, 2, 4]⟩ ∧
      dot ⟨2, [1, 1, 1, 1], [1, 0, 0, 1], [0, 2, 4]⟩ 0 1 = 2 ∧
      innerProduct ⟨2, [1, 1, 1, 1], [1, 0, 0, 1], [0, 2, 4]⟩ 0 1 = 2 ∧
      ¬ dot ⟨2, [1, 1, 1, 1], [1, 0, 0, 1], [0, 2, 4]⟩ 0 1
        < innerProduct ⟨2, [1, 1, 1, 1], [1, 0, 0, 1], [0, 2, 4]⟩ 0 1 := by
  decide

/-- Claim C19, evaluated on the matrix built for the complete graph on three vertices
(all column indices below 3): `csrSquare` stores the column indices `0..5`, of which
`3`, `4` and `5` are not below the size. -/
theorem csrSquare_column_out_of_range :
    WF (readmtx_dynamic 0 0 3 3 [(1, 2), (1, 3), (2, 3)]) ∧
      (csrSquare (readmtx_dynamic 0 0 3 3 [(1, 2), (1, 3), (2, 3)]) 3).colIndex
        = [0, 1, 2, 3, 4, 5] ∧
      (3, 1) ∈ rowEntries (csrSquare (readmtx_dynamic 0 0 3 3 [(1, 2), (1, 3), (2, 3)]) 3) 1 ∧
      ¬ ∀ c ∈ (csrSquare (readmtx_dynamic 0 0 3 3 [(1, 2), (1, 3), (2, 3)]) 3).colIndex,
        c < 3 := by
  decide

theorem newhadamard_col_lt (A S : csr) (hA : WF A) (i : Nat) (hi : i < A.size) :
    ∀ c ∈ (rowEntries (newhadamard A S A.size) i).map Prod.fst, c < A.size := by
  intro c hc
  rw [rowEntries_newhadamard A S hA.offsets_mono hA.values_le i hi, List.mem_map] at hc
  obtain ⟨e, he, rfl⟩ := hc
  rw [List.mem_filterMap] at he
  obtain ⟨j, hj, hje⟩ := he
  rw [maskEmit_fst A S i j e hje]
  apply hA.col_lt i hi
  unfold rowEntries
  rw [List.map_map]
  exact List.mem_map.mpr ⟨j, hj, rfl⟩

theorem csrSquare_lengths (A : csr) (size : Nat) :
    (csrSquare A size).values.length = (squareRows A size).flatten.length ∧
      (csrSquare A size).colIndex.length = (squareRows A size).flatten.length := by
  rcases Nat.eq_zero_or_pos size with hs | hs
  · subst hs
    simp [csrSquare, csrSquareLoop, squareRows, realloc]
  · obtain ⟨inv, -, -, -⟩ := csrSquareLoop_inv A size hs
    simp only [csrSquare, realloc_length]
    exact ⟨inv.cnt, inv.cnt⟩

theorem newhadamard_lengths (A S : csr) (size : Nat) (hmono : MonoOffsets A size)
    (hval : A.rowIndex.getD size 0 ≤ A.values.length) :
    (newhadamard A S size).values.length = (maskRows A S size).flatten.length ∧
      (newhadamard A S size).colIndex.length = (maskRows A S size).flatten.length := by
  rcases Nat.eq_zero_or_pos size with hs | hs
  · subst hs
    simp [newhadamard, newhadamardLoop, maskRows, realloc]
  · obtain ⟨inv, -, -, -, -⟩ := newhadamardLoop_inv A S size hs hmono hval
    simp only [newhadamard, realloc_length]
    exact ⟨inv.cnt, inv.cnt⟩

theorem Represents.offsets_ok {X : csr} {rows : List (List (Nat × Int))}
    (h : Represents X rows) :
    X.rowIndex.length = X.size + 1 ∧ X.rowIndex.getD 0 0 = 0 ∧ MonoOffsets X X.size ∧
      X.rowIndex.getD X.size 0 = rows.flatten.length := by
  refine ⟨by rw [h.lenR, h.size_eq], ?_, h.mono, ?_⟩
  · rw [h.offs 0 (Nat.zero_le _)]; rfl
  · rw [h.offs X.size (by rw [h.size_eq]), h.size_eq, List.take_length]

theorem rowEntries_length (A : csr) (r : Nat) :
    (rowEntries A r).length = (rowPositions A r).length := by
  simp [rowEntries]

/-- Claim C20: for CSR matrices `A` and `S` of the same size with valid row offsets,
the `rowIndex` of `csrSquare A` and of `newhadamard A S` has `size + 1` entries, starts
at `0`, never decreases, and ends with the number of entries of `values` and of
`colIndex`; no row of a result has more entries than the same row of `A`. -/
theorem results_offsets_ok (A S : csr) (hA : ValidOffsets A) (_hS : ValidOffsets S)
    (_hsize : S.size = A.size) :
    ((csrSquare A A.size).rowIndex.length = A.size + 1 ∧
      (csrSquare A A.size).rowIndex.getD 0 0 = 0 ∧
      MonoOffsets (csrSquare A A.size) A.size ∧
      (csrSquare A A.size).rowIndex.getD A.size 0 = (csrSquare A A.size).values.length ∧
      (csrSquare A A.size).rowIndex.getD A.size 0 = (csrSquare A A.size).colIndex.length ∧
      ∀ r < A.size, (rowEntries (csrSquare A A.size) r).length ≤ (rowEntries A r).length) ∧
    ((newhadamard A S A.size).rowIndex.length = A.size + 1 ∧
      (newhadamard A S A.size).rowIndex.getD 0 0 = 0 ∧
      MonoOffsets (newhadamard A S A.size) A.size ∧
      (newhadamard A S A.size).rowIndex.getD A.size 0
        = (newhadamard A S A.size).values.length ∧
      (newhadamard A S A.size).rowIndex.getD A.size 0
        = (newhadamard A S A.size).colIndex.length ∧
      ∀ r < A.size,
        (rowEntries (newhadamard A S A.size) r).length ≤ (rowEntries A r).length) := by
  have hmono : MonoOffsets A A.size := hA.2.2.1
  have hval : A.rowIndex.getD A.size 0 ≤ A.values.length := le_of_eq hA.2.2.2.1.symm
  constructor
  · obtain ⟨h1, h2, h3, h4⟩ := (csrSquare_represents A A.size).offsets_ok
    obtain ⟨l1, l2⟩ := csrSquare_lengths A A.size
    refine ⟨h1, h2, h3, ?_, ?_, ?_⟩
    · rw [l1]; exact h4
    · rw [l2]; exact h4
    · intro r hr
      rw [rowEntries_csrSquare A A.size r hr, rowEntries_length]
      exact filterMap_length_le _ _
  · obtain ⟨h1, h2, h3, h4⟩ := (newhadamard_represents A S A.size hmono hval).offsets_ok
    obtain ⟨l1, l2⟩ := newhadamard_lengths A S A.size hmono hval
    refine ⟨h1, h2, h3, ?_, ?_, ?_⟩
    · rw [l1]; exact h4
    · rw [l2]; exact h4
    · intro r hr
      rw [rowEntries_newhadamard A S hmono hval r hr, rowEntries_length]
      exact filterMap_length_le _ _

theorem results_offsets_ok_witness :
    ValidOffsets ⟨3, [1, 1, 1, 1, 1, 1], [1, 2, 0, 2, 0, 1], [0, 2, 4, 6]⟩ ∧
      ValidOffsets ⟨3, [2, 3], [2, 0], [0, 1, 1, 2]⟩ ∧
      (newhadamard ⟨3, [1, 1, 1, 1, 1, 1], [1, 2, 0, 2, 0, 1], [0, 2, 4, 6]⟩
          ⟨3, [2, 3], [2, 0], [0, 1, 1, 2]⟩ 3).rowIndex.getD 3 0
        = (newhadamard ⟨3, [1, 1, 1, 1, 1, 1], [1, 2, 0, 2, 0, 1], [0, 2, 4, 6]⟩
          ⟨3, [2, 3], [2, 0], [0, 1, 1, 2]⟩ 3).values.length :=
  ⟨by decide, by decide,
    (results_offsets_ok ⟨3, [1, 1, 1, 1, 1, 1], [1, 2, 0, 2, 0, 1], [0, 2, 4, 6]⟩
      ⟨3, [2, 3], [2, 0], [0, 1, 1, 2]⟩ (by decide) (by decide) rfl).2.2.2.2.1⟩

theorem newhadamardCell_tableValues (A S : csr) (i j : Nat) (st : HadamardState) :
    (newhadamardCell A S i st j).tableValues
      = match maskEmit A S i j with
        | some e => st.tableValues.set j e.2
        | none => st.tableValues := by
  cases hf : (List.range' (S.rowIndex.getD i 0) (S.rowIndex.getD (i + 1) 0 - S.rowIndex.getD i 0)).find?
      (fun k => A.colIndex.getD j 0 == S.colIndex.getD k 0) with
  | none =>
    have e1 : newhadamardCell A S i st j = st := by simp only [newhadamardCell, hf]
    have e2 : maskEmit A S i j = none := by simp only [maskEmit, rowPositions, hf]
    rw [e1, e2]
  | some k =>
    have e2 : maskEmit A S i j = some (A.colIndex.getD j 0, S.values.getD k 0) := by
      simp only [maskEmit, rowPositions, hf]
    rw [e2]
    simp only [newhadamardCell, hf]

theorem newhadamardCells_tableValues (A S : csr) (i : Nat) (ps : List Nat) (st : HadamardState) :
    (ps.foldl (newhadamardCell A S i) st).tableValues = writeBack A S i st.tableValues ps := by
  induction ps generalizing st with
  | nil => rfl
  | cons p ps ih =>
    rw [List.foldl_cons, ih, newhadamardCell_tableValues]
    rfl

theorem newhadamardRow_tableValues (A S : csr) (size i : Nat) (st : HadamardState) :
    (newhadamardRow A S size st i).tableValues
      = writeBack A S i st.tableValues (rowPositions A i) := by
  unfold newhadamardRow
  simp only
  split
  · exact newhadamardCells_tableValues A S i _ _
  · exact newhadamardCells_tableValues A S i _ _

theorem writeBack_length (A S : csr) (i : Nat) (tv : List Int) (ps : List Nat) :
    (writeBack A S i tv ps).length = tv.length := by
  unfold writeBack
  induction ps generalizing tv with
  | nil => rfl
  | cons p ps ih =>
    rw [List.foldl_cons, ih]
    cases maskEmit A S i p <;> simp

theorem writeBack_getD_of_not_mem (A S : csr) (i : Nat) (tv : List Int) (ps : List Nat)
    (q : Nat) (hq : q ∉ ps) : (writeBack A S i tv ps).getD q 0 = tv.getD q 0 := by
  unfold writeBack
  induction ps generalizing tv with
  | nil => rfl
  | cons p ps ih =>
    rw [List.mem_cons, not_or] at hq
    rw [List.foldl_cons, ih _ hq.2]
    cases maskEmit A S i p with
    | none => rfl
    | some e => exact getD_set_ne _ _ _ _ _ (Ne.symm hq.1)

theorem writeBack_getD_of_mem (A S : csr) (i : Nat) (tv : List Int) (ps : List Nat)
    (hnd : ps.Nodup) (q : Nat) (hq : q ∈ ps) (hlt : q < tv.length) :
    (writeBack A S i tv ps).getD q 0
      = match maskEmit A S i q with
        | some e => e.2
        | none => tv.getD q 0 := by
  induction ps generalizing tv with
  | nil => simp at hq
  | cons p ps ih =>
    rw [List.nodup_cons] at hnd
    have hstep : writeBack A S i tv (p :: ps)
        = writeBack A S i (match maskEmit A S i p with
            | some e => tv.set p e.2
            | none => tv) ps := rfl
    rw [hstep]
    by_cases hqp : q = p
    · subst hqp
      rw [writeBack_getD_of_not_mem _ _ _ _ _ _ hnd.1]
      cases maskEmit A S i q with
      | none => rfl
      | some e => exact getD_set_eq _ _ _ _ hlt
    · have hq' : q ∈ ps := by
        rcases List.mem_cons.mp hq with h | h
        · exact absurd h hqp
        · exact h
      rw [ih _ hnd.2 hq' (by cases maskEmit A S i p <;> simpa using hlt)]
      cases maskEmit A S i q with
      | some e => rfl
      | none =>
        simp only
        cases maskEmit A S i p with
        | none => rfl
        | some e => exact getD_set_ne _ _ _ _ _ (Ne.symm hqp)

theorem rowPositions_nodup (A : csr) (r : Nat) : (rowPositions A r).Nodup :=
  List.nodup_range' _ _

theorem rowPositions_disjoint (A : csr) (size : Nat) (hmono : MonoOffsets A size) (i k : Nat)
    (hik : i < k) (hk : k < size) (q : Nat) (hq : q ∈ rowPositions A i) :
    q ∉ rowPositions A k := by
  intro hq'
  have h1 := mem_rowPositions hq
  have h2 := mem_rowPositions hq'
  have := hmono.le (i + 1) k (by omega) (by omega)
  omega

theorem frame_step (A S : csr) (size k : Nat) (hk : k < size) (hmono : MonoOffsets A size)
    (hval : A.rowIndex.getD size 0 ≤ A.values.length) (tv : List Int)
    (h : FrameInv A S k tv) :
    FrameInv A S (k + 1) (writeBack A S k tv (rowPositions A k)) := by
  obtain ⟨len, done, rest⟩ := h
  refine ⟨by rw [writeBack_length, len], ?_, ?_⟩
  · intro i hi q hq
    by_cases hik : i = k
    · subst hik
      have hq1 := mem_rowPositions hq
      have hle := hmono.le (i + 1) size (by omega) le_rfl
      rw [writeBack_getD_of_mem A S i tv _ (rowPositions_nodup A i) q hq (by omega)]
      unfold maskedValue
      cases maskEmit A S i q with
      | some e => rfl
      | none =>
        simp only
        apply rest
        intro i' hi' hq'
        exact rowPositions_disjoint A size hmono i' i hi' hk q hq' hq
    · have hik' : i < k := by omega
      rw [writeBack_getD_of_not_mem _ _ _ _ _ _
        (rowPositions_disjoint A size hmono i k hik' hk q hq)]
      exact done i hik' q hq
  · intro q hq
    rw [writeBack_getD_of_not_mem _ _ _ _ _ _ (hq k (by omega))]
    exact rest q (fun i hi => hq i (by omega))

theorem newhadamardLoop_tableValues (A S : csr) (size : Nat) (hmono : MonoOffsets A size)
    (hval : A.rowIndex.getD size 0 ≤ A.values.length) :
    FrameInv A S size (newhadamardLoop A S size).tableValues := by
  have key : ∀ k, k ≤ size → FrameInv A S k
      ((List.range k).foldl (newhadamardRow A S size)
        { tableValues := A.values
          newValues := List.replicate (A.rowIndex.getD size 0) 0
          newColIndex := List.replicate (A.rowIndex.getD size 0) 0
          newNonzeros := 0
          newRowIndex := List.replicate (size + 1) 0 }).tableValues := by
    intro k
    induction k with
    | zero =>
      intro _
      exact ⟨rfl, fun i hi => absurd hi (by omega), fun q _ => rfl⟩
    | succ k ih =>
      intro hk
      rw [List.range_succ, List.foldl_append]
      simp only [List.foldl_cons, List.foldl_nil]
      rw [newhadamardRow_tableValues]
      exact frame_step A S size k (by omega) hmono hval _ (ih (by omega))
  exact key size le_rfl

theorem maskEmit_eq (A S : csr) (i j : Nat) :
    maskEmit A S i j
      = if storedIn S i (A.colIndex.getD j 0) = true then
          some (A.colIndex.getD j 0, valueAt S i (A.colIndex.getD j 0))
        else none := by
  unfold maskEmit valueAt lookup storedIn rowEntries
  rw [List.find?_map, List.map_map]
  cases hf : (rowPositions S i).find?
      (fun k => A.colIndex.getD j 0 == S.colIndex.getD k 0) with
  | none =>
    have hno : A.colIndex.getD j 0 ∉ (rowPositions S i).map
        (Prod.fst ∘ fun p => (S.colIndex.getD p 0, S.values.getD p 0)) := by
      intro hm
      rw [List.mem_map] at hm
      obtain ⟨k, hk, hke⟩ := hm
      rw [List.find?_eq_none] at hf
      exact hf k hk (by simp only [Function.comp] at hke; rw [beq_iff_eq, hke])
    rw [if_neg (by simpa using hno)]
  | some k =>
    have hkm := List.mem_of_find?_eq_some hf
    have hkp := List.find?_some hf
    simp only [beq_iff_eq] at hkp
    have hyes : A.colIndex.getD j 0 ∈ (rowPositions S i).map
        (Prod.fst ∘ fun p => (S.colIndex.getD p 0, S.values.getD p 0)) :=
      List.mem_map.mpr ⟨k, hkm, by simp only [Function.comp]; exact hkp.symm⟩
    rw [if_pos (by simpa using hyes)]
    have : List.find? ((fun e : Nat × Int => A.colIndex.getD j 0 == e.1) ∘
        fun p => (S.colIndex.getD p 0, S.values.getD p 0)) (rowPositions S i) = some k := hf
    rw [this]
    rfl

/-- Claim C21: `newhadamard A S` leaves the size, `colIndex` and `rowIndex` of `A` and
all of `S` as they were.  In `A.values`, a position `j` of a row `i` whose column is
stored in row `i` of `S` receives the value of the first entry of `S` with that
column; every other position keeps its value. -/
theorem newhadamard_frame (A S : csr) (hA : ValidOffsets A) :
    (newhadamardRun A S A.size).square = S ∧
      (newhadamardRun A S A.size).hadamard = newhadamard A S A.size ∧
      (newhadamardRun A S A.size).csrTable.size = A.size ∧
      (newhadamardRun A S A.size).csrTable.colIndex = A.colIndex ∧
      (newhadamardRun A S A.size).csrTable.rowIndex = A.rowIndex ∧
      (newhadamardRun A S A.size).csrTable.values.length = A.values.length ∧
      (∀ i < A.size, ∀ j ∈ rowPositions A i,
        (newhadamardRun A S A.size).csrTable.values.getD j 0
          = if storedIn S i (A.colIndex.getD j 0) = true then
              valueAt S i (A.colIndex.getD j 0)
            else A.values.getD j 0) ∧
      (∀ j, (∀ i < A.size, j ∉ rowPositions A i) →
        (newhadamardRun A S A.size).csrTable.values.getD j 0 = A.values.getD j 0) := by
  obtain ⟨len, done, rest⟩ := newhadamardLoop_tableValues A S A.size hA.2.2.1
    (le_of_eq hA.2.2.2.1.symm)
  refine ⟨rfl, rfl, rfl, rfl, rfl, len, ?_, rest⟩
  intro i hi j hj
  have h := done i hi j hj
  unfold maskedValue at h
  rw [maskEmit_eq] at h
  show (newhadamardLoop A S A.size).tableValues.getD j 0 = _
  by_cases hs : storedIn S i (A.colIndex.getD j 0) = true
  · rw [if_pos hs] at h
    rw [if_pos hs]; exact h
  · rw [if_neg hs] at h
    rw [if_neg hs]; exact h

theorem newhadamard_frame_witness :
    ValidOffsets ⟨2, [5, 7, 5], [0, 1, 0], [0, 2, 3]⟩ ∧
      (newhadamardRun ⟨2, [5, 7, 5], [0, 1, 0], [0, 2, 3]⟩ ⟨2, [3, 4], [1, 0], [0, 1, 2]⟩
          2).csrTable.values = [5, 3, 4] ∧
      (newhadamardRun ⟨2, [5, 7, 5], [0, 1, 0], [0, 2, 3]⟩ ⟨2, [3, 4], [1, 0], [0, 1, 2]⟩
          2).square = ⟨2, [3, 4], [1, 0], [0, 1, 2]⟩ :=
  ⟨by decide, by decide,
    (newhadamard_frame ⟨2, [5, 7, 5], [0, 1, 0], [0, 2, 3]⟩ ⟨2, [3, 4], [1, 0], [0, 1, 2]⟩
      (by decide)).1⟩

theorem csrSquareCellLog_fst (table : csr) (size row column : Nat)
    (s : SquareState × List (Nat × Nat)) :
    (csrSquareCellLog table size row s column).1 = csrSquareCell table size row s.1 column := by
  unfold csrSquareCellLog csrSquareCell
  simp only
  split <;> rfl

theorem csrSquareCellsLog_fst (table : csr) (size row : Nat) (ps : List Nat)
    (s : SquareState × List (Nat × Nat)) :
    (ps.foldl (csrSquareCellLog table size row) s).1
      = ps.foldl (csrSquareCell table size row) s.1 := by
  induction ps generalizing s with
  | nil => rfl
  | cons p ps ih => rw [List.foldl_cons, List.foldl_cons, ih, csrSquareCellLog_fst]

theorem csrSquareRowLog_fst (table : csr) (size row : Nat)
    (s : SquareState × List (Nat × Nat)) :
    (csrSquareRowLog table size s row).1 = csrSquareRow table size s.1 row := by
  unfold csrSquareRowLog csrSquareRow
  simp only
  split
  · rw [csrSquareCellsLog_fst]
  · rw [csrSquareCellsLog_fst]

theorem csrSquareLog_fst (table : csr) (size : Nat) :
    (csrSquareLog table size).1 = csrSquareLoop table size := by
  unfold csrSquareLog csrSquareLoop
  have key : ∀ (rows : List Nat) (s : SquareState × List (Nat × Nat)),
      (rows.foldl (csrSquareRowLog table size) s).1
        = rows.foldl (csrSquareRow table size) s.1 := by
    intro rows
    induction rows with
    | nil => intro s; rfl
    | cons r rows ih => intro s; rw [List.foldl_cons, List.foldl_cons, ih, csrSquareRowLog_fst]
  exact key _ _

theorem csrSquareCellLog_inv (table : csr) (size row column : Nat) (hs : 0 < size)
    (s : SquareState × List (Nat × Nat)) (h : LogInv size s) :
    LogInv size (csrSquareCellLog table size row s column) := by
  obtain ⟨cap, below, index⟩ := h
  unfold csrSquareCellLog
  by_cases hg : s.1.newNonzeros = s.1.resizes * size - 1
  · by_cases hd : dot table row (table.colIndex.getD column 0) > 0
    · simp only [hg, hd, if_true]
      refine ⟨?_, ?_, ?_⟩
      · simp only; nlinarith
      · intro w hw
        rw [List.mem_append, List.mem_singleton] at hw
        rcases hw with hw | hw
        · exact below w hw
        · rw [hw]; simp only; nlinarith
      · simp only [List.map_append, List.map_cons, List.map_nil, index, List.range_succ, hg]
    · simp only [hg, hd, if_true, if_false]
      exact ⟨by simp only; nlinarith, below, by simpa [hg] using index⟩
  · by_cases hd : dot table row (table.colIndex.getD column 0) > 0
    · simp only [hg, hd, if_true, if_false]
      refine ⟨?_, ?_, ?_⟩
      · simp only; omega
      · intro w hw
        rw [List.mem_append, List.mem_singleton] at hw
        rcases hw with hw | hw
        · exact below w hw
        · rw [hw]; simp only; omega
      · simp only [List.map_append, List.map_cons, List.map_nil, index, List.range_succ]
    · simp only [hg, hd, if_false]
      exact ⟨cap, below, index⟩

theorem csrSquareCellsLog_inv (table : csr) (size row : Nat) (hs : 0 < size) (ps : List Nat)
    (s : SquareState × List (Nat × Nat)) (h : LogInv size s) :
    LogInv size (ps.foldl (csrSquareCellLog table size row) s) := by
  induction ps generalizing s with
  | nil => exact h
  | cons p ps ih =>
    rw [List.foldl_cons]
    exact ih _ (csrSquareCellLog_inv table size row p hs s h)

theorem csrSquareRowLog_inv (table : csr) (size row : Nat) (hs : 0 < size)
    (s : SquareState × List (Nat × Nat)) (h : LogInv size s) :
    LogInv size (csrSquareRowLog table size s row) := by
  have h0 : LogInv size
      (({ s.1 with newRowIndex := s.1.newRowIndex.set row s.1.newNonzeros }, s.2) :
        SquareState × List (Nat × Nat)) := ⟨h.cap, h.below, h.index⟩
  have h1 := csrSquareCellsLog_inv table size row hs
    (List.range' (table.rowIndex.getD row 0)
      (table.rowIndex.getD (row + 1) 0 - table.rowIndex.getD row 0)) _ h0
  unfold csrSquareRowLog
  simp only
  split
  · exact ⟨h1.cap, h1.below, h1.index⟩
  · exact h1

theorem csrSquareLog_inv (table : csr) (size : Nat) (hs : 0 < size) :
    LogInv size (csrSquareLog table size) := by
  unfold csrSquareLog
  have key : ∀ (rows : List Nat) (s : SquareState × List (Nat × Nat)), LogInv size s →
      LogInv size (rows.foldl (csrSquareRowLog table size) s) := by
    intro rows
    induction rows with
    | nil => intro s h; exact h
    | cons r rows ih =>
      intro s h
      rw [List.foldl_cons]
      exact ih _ (csrSquareRowLog_inv table size r hs s h)
  apply key
  exact ⟨by simp only; omega, by simp, by simp⟩

/-- Claim C24: for `size >= 1`, every write of a result entry in `csrSquare` goes to an
index `newNonzeros` strictly below the capacity `resizes * size` the buffers have at
that moment; the logged run is the run of `csrSquare`, and its writes go to the
indices `0, 1, ..., newNonzeros - 1` in turn. -/
theorem csrSquare_growth_in_time (A : csr) (_hA : ValidOffsets A) (hs : 1 ≤ A.size) :
    (∀ w ∈ (csrSquareLog A A.size).2, w.1 < w.2) ∧
      (csrSquareLog A A.size).1 = csrSquareLoop A A.size ∧
      (csrSquareLog A A.size).2.map Prod.fst
        = List.range (csrSquareLoop A A.size).newNonzeros ∧
      (csrSquareLoop A A.size).newNonzeros < (csrSquareLoop A A.size).newValues.length := by
  obtain ⟨cap, below, index⟩ := csrSquareLog_inv A A.size (by omega)
  obtain ⟨inv, -, -, -⟩ := csrSquareLoop_inv A A.size (by omega)
  rw [csrSquareLog_fst] at index
  refine ⟨below, csrSquareLog_fst A A.size, index, ?_⟩
  have := inv.lenV
  have := inv.cap
  omega

theorem csrSquare_growth_in_time_witness :
    ValidOffsets ⟨1, [1, 1, 1, 1, 1, 1], [0, 0, 0, 0, 0, 0], [0, 6]⟩ ∧ 1 ≤ 1 ∧
      (csrSquareLog ⟨1, [1, 1, 1, 1, 1, 1], [0, 0, 0, 0, 0, 0], [0, 6]⟩ 1).2
        = [(0, 5), (1, 5), (2, 5), (3, 5), (4, 10), (5, 10)] ∧
      ∀ w ∈ (csrSquareLog ⟨1, [1, 1, 1, 1, 1, 1], [0, 0, 0, 0, 0, 0], [0, 6]⟩ 1).2, w.1 < w.2 :=
  ⟨by decide, by decide, by decide,
    (csrSquare_growth_in_time ⟨1, [1, 1, 1, 1, 1, 1], [0, 0, 0, 0, 0, 0], [0, 6]⟩ (by decide)
      (by decide)).1⟩

theorem flattenCell_length (valuesByRow : List (List Nat)) (row column : Nat)
    (st : List Nat × List Nat) :
    (flattenCell valuesByRow row st column).1.length = st.1.length := by
  simp [flattenCell]

theorem flattenRow_length (valuesByRow : List (List Nat)) (N row : Nat)
    (st : List Nat × List Nat) :
    (flattenRow valuesByRow N st row).1.length = st.1.length := by
  have key : ∀ (cs : List Nat) (s : List Nat × List Nat),
      (cs.foldl (flattenCell valuesByRow row) s).1.length = s.1.length := by
    intro cs
    induction cs with
    | nil => intro s; rfl
    | cons c cs ih => intro s; rw [List.foldl_cons, ih, flattenCell_length]
  unfold flattenRow
  simp only
  split
  · simp only [List.length_set]; exact key _ _
  · exact key _ _

theorem buildFromEdgesSlots_rowIndex_length (slots N : Nat) (edges : List (Nat × Nat)) :
    (buildFromEdgesSlots slots N edges).rowIndex.length = slots := by
  have key : ∀ (rows : List Nat) (vbr : List (List Nat)) (s : List Nat × List Nat),
      (rows.foldl (flattenRow vbr N) s).1.length = s.1.length := by
    intro rows vbr
    induction rows with
    | nil => intro s; rfl
    | cons r rows ih => intro s; rw [List.foldl_cons, ih, flattenRow_length]
  unfold buildFromEdgesSlots
  simp only
  rw [key]
  simp

/-- Claim C23, evaluated: with the `N` slots line 74 requests, `rowIndex` has `N`
entries for every `N` and every edge list, not `N + 1`.  For `N = 2` and the edge
`(1,2)` the array is `[0, 1]`, and the slot `rowIndex[2]` the loop assigns lies behind
it; with three slots the same loop gives `[0, 1, 2]`. -/
theorem built_rowIndex_slots :
    (∀ (N : Nat) (edges : List (Nat × Nat)),
        (buildFromEdgesSlots N N edges).rowIndex.length = N) ∧
      (buildFromEdgesSlots 2 2 [(1, 2)]).rowIndex = [0, 1] ∧
      (buildFromEdgesSlots 3 2 [(1, 2)]).rowIndex = [0, 1, 2] ∧
      buildFromEdgesSlots 3 2 [(1, 2)] = readmtx_dynamic 0 0 2 2 [(1, 2)] :=
  ⟨fun N edges => buildFromEdgesSlots_rowIndex_length N N edges, by decide, by decide,
    by decide⟩

theorem pendStep_flatten_length (pends : List (List Nat)) (e : Nat × Nat)
    (h1 : e.1 - 1 < pends.length) (h2 : e.2 - 1 < pends.length) :
    (pendStep pends e).flatten.length
      = pends.flatten.length + (if e.1 - 1 ≠ e.2 - 1 then 2 else 1) := by
  unfold pendStep
  simp only
  by_cases hne : e.1 - 1 ≠ e.2 - 1
  · rw [if_pos hne, if_pos hne, flatten_set_length _ _ _ (by simpa using h2),
      flatten_set_length _ _ _ h1]
  · rw [if_neg hne, if_neg hne, flatten_set_length _ _ _ h1]

theorem foldl_pendStep_flatten_length (N : Nat) (edges : List (Nat × Nat))
    (hin : InRange N edges) (pends : List (List Nat)) (hl : pends.length = N) :
    (edges.foldl pendStep pends).flatten.length
      = pends.flatten.length + 2 * (edges.filter (fun e => e.1 ≠ e.2)).length
          + (edges.filter (fun e => e.1 = e.2)).length := by
  induction edges generalizing pends with
  | nil => simp
  | cons e edges ih =>
    have he := hin e (List.mem_cons_self _ _)
    rw [List.foldl_cons, ih (fun y hy => hin y (List.mem_cons_of_mem _ hy)) _
      (by rw [pendStep_length, hl]), pendStep_flatten_length pends e (by omega) (by omega)]
    by_cases hne : e.1 = e.2
    · have h' : ¬ e.1 - 1 ≠ e.2 - 1 := by omega
      rw [if_neg h']
      simp only [List.filter_cons, hne, ne_eq, not_true_eq_false, decide_False, decide_True,
        Bool.false_eq_true, if_false, if_true, List.length_cons]
      omega
    · have h' : e.1 - 1 ≠ e.2 - 1 := by omega
      rw [if_pos h']
      simp only [List.filter_cons, hne, ne_eq, not_false_eq_true, decide_False, decide_True,
        Bool.false_eq_true, if_false, if_true, List.length_cons]
      omega

theorem built_rowIndex_ideal (N : Nat) (edges : List (Nat × Nat)) (hin : InRange N edges) :
    (buildFromEdges N edges).rowIndex.length = N + 1 ∧
      (buildFromEdges N edges).rowIndex.getD 0 0 = 0 ∧
      (∀ r < N, (buildFromEdges N edges).rowIndex.getD (r + 1) 0
          - (buildFromEdges N edges).rowIndex.getD r 0 = (pendingOf edges r).length) ∧
      (buildFromEdges N edges).rowIndex.getD N 0
        = 2 * (edges.filter (fun e => e.1 ≠ e.2)).length
          + (edges.filter (fun e => e.1 = e.2)).length := by
  have hR := buildFromEdges_represents N edges hin
  have hlen := builtRows_length N edges
  obtain ⟨h1, h2, -, h4⟩ := hR.offsets_ok
  refine ⟨h1, h2, ?_, ?_⟩
  · intro r hr
    have hr' : r < (builtRows N edges).length := by rw [hlen]; exact hr
    rw [hR.offs r (by omega), hR.offs (r + 1) (by omega), take_succ_flatten _ r hr',
      List.length_append, Nat.add_sub_cancel_left]
    simp only [builtRows, List.getElem_map, List.length_map]
    rw [← getD_pendingLists N edges hin r,
      getD_eq_getElem_nil _ r (by rw [pendingLists_length]; exact hr)]
  · have h4' : (buildFromEdges N edges).rowIndex.getD N 0 = (builtRows N edges).flatten.length :=
      h4
    rw [h4']
    unfold builtRows
    rw [flatten_map_map_length]
    unfold pendingLists
    rw [foldl_pendStep_flatten_length N edges hin _ (by simp)]
    have e0 : (List.replicate N ([] : List Nat)).flatten.length = 0 := by
      induction N with
      | zero => rfl
      | succ n ih => simp [List.replicate_succ]
    omega

theorem hadamardSingleStepCell_inv (A : csr) (row p cap : Nat) (st : SingleStepState)
    (out : List (Nat × Int)) (h : StepInv cap st out) (hcap : out.length < cap)
    (hr : row + 1 < st.newRowIndex.length) :
    StepInv cap (hadamardSingleStepCell A row st p) (out ++ (stepEmit A row p).toList) ∧
      (hadamardSingleStepCell A row st p).newRowIndex.length = st.newRowIndex.length ∧
      (hadamardSingleStepCell A row st p).newRowIndex.getD (row + 1) 0
        = st.newRowIndex.getD (row + 1) 0 + (stepEmit A row p).toList.length ∧
      ∀ r, r ≠ row + 1 →
        (hadamardSingleStepCell A row st p).newRowIndex.getD r 0 = st.newRowIndex.getD r 0 := by
  obtain ⟨lenV, lenC, cnt, vals, cols⟩ := h
  unfold hadamardSingleStepCell stepEmit
  by_cases hd : dot A row (A.colIndex.getD p 0) > 0
  · simp only [hd, if_true, Option.toList, List.length_singleton]
    refine ⟨⟨by simpa using lenV, by simpa using lenC, by simp [cnt], ?_, ?_⟩, by simp, ?_, ?_⟩
    · simp only
      rw [take_set_succ _ _ _ (by omega), vals]
      simp
    · simp only
      rw [take_set_succ _ _ _ (by omega), cols]
      simp
    · exact getD_set_eq _ _ _ _ hr
    · intro r hrne
      exact getD_set_ne _ _ _ _ _ (Ne.symm hrne)
  · simp only [hd, if_false, Option.toList, List.append_nil, List.length_nil, Nat.add_zero]
    exact ⟨⟨lenV, lenC, cnt, vals, cols⟩, trivial, trivial, fun _ _ => trivial⟩

theorem hadamardSingleStepCells_inv (A : csr) (row cap : Nat) (ps : List Nat)
    (st : SingleStepState) (out : List (Nat × Int)) (h : StepInv cap st out)
    (hcap : out.length + ps.length ≤ cap) (hr : row + 1 < st.newRowIndex.length) :
    StepInv cap (ps.foldl (hadamardSingleStepCell A row) st)
        (out ++ ps.filterMap (stepEmit A row)) ∧
      (ps.foldl (hadamardSingleStepCell A row) st).newRowIndex.length
        = st.newRowIndex.length ∧
      (ps.foldl (hadamardSingleStepCell A row) st).newRowIndex.getD (row + 1) 0
        = st.newRowIndex.getD (row + 1) 0 + (ps.filterMap (stepEmit A row)).length ∧
      ∀ r, r ≠ row + 1 →
        (ps.foldl (hadamardSingleStepCell A row) st).newRowIndex.getD r 0
          = st.newRowIndex.getD r 0 := by
  induction ps generalizing st out with
  | nil => exact ⟨by simpa using h, rfl, rfl, fun _ _ => rfl⟩
  | cons p ps ih =>
    simp only [List.length_cons] at hcap
    obtain ⟨c1, c2, c3, c4⟩ := hadamardSingleStepCell_inv A row p cap st out h (by omega) hr
    have hlen : (out ++ (stepEmit A row p).toList).length + ps.length ≤ cap := by
      cases stepEmit A row p <;> simp <;> omega
    obtain ⟨d1, d2, d3, d4⟩ := ih _ _ c1 hlen (by rw [c2]; exact hr)
    simp only [List.foldl_cons]
    have e : out ++ List.filterMap (stepEmit A row) (p :: ps)
        = out ++ (stepEmit A row p).toList ++ ps.filterMap (stepEmit A row) := by
      cases hp : stepEmit A row p <;> simp [List.filterMap_cons, hp]
    have e2 : (List.filterMap (stepEmit A row) (p :: ps)).length
        = (stepEmit A row p).toList.length + (ps.filterMap (stepEmit A row)).length := by
      cases hp : stepEmit A row p <;> simp [List.filterMap_cons, hp]; omega
    refine ⟨by rw [e]; exact d1, d2.trans c2, ?_, fun r hrne => (d4 r hrne).trans (c4 r hrne)⟩
    rw [d3, c3, e2]; omega

theorem stepRows_succ (A : csr) (k : Nat) :
    stepRows A (k + 1) = stepRows A k ++ [(rowPositions A k).filterMap (stepEmit A k)] := by
  simp [stepRows, List.range_succ]

theorem stepRows_length (A : csr) (k : Nat) : (stepRows A k).length = k := by
  simp [stepRows]

theorem stepRows_take (A : csr) (k r : Nat) (hr : r ≤ k) :
    (stepRows A k).take r = stepRows A r := by
  simp [stepRows, ← List.map_take, List.take_range, Nat.min_eq_left hr]

theorem hadamardSingleStepRow_inv (A : csr) (size k : Nat) (hk : k < size)
    (hmono : MonoOffsets A size) (st : SingleStepState) (h : StepRowInv A size k st) :
    StepRowInv A size (k + 1) (hadamardSingleStepRow A size st k) := by
  obtain ⟨inv, lenR, offs, next, bound⟩ := h
  have hnext := next hk
  have hk1 := hmono k hk
  have hks := hmono.le (k + 1) size (by omega) le_rfl
  obtain ⟨c1, c2, c3, c4⟩ := hadamardSingleStepCells_inv A k _ (rowPositions A k) st _ inv
    (by rw [rowPositions_length]; omega) (by omega)
  have hfl : (stepRows A k).flatten ++ (rowPositions A k).filterMap (stepEmit A k)
      = (stepRows A (k + 1)).flatten := by
    rw [stepRows_succ]; simp
  have hcount : (stepRows A (k + 1)).flatten.length
      = (stepRows A k).flatten.length + ((rowPositions A k).filterMap (stepEmit A k)).length := by
    rw [← hfl, List.length_append]
  have hb : (stepRows A (k + 1)).flatten.length + A.rowIndex.getD 0 0
      ≤ A.rowIndex.getD (k + 1) 0 := by
    have := filterMap_length_le (stepEmit A k) (rowPositions A k)
    rw [rowPositions_length] at this
    omega
  rw [hfl] at c1
  rw [hnext, ← hcount] at c3
  unfold hadamardSingleStepRow
  simp only
  rw [show List.range' (A.rowIndex.getD k 0)
      (A.rowIndex.getD (k + 1) 0 - A.rowIndex.getD k 0) = rowPositions A k from rfl]
  by_cases hl : k < size - 1
  · rw [if_pos hl]
    refine ⟨⟨c1.lenV, c1.lenC, c1.cnt, c1.vals, c1.cols⟩, by simp [c2, lenR], ?_, ?_, hb⟩
    · intro r hr
      simp only
      rw [getD_set_ne _ _ _ _ _ (by omega)]
      by_cases hrk : r = k + 1
      · subst hrk; exact c3
      · rw [c4 r hrk]; exact offs r (by omega)
    · intro _
      simp only
      rw [getD_set_eq _ _ _ _ (by omega)]
      exact c3
  · rw [if_neg hl]
    refine ⟨c1, by rw [c2, lenR], ?_, ?_, hb⟩
    · intro r hr
      by_cases hrk : r = k + 1
      · subst hrk; exact c3
      · rw [c4 r hrk]; exact offs r (by omega)
    · intro h'; omega

theorem hadamardSingleStep_represents (A : csr) (hmono : MonoOffsets A A.size) :
    Represents (hadamardSingleStep A 0 A.size) (stepRows A A.size) := by
  have key : ∀ k, k ≤ A.size → StepRowInv A A.size k
      ((List.range k).foldl (hadamardSingleStepRow A A.size)
        { newValues := List.replicate (A.rowIndex.getD A.size 0 - A.rowIndex.getD 0 0) 0
          newColIndex := List.replicate (A.rowIndex.getD A.size 0 - A.rowIndex.getD 0 0) 0
          newNonzeros := 0
          newRowIndex := List.replicate (A.size + 1) 0 }) := by
    intro k
    induction k with
    | zero =>
      intro _
      refine ⟨⟨by simp, by simp, by simp [stepRows], by simp [stepRows], by simp [stepRows]⟩,
        by simp, ?_, ?_, by simp [stepRows]⟩
      · intro r hr
        have : r = 0 := by omega
        subst this; simp [stepRows]
      · intro h
        simp [List.getD_eq_getElem?_getD, List.getElem?_replicate, h, stepRows]
    | succ k ih =>
      intro hk
      rw [List.range_succ, List.foldl_append]
      exact hadamardSingleStepRow_inv A A.size k (by omega) hmono _ (ih (by omega))
  obtain ⟨inv, lenR, offs, -, -⟩ := key A.size le_rfl
  have hn := inv.cnt
  unfold hadamardSingleStep
  simp only [Nat.sub_zero, ← List.range_eq_range']
  refine ⟨by simp [stepRows_length], by simp only [stepRows_length]; exact lenR, ?_, ?_, ?_⟩
  · intro r hr
    rw [stepRows_length] at hr
    rw [stepRows_take A A.size r hr]
    exact offs r hr
  · simp only
    rw [← hn]; exact inv.cols
  · simp only
    rw [← hn]; exact inv.vals

theorem filterMap_stepEmit (A : csr) (r : Nat) :
    (rowPositions A r).filterMap (stepEmit A r)
      = (rowEntries A r).filterMap
          (fun e => if dot A r e.1 > 0 then some (e.1, dot A r e.1) else none) := by
  unfold rowEntries
  rw [List.filterMap_map]
  rfl

/-- Claim C25: for a CSR matrix `A` that satisfies the data-model invariants,
`hadamardSingleStep A 0 A.size` has the size of `A`; its row `r` stores, in the order of
row `r` of `A`, exactly the entries `(c, dot A r c)` for the stored columns `c` of the
row with `dot A r c > 0`; and `rowIndex[r]` counts the entries of the rows before `r`,
so `rowIndex[0] = 0` and `rowIndex[size]` is the number of stored entries. -/
theorem hadamardSingleStep_rows (A : csr) (hA : WF A) :
    (hadamardSingleStep A 0 A.size).size = A.size ∧
      (∀ r < A.size, rowEntries (hadamardSingleStep A 0 A.size) r
        = (rowEntries A r).filterMap
            (fun e => if dot A r e.1 > 0 then some (e.1, dot A r e.1) else none)) ∧
      (hadamardSingleStep A 0 A.size).rowIndex.length = A.size + 1 ∧
      (hadamardSingleStep A 0 A.size).rowIndex.getD 0 0 = 0 ∧
      (∀ r ≤ A.size, (hadamardSingleStep A 0 A.size).rowIndex.getD r 0
        = ((List.range r).map
            (fun k => (rowEntries (hadamardSingleStep A 0 A.size) k).length)).sum) := by
  have hR := hadamardSingleStep_represents A hA.offsets_mono
  have hrows : ∀ r < A.size, rowEntries (hadamardSingleStep A 0 A.size) r
      = (rowPositions A r).filterMap (stepEmit A r) := by
    intro r hr
    rw [hR.rowEntries_eq r (by rw [stepRows_length]; exact hr)]
    simp [stepRows]
  have hsize : (hadamardSingleStep A 0 A.size).size = A.size := by
    rw [hR.size_eq, stepRows_length]
  obtain ⟨h1, h2, -, -⟩ := hR.offsets_ok
  refine ⟨hsize, ?_, by rw [h1, hsize], h2, ?_⟩
  · intro r hr
    rw [hrows r hr, filterMap_stepEmit]
  · intro r hr
    rw [hR.offs r (by rw [stepRows_length]; exact hr), stepRows_take A A.size r hr]
    unfold stepRows
    rw [flatten_length_map]
    congr 1
    apply List.map_congr_left
    intro k hk
    rw [List.mem_range] at hk
    rw [hrows k (by omega)]

theorem hadamardSingleStep_rows_witness :
    WF ⟨3, [1, 1, 1, 1, 1, 1], [1, 2, 0, 2, 0, 1], [0, 2, 4, 6]⟩ ∧
      rowEntries (hadamardSingleStep ⟨3, [1, 1, 1, 1, 1, 1], [1, 2, 0, 2, 0, 1], [0, 2, 4, 6]⟩
        0 3) 1 = [(0, 1), (2, 1)] :=
  ⟨by decide,
    (hadamardSingleStep_rows ⟨3, [1, 1, 1, 1, 1, 1], [1, 2, 0, 2, 0, 1], [0, 2, 4, 6]⟩
      (by decide)).2.1 1 (by decide)⟩

/-- Claim C22, evaluated on the symmetric 0/1 table of the complete graph on three
vertices: the legacy path `hadamard A (matmul T T)` stores two entries in every row,
the final path `newhadamard A (csrSquare A)` stores the rows `[(1,1)]`, `[(2,1)]` and
`[]`; the fused routine `hadamardSingleStep` stores what the legacy path stores. -/
theorem final_path_differs_complete3 :
    (matmul [[0, 1, 1], [1, 0, 1], [1, 1, 0]] [[0, 1, 1], [1, 0, 1], [1, 1, 0]] 3 3 3
        = [[2, 1, 1], [1, 2, 1], [1, 1, 2]]) ∧
      ((List.range 3).map (rowEntries (hadamard (matrixToCSR [[0, 1, 1], [1, 0, 1], [1, 1, 0]] 3)
          (matmul [[0, 1, 1], [1, 0, 1], [1, 1, 0]] [[0, 1, 1], [1, 0, 1], [1, 1, 0]] 3 3 3) 3))
        = [[(1, 1), (2, 1)], [(0, 1), (2, 1)], [(0, 1), (1, 1)]]) ∧
      ((List.range 3).map (rowEntries (newhadamard
          (matrixToCSR [[0, 1, 1], [1, 0, 1], [1, 1, 0]] 3)
          (csrSquare (matrixToCSR [[0, 1, 1], [1, 0, 1], [1, 1, 0]] 3) 3) 3))
        = [[(1, 1)], [(2, 1)], []]) ∧
      ((List.range 3).map (rowEntries (hadamardSingleStep
          (matrixToCSR [[0, 1, 1], [1, 0, 1], [1, 1, 0]] 3) 0 3))
        = [[(1, 1), (2, 1)], [(0, 1), (2, 1)], [(0, 1), (1, 1)]]) := by
  decide

theorem toInt32_add_left (x y : Int) : toInt32 (toInt32 x + y) = toInt32 (x + y) := by
  unfold toInt32; omega

theorem toInt32_step (c p s : Int) :
    toInt32 (toInt32 (c + toInt32 p) + s) = toInt32 (c + (p + s)) := by
  unfold toInt32; omega

theorem toInt32_mul_one (x : Int) : toInt32 (1 * toInt32 x) = toInt32 x := by
  rw [one_mul, toInt32_toInt32]

theorem cell_update (n : Nat) (mt : List (List Int)) (hd : SquareDims n mt) (i j : Nat)
    (hi : i < n) (hj : j < n) (v : Int) (hv : toInt32 v = v) :
    SquareDims n (mt.set i ((mt.getD i []).set j v)) ∧
      ∀ i' j', cellAt (mt.set i ((mt.getD i []).set j v)) i' j'
        = if i' = i ∧ j' = j then v else cellAt mt i' j' := by
  obtain ⟨hl, hr, hz⟩ := hd
  have hcell : ∀ i' j', cellAt (mt.set i ((mt.getD i []).set j v)) i' j'
      = if i' = i ∧ j' = j then v else cellAt mt i' j' := by
    intro i' j'
    unfold cellAt
    rw [getD_set_list _ _ _ _ (by omega)]
    by_cases h1 : i' = i
    · subst h1
      simp only [if_true, true_and]
      by_cases h2 : j' = j
      · subst h2
        rw [if_pos rfl, getD_set_eq _ _ _ _ (by rw [hr i' hi]; exact hj)]
      · rw [if_neg h2, getD_set_ne _ _ _ _ _ (Ne.symm h2)]
    · simp [h1]
  refine ⟨⟨by simp [hl], ?_, ?_⟩, hcell⟩
  · intro i' hi'
    rw [getD_set_list _ _ _ _ (by omega)]
    split
    · rw [List.length_set]; exact hr i hi
    · exact hr i' hi'
  · intro i' j'
    rw [hcell i' j']
    split
    · exact hv
    · exact hz i' j'

theorem matmul_kloop (n : Nat) (i j : Nat) (hi : i < n) (hj : j < n) (f : Nat → Int)
    (ks : List Nat) (mt : List (List Int)) (hd : SquareDims n mt) :
    SquareDims n (ks.foldl (fun mt k =>
        mt.set i ((mt.getD i []).set j (toInt32 ((mt.getD i []).getD j 0 + toInt32 (f k)))))
        mt) ∧
      ∀ i' j', cellAt (ks.foldl (fun mt k =>
          mt.set i ((mt.getD i []).set j (toInt32 ((mt.getD i []).getD j 0 + toInt32 (f k)))))
          mt) i' j'
        = if i' = i ∧ j' = j then toInt32 (cellAt mt i j + (ks.map f).sum)
          else cellAt mt i' j' := by
  induction ks generalizing mt with
  | nil =>
    refine ⟨hd, ?_⟩
    intro i' j'
    by_cases h : i' = i ∧ j' = j
    · rw [if_pos h, h.1, h.2]
      simp only [List.foldl_nil, List.map_nil, List.sum_nil, add_zero]
      exact (hd.2.2 i j).symm
    · rw [if_neg h]; rfl
  | cons k ks ih =>
    obtain ⟨d1, c1⟩ := cell_update n mt hd i j hi hj
      (toInt32 ((mt.getD i []).getD j 0 + toInt32 (f k))) (toInt32_toInt32 _)
    obtain ⟨d2, c2⟩ := ih _ d1
    rw [List.foldl_cons]
    refine ⟨d2, ?_⟩
    intro i' j'
    rw [c2 i' j', c1 i j, c1 i' j']
    by_cases h : i' = i ∧ j' = j
    · simp only [if_pos h, and_self, if_true, List.map_cons, List.sum_cons, cellAt]
      exact toInt32_step _ _ _
    · simp only [if_neg h]

theorem matmul_jloop (n : Nat) (i : Nat) (hi : i < n) (f : Nat → Nat → Int) (ks : List Nat)
    (js : List Nat) (hjs : ∀ j ∈ js, j < n) (hnd : js.Nodup) (mt : List (List Int))
    (hd : SquareDims n mt) :
    SquareDims n (js.foldl (fun mt j => ks.foldl (fun mt k =>
        mt.set i ((mt.getD i []).set j
          (toInt32 ((mt.getD i []).getD j 0 + toInt32 (f j k))))) mt) mt) ∧
      ∀ i' j', cellAt (js.foldl (fun mt j => ks.foldl (fun mt k =>
          mt.set i ((mt.getD i []).set j
            (toInt32 ((mt.getD i []).getD j 0 + toInt32 (f j k))))) mt) mt) i' j'
        = if i' = i ∧ j' ∈ js then toInt32 (cellAt mt i j' + (ks.map (f j')).sum)
          else cellAt mt i' j' := by
  induction js generalizing mt with
  | nil => exact ⟨hd, fun i' j' => by simp⟩
  | cons j js ih =>
    rw [List.nodup_cons] at hnd
    obtain ⟨d1, c1⟩ := matmul_kloop n i j hi (hjs j (List.mem_cons_self _ _)) (f j) ks mt hd
    obtain ⟨d2, c2⟩ := ih (fun x hx => hjs x (List.mem_cons_of_mem _ hx)) hnd.2 _ d1
    rw [List.foldl_cons]
    refine ⟨d2, ?_⟩
    intro i' j'
    rw [c2 i' j']
    by_cases h1 : i' = i
    · subst h1
      by_cases h2 : j' ∈ js
      · have hne : j' ≠ j := fun h => hnd.1 (h ▸ h2)
        rw [if_pos ⟨rfl, h2⟩, if_pos ⟨rfl, List.mem_cons_of_mem _ h2⟩, c1 i' j',
          if_neg (by simp [hne])]
      · rw [if_neg (by simp [h2]), c1 i' j']
        by_cases h3 : j' = j
        · subst h3
          rw [if_pos ⟨rfl, rfl⟩, if_pos ⟨rfl, List.mem_cons_self _ _⟩]
        · rw [if_neg (by simp [h3]), if_neg (by simp [h2, h3])]
    · rw [if_neg (by simp [h1]), if_neg (by simp [h1]), c1 i' j', if_neg (by simp [h1])]

theorem matmul_iloop (n : Nat) (f : Nat → Nat → Nat → Int) (ks js : List Nat)
    (hjs : ∀ j ∈ js, j < n) (hnd : js.Nodup)
    (is : List Nat) (his : ∀ i ∈ is, i < n) (hndi : is.Nodup) (mt : List (List Int))
    (hd : SquareDims n mt) :
    SquareDims n (is.foldl (fun mt i => js.foldl (fun mt j => ks.foldl (fun mt k =>
        mt.set i ((mt.getD i []).set j
          (toInt32 ((mt.getD i []).getD j 0 + toInt32 (f i j k))))) mt) mt) mt) ∧
      ∀ i' j', cellAt (is.foldl (fun mt i => js.foldl (fun mt j => ks.foldl (fun mt k =>
          mt.set i ((mt.getD i []).set j
            (toInt32 ((mt.getD i []).getD j 0 + toInt32 (f i j k))))) mt) mt) mt) i' j'
        = if i' ∈ is ∧ j' ∈ js then toInt32 (cellAt mt i' j' + (ks.map (f i' j')).sum)
          else cellAt mt i' j' := by
  induction is generalizing mt with
  | nil => exact ⟨hd, fun i' j' => by simp⟩
  | cons i is ih =>
    rw [List.nodup_cons] at hndi
    obtain ⟨d1, c1⟩ := matmul_jloop n i (his i (List.mem_cons_self _ _)) (f i) ks js hjs hnd
      mt hd
    obtain ⟨d2, c2⟩ := ih (fun x hx => his x (List.mem_cons_of_mem _ hx)) hndi.2 _ d1
    rw [List.foldl_cons]
    refine ⟨d2, ?_⟩
    intro i' j'
    rw [c2 i' j']
    by_cases h2 : j' ∈ js
    · by_cases h1 : i' ∈ is
      · have hne : i' ≠ i := fun h => hndi.1 (h ▸ h1)
        rw [if_pos ⟨h1, h2⟩, if_pos ⟨List.mem_cons_of_mem _ h1, h2⟩, c1 i' j',
          if_neg (by simp [hne])]
      · rw [if_neg (by simp [h1]), c1 i' j']
        by_cases h3 : i' = i
        · subst h3
          rw [if_pos ⟨rfl, h2⟩, if_pos ⟨List.mem_cons_self _ _, h2⟩]
        · rw [if_neg (by simp [h3]), if_neg (by simp [h1, h3])]
    · rw [if_neg (by simp [h2]), if_neg (by simp [h2]), c1 i' j', if_neg (by simp [h2])]

theorem matmul_clear (n : Nat) (is js : List Nat) (his : ∀ i ∈ is, i < n)
    (hjs : ∀ j ∈ js, j < n) (mt : List (List Int)) (hd : SquareDims n mt)
    (hz : ∀ i j, cellAt mt i j = 0) :
    SquareDims n (is.foldl (fun mt i =>
        js.foldl (fun mt j => mt.set i ((mt.getD i []).set j 0)) mt) mt) ∧
      ∀ i j, cellAt (is.foldl (fun mt i =>
        js.foldl (fun mt j => mt.set i ((mt.getD i []).set j 0)) mt) mt) i j = 0 := by
  have inner : ∀ (i : Nat), i < n → ∀ (js : List Nat), (∀ j ∈ js, j < n) →
      ∀ mt : List (List Int), SquareDims n mt → (∀ i j, cellAt mt i j = 0) →
      SquareDims n (js.foldl (fun mt j => mt.set i ((mt.getD i []).set j 0)) mt) ∧
        ∀ a b, cellAt (js.foldl (fun mt j => mt.set i ((mt.getD i []).set j 0)) mt) a b
          = 0 := by
    intro i hi js
    induction js with
    | nil => intro _ mt hd hz; exact ⟨hd, hz⟩
    | cons j js ih =>
      intro hjs mt hd hz
      obtain ⟨d1, c1⟩ := cell_update n mt hd i j hi (hjs j (List.mem_cons_self _ _)) 0
        toInt32_zero
      rw [List.foldl_cons]
      refine ih (fun x hx => hjs x (List.mem_cons_of_mem _ hx)) _ d1 ?_
      intro a b
      rw [c1 a b]
      split
      · rfl
      · exact hz a b
  induction is generalizing mt with
  | nil => exact ⟨hd, hz⟩
  | cons i is ih =>
    obtain ⟨d1, c1⟩ := inner i (his i (List.mem_cons_self _ _)) js hjs mt hd hz
    rw [List.foldl_cons]
    exact ih (fun x hx => his x (List.mem_cons_of_mem _ hx)) _ d1 c1

theorem matmul_cell (T1 T2 : List (List Int)) (n : Nat) (i j : Nat) (hi : i < n)
    (hj : j < n) :
    cellAt (matmul T1 T2 n n n) i j
      = toInt32 ((List.range n).map (fun k => cellAt T1 i k * cellAt T2 k j)).sum := by
  have hr : ∀ x ∈ List.range n, x < n := fun x hx => List.mem_range.mp hx
  have hz0 : ∀ a b, cellAt (List.replicate n (List.replicate n (0 : Int))) a b = 0 := by
    intro a b
    unfold cellAt
    simp only [List.getD_eq_getElem?_getD, List.getElem?_replicate]
    split
    · simp only [Option.getD_some, List.getElem?_replicate]
      split <;> rfl
    · rfl
  have hd0 : SquareDims n (List.replicate n (List.replicate n (0 : Int))) := by
    refine ⟨by simp, ?_, ?_⟩
    · intro a ha
      simp [List.getD_eq_getElem?_getD, List.getElem?_replicate, ha]
    · intro a b
      rw [hz0 a b]; exact toInt32_zero
  obtain ⟨d1, z1⟩ := matmul_clear n (List.range n) (List.range n) hr hr _ hd0 hz0
  obtain ⟨-, c2⟩ := matmul_iloop n (fun i j k => cellAt T1 i k * cellAt T2 k j)
    (List.range n) (List.range n) hr (List.nodup_range n) (List.range n) hr
    (List.nodup_range n) _ d1
  have := c2 i j
  rw [if_pos ⟨List.mem_range.mpr hi, List.mem_range.mpr hj⟩, z1 i j, zero_add] at this
  exact this

theorem hadamardCell_inv (A : csr) (square : List (List Int)) (row p cap : Nat)
    (st : MaskState) (out : List (Nat × Int)) (h : MaskInv cap st out)
    (hcap : out.length < cap) :
    MaskInv cap (hadamardCell A square row st p) (out ++ (legacyEmit A square row p).toList) ∧
      (hadamardCell A square row st p).newRowIndex = st.newRowIndex := by
  obtain ⟨lenV, lenC, cnt, vals, cols⟩ := h
  unfold hadamardCell legacyEmit
  by_cases hd :
      toInt32 (A.values.getD p 0 * (square.getD row []).getD (A.colIndex.getD p 0) 0) > 0
  · simp only [hd, if_true, Option.toList]
    refine ⟨⟨by simpa using lenV, by simpa using lenC, by simp [cnt], ?_, ?_⟩, trivial⟩
    · simp only
      rw [take_set_succ _ _ _ (by omega), vals]
      simp
    · simp only
      rw [take_set_succ _ _ _ (by omega), cols]
      simp
  · simp only [hd, if_false, Option.toList, List.append_nil]
    exact ⟨⟨lenV, lenC, cnt, vals, cols⟩, trivial⟩

theorem hadamardCells_inv (A : csr) (square : List (List Int)) (row cap : Nat) (ps : List Nat)
    (st : MaskState) (out : List (Nat × Int)) (h : MaskInv cap st out)
    (hcap : out.length + ps.length ≤ cap) :
    MaskInv cap (ps.foldl (hadamardCell A square row) st)
        (out ++ ps.filterMap (legacyEmit A square row)) ∧
      (ps.foldl (hadamardCell A square row) st).newRowIndex = st.newRowIndex := by
  induction ps generalizing st out with
  | nil => exact ⟨by simpa using h, rfl⟩
  | cons p ps ih =>
    simp only [List.length_cons] at hcap
    obtain ⟨c1, c2⟩ := hadamardCell_inv A square row p cap st out h (by omega)
    have hlen : (out ++ (legacyEmit A square row p).toList).length + ps.length ≤ cap := by
      cases legacyEmit A square row p <;> simp <;> omega
    obtain ⟨d1, d2⟩ := ih _ _ c1 hlen
    simp only [List.foldl_cons]
    have e : out ++ List.filterMap (legacyEmit A square row) (p :: ps)
        = out ++ (legacyEmit A square row p).toList ++ ps.filterMap (legacyEmit A square row) := by
      cases hp : legacyEmit A square row p <;> simp [List.filterMap_cons, hp]
    exact ⟨by rw [e]; exact d1, d2.trans c2⟩

theorem legacyRows_succ (A : csr) (square : List (List Int)) (k : Nat) :
    legacyRows A square (k + 1)
      = legacyRows A square k ++ [(rowPositions A k).filterMap (legacyEmit A square k)] := by
  simp [legacyRows, List.range_succ]

theorem legacyRows_length (A : csr) (square : List (List Int)) (k : Nat) :
    (legacyRows A square k).length = k := by
  simp [legacyRows]

theorem legacyRows_take (A : csr) (square : List (List Int)) (k r : Nat) (hr : r ≤ k) :
    (legacyRows A square k).take r = legacyRows A square r := by
  simp [legacyRows, ← List.map_take, List.take_range, Nat.min_eq_left hr]

theorem hadamardRow_inv (A : csr) (square : List (List Int)) (size k : Nat) (hk : k < size)
    (hmono : MonoOffsets A size) (st : MaskState) (h : MaskRowInv A square size k st) :
    MaskRowInv A square size (k + 1) (hadamardRow A square size st k) := by
  obtain ⟨inv, lenR, offs, -, bound⟩ := h
  have hk1 := hmono k hk
  have hks := hmono.le (k + 1) size (by omega) le_rfl
  have inv0 : MaskInv (A.rowIndex.getD size 0)
      { st with newRowIndex := st.newRowIndex.set k st.newNonzeros }
      (legacyRows A square k).flatten :=
    ⟨inv.lenV, inv.lenC, inv.cnt, inv.vals, inv.cols⟩
  obtain ⟨c1, c2⟩ := hadamardCells_inv A square k _ (rowPositions A k) _ _ inv0
    (by rw [rowPositions_length]; omega)
  have hfl : (legacyRows A square k).flatten ++ (rowPositions A k).filterMap (legacyEmit A square k)
      = (legacyRows A square (k + 1)).flatten := by
    rw [legacyRows_succ]; simp
  have hb : (legacyRows A square (k + 1)).flatten.length + A.rowIndex.getD 0 0
      ≤ A.rowIndex.getD (k + 1) 0 := by
    have := filterMap_length_le (legacyEmit A square k) (rowPositions A k)
    rw [rowPositions_length] at this
    rw [← hfl, List.length_append]
    omega
  rw [hfl] at c1
  have hoffs : ∀ r < k + 1, (st.newRowIndex.set k st.newNonzeros).getD r 0
      = (legacyRows A square r).flatten.length := by
    intro r hr
    by_cases hrk : r = k
    · subst hrk
      rw [getD_set_eq _ _ _ _ (by omega)]
      exact inv.cnt
    · rw [getD_set_ne _ _ _ _ _ (Ne.symm hrk)]
      exact offs r (by omega)
  unfold hadamardRow
  simp only
  rw [show List.range' (A.rowIndex.getD k 0)
      (A.rowIndex.getD (k + 1) 0 - A.rowIndex.getD k 0) = rowPositions A k from rfl]
  by_cases hl : k = size - 1
  · rw [if_pos hl]
    refine ⟨⟨c1.lenV, c1.lenC, c1.cnt, c1.vals, c1.cols⟩, by simp [c2, lenR], ?_, ?_, hb⟩
    · intro r hr
      simp only
      rw [getD_set_ne _ _ _ _ _ (by omega), c2]
      exact hoffs r hr
    · intro _
      simp only
      rw [getD_set_eq _ _ _ _ (by rw [c2]; simp [lenR])]
      exact c1.cnt
  · rw [if_neg hl]
    refine ⟨c1, by rw [c2]; simp [lenR], ?_, ?_, hb⟩
    · intro r hr
      rw [c2]
      exact hoffs r hr
    · intro h'; omega

theorem hadamard_represents (A : csr) (square : List (List Int)) (size : Nat)
    (hmono : MonoOffsets A size) :
    Represents (hadamard A square size) (legacyRows A square size) := by
  have key : ∀ k, k ≤ size → MaskRowInv A square size k
      ((List.range k).foldl (hadamardRow A square size)
        { newValues := List.replicate (A.rowIndex.getD size 0) 0
          newColIndex := List.replicate (A.rowIndex.getD size 0) 0
          newNonzeros := 0
          newRowIndex := List.replicate (size + 1) 0 }) := by
    intro k
    induction k with
    | zero =>
      intro _
      refine ⟨⟨by simp, by simp, by simp [legacyRows], by simp [legacyRows],
        by simp [legacyRows]⟩, by simp, ?_, ?_, by simp [legacyRows]⟩
      · intro r hr; omega
      · intro h
        simp [List.getD_eq_getElem?_getD, List.getElem?_replicate, legacyRows]
    | succ k ih =>
      intro hk
      rw [List.range_succ, List.foldl_append]
      exact hadamardRow_inv A square size k (by omega) hmono _ (ih (by omega))
  obtain ⟨inv, lenR, offs, last, -⟩ := key size le_rfl
  have hn := inv.cnt
  unfold hadamard
  refine ⟨by simp [legacyRows_length], by simp only [legacyRows_length]; exact lenR, ?_, ?_, ?_⟩
  · intro r hr
    rw [legacyRows_length] at hr
    rw [legacyRows_take A square size r hr]
    rcases Nat.eq_or_lt_of_le hr with e | l
    · subst e; exact last rfl
    · exact offs r l
  · simp only
    rw [← hn]; exact inv.cols
  · simp only
    rw [← hn]; exact inv.vals

theorem lookup_filter_map (l : List Nat) (p : Nat → Bool) (g : Nat → Int) (k : Nat) :
    lookup ((l.filter p).map (fun j => (j, g j))) k
      = if k ∈ l ∧ p k = true then g k else 0 := by
  induction l with
  | nil => simp [lookup_nil]
  | cons a l ih =>
    by_cases ha : p a = true
    · rw [List.filter_cons_of_pos ha, List.map_cons, lookup_cons, ih]
      by_cases hk : k = a
      · subst hk; simp [ha]
      · simp [hk]
    · rw [List.filter_cons_of_neg ha, ih]
      by_cases hk : k = a
      · subst hk; simp [ha]
      · simp [hk]

theorem lookup_nonzeroCells (T : List (List Int)) (n r k : Nat) (hk : k < n) :
    lookup (nonzeroCells T n r) k = cellAt T r k := by
  unfold nonzeroCells
  rw [lookup_filter_map]
  unfold cellAt
  by_cases h : (T.getD r []).getD k 0 = 0
  · rw [if_neg (by simp only [ne_eq, h, not_true_eq_false, decide_False, Bool.false_eq_true,
      and_false, not_false_eq_true]), h]
  · rw [if_pos ⟨List.mem_range.mpr hk, by simp only [ne_eq, h, not_false_eq_true,
      decide_True]⟩]

theorem mem_nonzeroCells (T : List (List Int)) (n r : Nat) (e : Nat × Int)
    (h : e ∈ nonzeroCells T n r) : e.1 < n ∧ e.2 = cellAt T r e.1 ∧ cellAt T r e.1 ≠ 0 := by
  unfold nonzeroCells at h
  rw [List.mem_map] at h
  obtain ⟨j, hj, rfl⟩ := h
  rw [List.mem_filter, List.mem_range] at hj
  exact ⟨hj.1, rfl, by simpa [cellAt] using hj.2⟩

theorem dot_matrixToCSR (T : List (List Int)) (n : Nat)
    (hsym : ∀ i < n, ∀ j < n, cellAt T i j = cellAt T j i) (r c : Nat) (hr : r < n)
    (hc : c < n) :
    dot (matrixToCSR T n) r c = cellAt (matmul T T n n n) r c := by
  obtain ⟨hrows, -⟩ := dense_represents_rows (matrixToCSR T n) T n (matrixToCSR_represents T n)
  have hnd : ((rowEntries (matrixToCSR T n) r).map Prod.fst).Nodup :=
    ((hrows r hr).2.imp (fun h => Nat.ne_of_lt h))
  have hlt : ∀ x ∈ (rowEntries (matrixToCSR T n) r).map Prod.fst, x < n := by
    intro x hx
    rw [List.mem_map] at hx
    obtain ⟨e, he, rfl⟩ := hx
    rw [(hrows r hr).1] at he
    exact (mem_nonzeroCells T n r e he).1
  rw [dot_eq_sum, sum_lookup _ n (fun k => lookup (rowEntries (matrixToCSR T n) c) k) hnd hlt,
    matmul_cell T T n r c hr hc, (hrows r hr).1, (hrows c hc).1]
  refine congrArg toInt32 (congrArg List.sum (List.map_congr_left ?_))
  intro k hk
  rw [List.mem_range] at hk
  rw [lookup_nonzeroCells T n r k hk, lookup_nonzeroCells T n c k hk, hsym c hc k hk]

theorem hadamardSingleStep_eq_hadamard (T : List (List Int)) (n : Nat)
    (h01 : ∀ i < n, ∀ j < n, cellAt T i j = 0 ∨ cellAt T i j = 1)
    (hsym : ∀ i < n, ∀ j < n, cellAt T i j = cellAt T j i) (r : Nat) (hr : r < n) :
    rowEntries (hadamardSingleStep (matrixToCSR T n) 0 n) r
      = rowEntries (hadamard (matrixToCSR T n) (matmul T T n n n) n) r := by
  have hR := matrixToCSR_represents T n
  have hsz : (matrixToCSR T n).size = n := by rw [hR.size_eq, denseRows_length]
  obtain ⟨hrows, -⟩ := dense_represents_rows (matrixToCSR T n) T n hR
  have hmono : MonoOffsets (matrixToCSR T n) n := by
    have := hR.mono
    rw [hsz] at this
    exact this
  have hS : Represents (hadamardSingleStep (matrixToCSR T n) 0 n)
      (stepRows (matrixToCSR T n) n) := by
    have := hadamardSingleStep_represents (matrixToCSR T n) (by rw [hsz]; exact hmono)
    rw [hsz] at this
    exact this
  have hL := hadamard_represents (matrixToCSR T n) (matmul T T n n n) n hmono
  rw [hS.rowEntries_eq r (by rw [stepRows_length]; exact hr),
    hL.rowEntries_eq r (by rw [legacyRows_length]; exact hr)]
  simp only [stepRows, legacyRows, List.getElem_map, List.getElem_range]
  apply List.filterMap_congr
  intro p hp
  have hmem : ((matrixToCSR T n).colIndex.getD p 0, (matrixToCSR T n).values.getD p 0)
      ∈ nonzeroCells T n r := by
    rw [← (hrows r hr).1]
    unfold rowEntries
    exact List.mem_map.mpr ⟨p, hp, rfl⟩
  obtain ⟨hc, hv, hne⟩ := mem_nonzeroCells T n r _ hmem
  simp only at hc hv hne
  have hone : (matrixToCSR T n).values.getD p 0 = 1 := by
    rcases h01 r hr _ hc with h0 | h1
    · exact absurd h0 hne
    · rw [hv, h1]
  have hcell : ((matmul T T n n n).getD r []).getD ((matrixToCSR T n).colIndex.getD p 0) 0
      = dot (matrixToCSR T n) r ((matrixToCSR T n).colIndex.getD p 0) :=
    (dot_matrixToCSR T n hsym r _ hr hc).symm
  have hwrap : toInt32 (dot (matrixToCSR T n) r ((matrixToCSR T n).colIndex.getD p 0))
      = dot (matrixToCSR T n) r ((matrixToCSR T n).colIndex.getD p 0) := by
    rw [dot_eq_sum, toInt32_toInt32]
  unfold stepEmit legacyEmit
  rw [hone, one_mul, hcell, hwrap]

theorem flattenCellsChecked_eq (valuesByRow : List (List Nat)) (row : Nat) (cs : List Nat)
    (st st' : List Nat × List Nat)
    (h : cs.foldlM (flattenCellChecked valuesByRow row) st = some st') :
    st' = cs.foldl (flattenCell valuesByRow row) st := by
  induction cs generalizing st with
  | nil =>
    simp only [List.foldlM_nil, Option.pure_def, Option.some.injEq] at h
    exact h.symm
  | cons c cs ih =>
    rw [List.foldlM_cons] at h
    unfold flattenCellChecked at h
    by_cases hb : row + 1 < st.1.length
    · rw [if_pos hb] at h
      exact ih _ h
    · rw [if_neg hb] at h
      exact absurd h (by simp)

theorem flattenCells_length (valuesByRow : List (List Nat)) (row : Nat) (cs : List Nat)
    (st : List Nat × List Nat) :
    (cs.foldl (flattenCell valuesByRow row) st).1.length = st.1.length := by
  induction cs generalizing st with
  | nil => rfl
  | cons c cs ih => rw [List.foldl_cons, ih, flattenCell_length]

theorem flattenRowChecked_length (valuesByRow : List (List Nat)) (N row : Nat)
    (st st' : List Nat × List Nat) (h : flattenRowChecked valuesByRow N st row = some st') :
    st'.1.length = st.1.length := by
  unfold flattenRowChecked at h
  simp only at h
  cases hc : (List.range' 1 ((valuesByRow.getD row []).getD 0 0)).foldlM
      (flattenCellChecked valuesByRow row) st with
  | none => rw [hc] at h; exact absurd h (by simp)
  | some s =>
    rw [hc] at h
    have hs := flattenCellsChecked_eq valuesByRow row _ st s hc
    have hl : s.1.length = st.1.length := by rw [hs, flattenCells_length]
    simp only at h
    by_cases h1 : row < N - 1
    · rw [if_pos h1] at h
      by_cases h2 : row + 2 < s.1.length
      · rw [if_pos h2, Option.some.injEq] at h
        rw [← h]
        simp only [List.length_set]
        exact hl
      · rw [if_neg h2] at h; exact absurd h (by simp)
    · rw [if_neg h1, Option.some.injEq] at h
      rw [← h]; exact hl

theorem flattenRowsChecked_length (valuesByRow : List (List Nat)) (N : Nat) (rows : List Nat)
    (st st' : List Nat × List Nat)
    (h : rows.foldlM (flattenRowChecked valuesByRow N) st = some st') :
    st'.1.length = st.1.length := by
  induction rows generalizing st with
  | nil =>
    simp only [List.foldlM_nil, Option.pure_def, Option.some.injEq] at h
    rw [h]
  | cons r rows ih =>
    rw [List.foldlM_cons] at h
    cases hr : flattenRowChecked valuesByRow N st r with
    | none => rw [hr] at h; exact absurd h (by simp)
    | some s =>
      rw [hr] at h
      rw [ih s h]
      exact flattenRowChecked_length valuesByRow N r st s hr

theorem flattenRowChecked_short (valuesByRow : List (List Nat)) (N : Nat) (hN : 2 ≤ N)
    (st : List Nat × List Nat) (hl : st.1.length = N) :
    flattenRowChecked valuesByRow N st (N - 2) = none := by
  unfold flattenRowChecked
  simp only
  cases hc : (List.range' 1 ((valuesByRow.getD (N - 2) []).getD 0 0)).foldlM
      (flattenCellChecked valuesByRow (N - 2)) st with
  | none => rfl
  | some s =>
    have hs := flattenCellsChecked_eq valuesByRow (N - 2) _ st s hc
    have hl' : s.1.length = N := by rw [hs, flattenCells_length, hl]
    simp only
    rw [if_pos (by omega), if_neg (by omega)]

theorem flattenRowsChecked_short (valuesByRow : List (List Nat)) (N : Nat) (hN : 2 ≤ N)
    (st : List Nat × List Nat) (hl : st.1.length = N) :
    (List.range N).foldlM (flattenRowChecked valuesByRow N) st = none := by
  have e : List.range N = List.range (N - 2) ++ [N - 2] ++ [N - 1] := by
    have h1 : N = (N - 2) + 1 + 1 := by omega
    conv_lhs => rw [h1, List.range_succ, List.range_succ]
    have h2 : N - 2 + 1 = N - 1 := by omega
    rw [h2]
  rw [e, List.foldlM_append, List.foldlM_append]
  cases hc : (List.range (N - 2)).foldlM (flattenRowChecked valuesByRow N) st with
  | none => rfl
  | some s =>
    have hl' : s.1.length = N := by
      rw [flattenRowsChecked_length valuesByRow N _ st s hc, hl]
    simp only [Option.bind_eq_bind, Option.some_bind, List.foldlM_cons, List.foldlM_nil,
      flattenRowChecked_short valuesByRow N hN s hl', Option.none_bind]

theorem buildFromEdgesChecked_none (N : Nat) (hN : 2 ≤ N) (edges : List (Nat × Nat)) :
    buildFromEdgesChecked N N edges = none := by
  unfold buildFromEdgesChecked
  simp only
  rw [flattenRowsChecked_short _ N hN _ (by simp)]

theorem flattenCellsChecked_some (valuesByRow : List (List Nat)) (row : Nat) (cs : List Nat)
    (st : List Nat × List Nat) (hl : row + 1 < st.1.length) :
    cs.foldlM (flattenCellChecked valuesByRow row) st
      = some (cs.foldl (flattenCell valuesByRow row) st) := by
  induction cs generalizing st with
  | nil => rfl
  | cons c cs ih =>
    rw [List.foldlM_cons, List.foldl_cons]
    unfold flattenCellChecked
    rw [if_pos hl]
    exact ih _ (by rw [flattenCell_length]; exact hl)

theorem flattenRowChecked_some (valuesByRow : List (List Nat)) (N row : Nat) (hr : row < N)
    (st : List Nat × List Nat) (hl : st.1.length = N + 1) :
    flattenRowChecked valuesByRow N st row = some (flattenRow valuesByRow N st row) := by
  unfold flattenRowChecked flattenRow
  simp only
  rw [flattenCellsChecked_some valuesByRow row _ st (by omega)]
  simp only
  by_cases h1 : row < N - 1
  · rw [if_pos h1, if_pos h1, if_pos (by rw [flattenCells_length, hl]; omega)]
  · rw [if_neg h1, if_neg h1]

theorem flattenRowsChecked_some (valuesByRow : List (List Nat)) (N : Nat) (rows : List Nat)
    (hrows : ∀ r ∈ rows, r < N) (st : List Nat × List Nat) (hl : st.1.length = N + 1) :
    rows.foldlM (flattenRowChecked valuesByRow N) st
      = some (rows.foldl (flattenRow valuesByRow N) st) := by
  induction rows generalizing st with
  | nil => rfl
  | cons r rows ih =>
    rw [List.foldlM_cons, List.foldl_cons,
      flattenRowChecked_some valuesByRow N r (hrows r (List.mem_cons_self _ _)) st hl]
    exact ih (fun x hx => hrows x (List.mem_cons_of_mem _ hx)) _
      (by rw [flattenRow_length, hl])

theorem buildFromEdgesChecked_succ (N : Nat) (edges : List (Nat × Nat)) :
    buildFromEdgesChecked (N + 1) N edges = some (buildFromEdges N edges) := by
  unfold buildFromEdgesChecked buildFromEdges
  simp only
  rw [flattenRowsChecked_some _ N _ (fun r hr => List.mem_range.mp hr) _ (by simp)]

theorem rowList_rowBuf (pend : List Nat) : rowList (rowBuf pend) = pend := by
  unfold rowList rowBuf
  simp

theorem rowList_edgeLoop (N : Nat) (edges : List (Nat × Nat)) (hin : InRange N edges)
    (r : Nat) (hr : r < N) :
    rowList ((edges.foldl edgeStep (List.replicate N [0, 0], 0)).1.getD r [])
      = pendingOf edges r := by
  rw [edgeLoop_eq N edges hin]
  simp only
  rw [getD_map_rowBuf _ r (by rw [pendingLists_length]; exact hr), rowList_rowBuf,
    getD_pendingLists N edges hin r]

theorem rowList_count_symm (N : Nat) (edges : List (Nat × Nat)) (hin : InRange N edges)
    (i j : Nat) (hi : i < N) (hj : j < N) :
    (rowList ((edges.foldl edgeStep (List.replicate N [0, 0], 0)).1.getD i [])).count j
      = (rowList ((edges.foldl edgeStep (List.replicate N [0, 0], 0)).1.getD j [])).count i := by
  rw [rowList_edgeLoop N edges hin i hi, rowList_edgeLoop N edges hin j hj,
    ← getD_pendingLists N edges hin i, ← getD_pendingLists N edges hin j]
  exact count_pendingLists N edges hin i j

/-- Claim C18, amended: for every edge list with endpoints in `1..N` that lists every
edge once (no pair twice, no pair with distinct endpoints in both directions), the
column list the edge loop of `readmtx_dynamic` collects for a row `r < N`, the slots
`1..count` of `valuesByRow[r]` that the flattening copies into row `r` of the matrix,
is the pending list of the row and holds no column index twice. -/
theorem rowList_nodup (N : Nat) (edges : List (Nat × Nat)) (hin : InRange N edges)
    (hon : ListedOnce edges) (r : Nat) (hr : r < N) :
    rowList ((edges.foldl edgeStep (List.replicate N [0, 0], 0)).1.getD r [])
        = pendingOf edges r ∧
      (rowList ((edges.foldl edgeStep (List.replicate N [0, 0], 0)).1.getD r [])).Nodup := by
  rw [rowList_edgeLoop N edges hin r hr]
  exact ⟨rfl, pendingOf_nodup N edges hin hon r⟩

theorem rowList_nodup_witness :
    InRange 3 [(1, 2), (1, 3), (2, 3), (3, 3)] ∧ ListedOnce [(1, 2), (1, 3), (2, 3), (3, 3)] ∧
      rowList ((([(1, 2), (1, 3), (2, 3), (3, 3)] : List (Nat × Nat)).foldl edgeStep
        (List.replicate 3 [0, 0], 0)).1.getD 2 []) = [0, 1, 2] ∧
      (rowList ((([(1, 2), (1, 3), (2, 3), (3, 3)] : List (Nat × Nat)).foldl edgeStep
        (List.replicate 3 [0, 0], 0)).1.getD 2 [])).Nodup :=
  ⟨by decide, by decide, by decide,
    (rowList_nodup 3 [(1, 2), (1, 3), (2, 3), (3, 3)] (by decide) (by decide) 2
      (by decide)).2⟩

end PdsPart1
